import Mathlib

/-!
# granola-exporter: a shallow embedding of package `exporter`

Go strings are byte sequences, so every string of the program is a list of
byte values here (`GoString`).  `len(s)` is `List.length`, `s[:n]` is
`List.take`, and the functions of package `strings`, `unicode/utf8` and
`regexp` that the program calls are written out over bytes, decoding UTF-8
the way the Go runtime does (an invalid byte is the rune U+FFFD of width 1).

Two library tables are not part of the repository and are taken as a
parameter (`GoLib`): `time.Parse` and the lower-case mapping of the runes
beyond ASCII.
-/

namespace GranolaExporter

/-! ## Bytes, runes and package `strings` -/

/-- A Go string: a sequence of bytes, each a value below 256. -/
abbrev GoString := List Nat

/-- The rune `utf8.RuneError`, U+FFFD. -/
def RuneError : Nat := 0xFFFD

/-- Go's `utf8.AppendRune`: the UTF-8 encoding of a rune; surrogates and
values beyond U+10FFFF are written as U+FFFD. -/
def encodeRune (r : Nat) : GoString :=
  if r < 0x80 then [r]
  else if r < 0x800 then [0xC0 + r / 64, 0x80 + r % 64]
  else if 0x10FFFF < r ∨ (0xD800 ≤ r ∧ r ≤ 0xDFFF) then [0xEF, 0xBF, 0xBD]
  else if r < 0x10000 then [0xE0 + r / 4096, 0x80 + r / 64 % 64, 0x80 + r % 64]
  else [0xF0 + r / 262144, 0x80 + r / 4096 % 64, 0x80 + r / 64 % 64, 0x80 + r % 64]

/-- The bytes of a string literal of the source (its UTF-8 encoding). -/
def lit (s : String) : GoString := s.data.flatMap (fun c => encodeRune c.toNat)

/-- A continuation byte of UTF-8, `0x80..0xBF`. -/
def isCont (b : Nat) : Bool := 0x80 ≤ b && b ≤ 0xBF

/-- Go's `utf8.DecodeRuneInString`: the first rune of `s` and its width in
bytes.  The empty string gives `(RuneError, 0)`, an invalid or incomplete
encoding gives `(RuneError, 1)`.  The second byte of a three or four byte
sequence is checked against the range that the first byte accepts (no
overlong forms, no surrogates, nothing beyond U+10FFFF). -/
def decodeRune : GoString → Nat × Nat
  | [] => (RuneError, 0)
  | b0 :: rest =>
    if b0 < 0x80 then (b0, 1)
    else if b0 < 0xC2 then (RuneError, 1)
    else if b0 < 0xE0 then
      match rest with
      | b1 :: _ =>
        if isCont b1 then ((b0 - 0xC0) * 64 + (b1 - 0x80), 2) else (RuneError, 1)
      | [] => (RuneError, 1)
    else if b0 < 0xF0 then
      match rest with
      | b1 :: b2 :: _ =>
        let lo := if b0 = 0xE0 then 0xA0 else 0x80
        let hi := if b0 = 0xED then 0x9F else 0xBF
        if lo ≤ b1 ∧ b1 ≤ hi ∧ isCont b2 then
          ((b0 - 0xE0) * 4096 + (b1 - 0x80) * 64 + (b2 - 0x80), 3)
        else (RuneError, 1)
      | _ => (RuneError, 1)
    else if b0 < 0xF5 then
      match rest with
      | b1 :: b2 :: b3 :: _ =>
        let lo := if b0 = 0xF0 then 0x90 else 0x80
        let hi := if b0 = 0xF4 then 0x8F else 0xBF
        if lo ≤ b1 ∧ b1 ≤ hi ∧ isCont b2 ∧ isCont b3 then
          ((b0 - 0xF0) * 262144 + (b1 - 0x80) * 4096 + (b2 - 0x80) * 64 + (b3 - 0x80), 4)
        else (RuneError, 1)
      | _ => (RuneError, 1)
    else (RuneError, 1)

/-- Go's `utf8.DecodeLastRuneInString`: the last rune of `s` and its width.
It walks back over at most three continuation bytes to a start byte, decodes
from there, and answers `(RuneError, 1)` unless that rune ends exactly at the
end of `s`. -/
def decodeLastRune (s : GoString) : Nat × Nat :=
  match s.reverse with
  | [] => (RuneError, 0)
  | l0 :: before =>
    if l0 < 0x80 then (l0, 1)
    else
      -- number of bytes stepped back before a start byte (or the limit) is met
      let back : Nat :=
        match before with
        | [] => 0
        | l1 :: before1 =>
          if !isCont l1 then 1
          else match before1 with
            | [] => 1
            | l2 :: before2 =>
              if !isCont l2 then 2
              else match before2 with
                | [] => 2
                | l3 :: before3 =>
                  if !isCont l3 then 3
                  else match before3 with
                    | [] => 3
                    | _ :: _ => 4
      let start := s.length - 1 - back
      let (r, size) := decodeRune (s.drop start)
      if start + size ≠ s.length then (RuneError, 1) else (r, size)

/-- Go's `unicode.IsSpace`: the runes with the White_Space property. -/
def isSpace (r : Nat) : Bool :=
  r = 0x09 || r = 0x0A || r = 0x0B || r = 0x0C || r = 0x0D || r = 0x20 ||
  r = 0x85 || r = 0xA0 || r = 0x1680 || (0x2000 ≤ r && r ≤ 0x200A) ||
  r = 0x2028 || r = 0x2029 || r = 0x202F || r = 0x205F || r = 0x3000

/-- Whether `s` begins with a white space rune. -/
def startsSpace (s : GoString) : Bool :=
  (decodeRune s).2 ≠ 0 && isSpace (decodeRune s).1

/-- Whether `s` ends with a white space rune. -/
def endsSpace (s : GoString) : Bool :=
  (decodeLastRune s).2 ≠ 0 && isSpace (decodeLastRune s).1

/-- The loop of `strings.TrimLeftFunc(s, unicode.IsSpace)`; `fuel` bounds the
number of runes removed. -/
def trimLeftLoop : Nat → GoString → GoString
  | 0, s => s
  | fuel + 1, s =>
    if startsSpace s then trimLeftLoop fuel (s.drop (decodeRune s).2) else s

/-- The loop of `strings.TrimRightFunc(s, unicode.IsSpace)`. -/
def trimRightLoop : Nat → GoString → GoString
  | 0, s => s
  | fuel + 1, s =>
    if endsSpace s then trimRightLoop fuel (s.take (s.length - (decodeLastRune s).2)) else s

/-- Go's `strings.TrimSpace`: `s` without its leading and trailing white
space runes.  (The ASCII fast path of the library computes the same slice.) -/
def TrimSpace (s : GoString) : GoString :=
  let l := trimLeftLoop s.length s
  trimRightLoop l.length l

/-- Go's `strings.HasPrefix`. -/
def HasPrefix : GoString → GoString → Bool
  | _, [] => true
  | [], _ :: _ => false
  | c :: s, p :: ps => c = p && HasPrefix s ps

/-- Go's `strings.Contains(s, substr)`. -/
def Contains : GoString → GoString → Bool
  | [], sub => HasPrefix [] sub
  | c :: s, sub => HasPrefix (c :: s) sub || Contains s sub

/-- What `strings.SplitN(s, sep, 2)` puts in `parts[1]`: the text after the
first occurrence of `sep`, or `none` when `sep` does not occur (the result
then has a single part). -/
def afterFirst (sep : GoString) : GoString → Option GoString
  | [] => if HasPrefix [] sep then some [] else none
  | c :: s => if HasPrefix (c :: s) sep then some ((c :: s).drop sep.length) else afterFirst sep s

/-- Go's `strings.Join(lines, "\n")`. -/
def joinLines : List GoString → GoString
  | [] => []
  | [l] => l
  | l :: ls => l ++ 10 :: joinLines ls

/-- The ASCII lower-case of a byte (`'A'..'Z'` moved to `'a'..'z'`). -/
def asciiLower (b : Nat) : Nat := if 0x41 ≤ b ∧ b ≤ 0x5A then b + 0x20 else b

/-- The parts of the Go standard library whose tables are not in the
repository: `time.Parse(layout, value)` (`none` is a parse error) and
`unicode.ToLower` on the runes from U+0080 on. -/
structure GoLib where
  timeParse : GoString → GoString → Option (Nat × Nat × Nat × Nat × Nat)
  toLowerRune : Nat → Nat

/-- Go's `strings.Map(mapping, s)` for a mapping that drops no rune: every
rune of `s`, an invalid byte counting as U+FFFD, is replaced by the encoding
of its image.  `fuel` bounds the number of runes. -/
def mapRunes (mapping : Nat → Nat) : Nat → GoString → GoString
  | 0, _ => []
  | _, [] => []
  | fuel + 1, b :: s =>
    encodeRune (mapping (decodeRune (b :: s)).1) ++
      mapRunes mapping fuel ((b :: s).drop (decodeRune (b :: s)).2)

/-- Go's `strings.ToLower`: bytewise on an ASCII string, else
`strings.Map(unicode.ToLower, s)`. -/
def ToLower (go : GoLib) (s : GoString) : GoString :=
  if s.all (fun b => decide (b < 0x80)) then s.map asciiLower
  else mapRunes (fun r => if r < 0x80 then asciiLower r else go.toLowerRune r) s.length s

/-- Go's `strings.ToUpper` on the one byte string `source[:1]`: an ASCII
letter is upper-cased, another ASCII byte kept, and a byte from `0x80` on,
which alone is invalid UTF-8, comes out of `strings.Map` as U+FFFD. -/
def toUpperByte (b : Nat) : GoString :=
  if b < 0x80 then [if 0x61 ≤ b ∧ b ≤ 0x7A then b - 0x20 else b] else [0xEF, 0xBF, 0xBD]

/-! ## document.go -/

/-- A meeting document of the cache. -/
structure Document where
  ID : GoString
  Title : GoString
  CreatedAt : GoString
  NotesMarkdown : GoString
  NotesPlain : GoString
  deriving DecidableEq, Repr

/-- A transcript entry of the cache. -/
structure TranscriptEntry where
  ID : GoString := []
  DocumentID : GoString := []
  StartTimestamp : GoString := []
  EndTimestamp : GoString := []
  Text : GoString := []
  Source : GoString := []
  IsFinal : Bool := false
  deriving DecidableEq, Repr

/-- A Go map with string keys, as the list of its key/value pairs (keys
pairwise distinct).  `m[k]` is `List.lookup k m`. -/
abbrev GoMap (α : Type) := List (GoString × α)

/-- The parsed state of the cache.  The order of `Documents` stands for the
order in which `range` happens to visit the map. -/
structure CacheState where
  Documents : GoMap Document
  Transcripts : GoMap (List TranscriptEntry)

/-- `transcripts[id]`: the entry list under `id`, the nil slice when the key
is missing. -/
def transcriptOf (transcripts : GoMap (List TranscriptEntry)) (id : GoString) :
    List TranscriptEntry :=
  (transcripts.lookup id).getD []

/-- `Document.HasExportableContent`. -/
def HasExportableContent (d : Document) (transcripts : GoMap (List TranscriptEntry)) : Bool :=
  if (transcripts.lookup d.ID).isSome then true
  else if d.NotesMarkdown.length > 10 then true
  else if d.NotesPlain.length > 10 then true
  else false

/-- `Document.GetNotes`. -/
def GetNotes (d : Document) : GoString :=
  if d.NotesMarkdown ≠ [] then d.NotesMarkdown else d.NotesPlain

/-! ## formatter.go -/

/-- The decimal digits of `n`, most significant first (`fuel` bounds their
number). -/
def decimalLoop : Nat → Nat → GoString → GoString
  | 0, _, acc => acc
  | fuel + 1, n, acc =>
    if n < 10 then (48 + n) :: acc else decimalLoop fuel (n / 10) ((48 + n % 10) :: acc)

/-- The `appendInt` of package `time`: `x` in decimal, zero-padded to `width`
digits. -/
def appendInt (x width : Nat) : GoString :=
  List.replicate (width - (decimalLoop (x + 1) x []).length) 48 ++ decimalLoop (x + 1) x []

/-- The four layouts both date functions try, in order: `time.RFC3339`,
`time.RFC3339Nano` and the two explicit ones. -/
def dateLayouts : List GoString :=
  [lit "2006-01-02T15:04:05Z07:00", lit "2006-01-02T15:04:05.999999999Z07:00",
   lit "2006-01-02T15:04:05.000Z", lit "2006-01-02T15:04:05Z"]

/-- The loop over the layouts: the time of the first layout that parses, as
(year, month, day, hour, minute) in the zone it was written in. -/
def parseLoop (go : GoLib) (timestamp : GoString) :
    List GoString → Option (Nat × Nat × Nat × Nat × Nat)
  | [] => none
  | format :: formats =>
    match go.timeParse format timestamp with
    | some t => some t
    | none => parseLoop go timestamp formats

/-- `FormatDate`: "YYYY-MM-DD HH:MM", or "Unknown date". -/
def FormatDate (go : GoLib) (timestamp : GoString) : GoString :=
  if timestamp = [] then lit "Unknown date"
  else match parseLoop go timestamp dateLayouts with
    | none => lit "Unknown date"
    | some (year, month, day, hour, minute) =>
      appendInt year 4 ++ lit "-" ++ appendInt month 2 ++ lit "-" ++ appendInt day 2 ++
        lit " " ++ appendInt hour 2 ++ lit ":" ++ appendInt minute 2

/-- `FormatDateForFilename`: "YYYY-MM-DD", or "unknown-date". -/
def FormatDateForFilename (go : GoLib) (timestamp : GoString) : GoString :=
  if timestamp = [] then lit "unknown-date"
  else match parseLoop go timestamp dateLayouts with
    | none => lit "unknown-date"
    | some (year, month, day, _, _) =>
      appendInt year 4 ++ lit "-" ++ appendInt month 2 ++ lit "-" ++ appendInt day 2

/-- `SourceToSpeaker`. -/
def SourceToSpeaker (source : GoString) : GoString :=
  if source = lit "microphone" then lit "Me"
  else if source = lit "system" then lit "Them"
  else match source with
    | [] => lit "Unknown"
    | b :: rest => toUpperByte b ++ rest

/-- The loop of `FormatDocumentMarkdown` over the transcript: the lines it
appends, two for every entry whose trimmed text is not empty. -/
def transcriptLines : List TranscriptEntry → List GoString
  | [] => []
  | entry :: rest =>
    if TrimSpace entry.Text = [] then transcriptLines rest
    else (lit "**" ++ SourceToSpeaker entry.Source ++ lit ":** " ++ TrimSpace entry.Text) ::
      [] :: transcriptLines rest

/-- The `hasNotes` of `FormatDocumentMarkdown`. -/
def hasNotes (doc : Document) : Bool :=
  decide (GetNotes doc ≠ []) && decide (TrimSpace (GetNotes doc) ≠ [])

/-- The lines `FormatDocumentMarkdown` collects before joining them. -/
def documentLines (go : GoLib) (doc : Document) (transcript : List TranscriptEntry) :
    List GoString :=
  [lit "# " ++ (if doc.Title = [] then lit "Untitled" else doc.Title),
   lit "Date: " ++ FormatDate go doc.CreatedAt,
   lit "Meeting ID: " ++ doc.ID, [], lit "---", []] ++
  (if hasNotes doc then [lit "## AI-Generated Notes", [], GetNotes doc, []] else []) ++
  (if transcript.length > 0 then
    (if hasNotes doc then [lit "---", []] else []) ++
      [lit "## Transcript", []] ++ transcriptLines transcript
   else [])

/-- `FormatDocumentMarkdown`. -/
def FormatDocumentMarkdown (go : GoLib) (doc : Document) (transcript : List TranscriptEntry) :
    GoString :=
  joinLines (documentLines go doc transcript)

/-! ## Package `regexp`, as far as extractor.go uses it

Go's `regexp` returns the match that begins leftmost and, among those, the one
a backtracking search finds first.  The matcher below is that backtracking
search, written with a continuation for what follows the expression. -/

/-- The regular expressions the pattern of extractor.go is made of. -/
inductive Re where
  /-- a literal ASCII character -/
  | byte (b : Nat)
  /-- the class of word characters `[0-9A-Za-z_]` -/
  | word
  /-- the dot: any character but a newline -/
  | anyNotNL
  /-- the dollar, without the multi-line flag: the end of the text -/
  | endText
  /-- one expression after the other -/
  | cat (r s : Re)
  /-- alternation, the left branch preferred -/
  | alt (r s : Re)
  /-- one or more repetitions, greedy (`r+`) or not (`r+?`) -/
  | plus (greedy : Bool) (r : Re)
  /-- a capturing group with its number -/
  | group (i : Nat) (r : Re)
  deriving Repr

/-- The captured texts, by group number. -/
abbrev Caps := List (Nat × GoString)

/-- A word character of `regexp`. -/
def isWordByte (b : Nat) : Bool :=
  (0x30 ≤ b && b ≤ 0x39) || (0x41 ≤ b && b ≤ 0x5A) || b = 0x5F || (0x61 ≤ b && b ≤ 0x7A)

/-- The repetition `r+` or `r+?`, `m` matching one `r`: after each repetition
the greedy form first tries another one, the other form first tries what
follows.  `fuel` bounds the number of repetitions. -/
def plusLoop (m : GoString → Caps → (GoString → Caps → Option (GoString × Caps)) →
      Option (GoString × Caps)) (greedy : Bool) :
    Nat → GoString → Caps → (GoString → Caps → Option (GoString × Caps)) →
      Option (GoString × Caps)
  | 0, _, _, _ => none
  | fuel + 1, s, c, k =>
    m s c (fun s1 c1 =>
      if greedy then
        match plusLoop m greedy fuel s1 c1 k with
        | some r => some r
        | none => k s1 c1
      else
        match k s1 c1 with
        | some r => some r
        | none => plusLoop m greedy fuel s1 c1 k)

/-- The backtracking matcher: `run r s c k` matches `r` at the head of the
rest `s` of the text and hands the new rest and captures to `k`; when `k`
fails, the next way to match `r` is tried.  The result is the rest of the text
after the whole match, with the captures. -/
def Re.run : Re → GoString → Caps → (GoString → Caps → Option (GoString × Caps)) →
    Option (GoString × Caps)
  | .byte b, s, c, k =>
    match s with
    | x :: xs => if x = b then k xs c else none
    | [] => none
  | .word, s, c, k =>
    match s with
    | x :: xs => if isWordByte x then k xs c else none
    | [] => none
  | .anyNotNL, s, c, k =>
    if (decodeRune s).2 = 0 ∨ (decodeRune s).1 = 0x0A then none
    else k (s.drop (decodeRune s).2) c
  | .endText, s, c, k =>
    match s with
    | [] => k [] c
    | _ :: _ => none
  | .cat r1 r2, s, c, k => r1.run s c (fun s1 c1 => r2.run s1 c1 k)
  | .alt r1 r2, s, c, k =>
    match r1.run s c k with
    | some r => some r
    | none => r2.run s c k
  | .plus greedy r, s, c, k => plusLoop r.run greedy (s.length + 1) s c k
  | .group i r, s, c, k =>
    r.run s c (fun s1 c1 => k s1 ((i, s.take (s.length - s1.length)) :: c1))

/-- The match of `re` that begins at the head of `s`, if there is one. -/
def matchHere (re : Re) (s : GoString) : Option (GoString × Caps) :=
  re.run s [] (fun s1 c1 => some (s1, c1))

/-- The leftmost match in `s`: the start positions are tried rune by rune.
The result is the text from the start of the match, the rest after the match
and the captures. -/
def findFirst (re : Re) : Nat → GoString → Option (GoString × GoString × Caps)
  | 0, _ => none
  | fuel + 1, s =>
    match matchHere re s with
    | some (rest, caps) => some (s, rest, caps)
    | none =>
      match s with
      | [] => none
      | _ :: _ => findFirst re fuel (s.drop (decodeRune s).2)

/-- The loop of `FindAllStringSubmatch(s, -1)` for an expression with two
groups that matches no empty text: each match is searched from the end of the
one before, and gives the matched text and the two captured texts. -/
def findAllLoop (re : Re) : Nat → GoString → List (List GoString)
  | 0, _ => []
  | fuel + 1, s =>
    match findFirst re (s.length + 1) s with
    | none => []
    | some (start, rest, caps) =>
      [start.take (start.length - rest.length), (caps.lookup 1).getD [], (caps.lookup 2).getD []] ::
        findAllLoop re fuel rest

/-- `re.FindAllStringSubmatch(s, -1)`. -/
def FindAllStringSubmatch (re : Re) (s : GoString) : List (List GoString) :=
  findAllLoop re (s.length + 1) s

/-! ## extractor.go -/

/-- The expression for the literal text `t`. -/
def Re.text : GoString → Re → Re
  | [], r => r
  | b :: t, r => .cat (.byte b) (Re.text t r)

/-- The pattern `\*\*(\w+):\*\* (.+?)(?:\n\n|\n$|$)`. -/
def transcriptEntryRegex : Re :=
  Re.text (lit "**") (.cat (.group 1 (.plus true .word))
    (Re.text (lit ":** ") (.cat (.group 2 (.plus false .anyNotNL))
      (.alt (.cat (.byte 10) (.byte 10)) (.alt (.cat (.byte 10) .endText) .endText)))))

/-- `SpeakerToSource`. -/
def SpeakerToSource (go : GoLib) (speaker : GoString) : GoString :=
  if speaker = lit "Me" then lit "microphone"
  else if speaker = lit "Them" then lit "system"
  else ToLower go speaker

/-- The loop of `ExtractTranscriptFromMarkdown` over the matches. -/
def extractEntries (go : GoLib) : List (List GoString) → List TranscriptEntry
  | [] => []
  | m :: ms =>
    match m with
    | _ :: speaker :: captured :: _ =>
      if TrimSpace captured = [] then extractEntries go ms
      else { Text := TrimSpace captured, Source := SpeakerToSource go speaker } ::
        extractEntries go ms
    | _ => extractEntries go ms

/-- `ExtractTranscriptFromMarkdown`; `none` is the nil slice. -/
def ExtractTranscriptFromMarkdown (go : GoLib) (content : GoString) :
    Option (List TranscriptEntry) :=
  if !Contains content (lit "## Transcript") then none
  else
    match afterFirst (lit "## Transcript") content with
    | none => none
    | some transcriptSection =>
      if (FindAllStringSubmatch transcriptEntryRegex transcriptSection).length = 0 then none
      else if (extractEntries go
          (FindAllStringSubmatch transcriptEntryRegex transcriptSection)).length = 0 then none
      else some (extractEntries go (FindAllStringSubmatch transcriptEntryRegex transcriptSection))

/-- A slice that may be nil, used as a list. -/
def sliceOf (x : Option (List TranscriptEntry)) : List TranscriptEntry := x.getD []

/-! ## filename.go -/

/-- The constant `unsafeChars`: the nine characters `< > : " / \ | ? *`. -/
def unsafeChars : GoString := [0x3C, 0x3E, 0x3A, 0x22, 0x2F, 0x5C, 0x7C, 0x3F, 0x2A]

/-- The loop of `removeUnsafeChars` over the runes of `s`: a rune outside
`unsafeChars` is written back with `WriteRune`. -/
def removeUnsafeLoop : Nat → GoString → GoString
  | 0, _ => []
  | _, [] => []
  | fuel + 1, b :: s =>
    (if (decodeRune (b :: s)).1 ∈ unsafeChars then [] else encodeRune (decodeRune (b :: s)).1) ++
      removeUnsafeLoop fuel ((b :: s).drop (decodeRune (b :: s)).2)

/-- `removeUnsafeChars`. -/
def removeUnsafeChars (s : GoString) : GoString := removeUnsafeLoop s.length s

/-- The title part of `SafeFilename`: the sanitized title, cut at 100 bytes. -/
def safeTitleOf (title : GoString) : GoString :=
  let title1 :=
    if title = [] ∨ title = lit "None" ∨ TrimSpace title = [] then lit "Untitled" else title
  let safeTitle := TrimSpace (removeUnsafeChars title1)
  let safeTitle1 := if safeTitle = [] then lit "Untitled" else safeTitle
  if safeTitle1.length > 100 then safeTitle1.take 100 else safeTitle1

/-- `SafeFilename`. -/
def SafeFilename (title dateStr : GoString) : GoString :=
  dateStr ++ lit "_" ++ safeTitleOf title ++ lit ".md"

/-! ## exporter.go

The output directory is a list of named nodes.  `filepath.Join(e.OutputDir,
filename)` names a direct child of the directory, since a file name of
`SafeFilename` holds no separator, so a path is identified with its file
name. -/

/-- An error of an export. -/
structure ExportError where
  DocumentID : GoString
  Title : GoString
  Error : GoString
  deriving DecidableEq, Repr

/-- The statistics of an export. -/
structure ExportResult where
  Written : Nat
  Skipped : Nat
  Empty : Nat
  Errors : List ExportError
  deriving DecidableEq, Repr

/-- What a name of the output directory stands for: a regular file, with its
bytes and whether the process may read and write it, or something else (a
directory, say) that can be neither read nor written as a file. -/
inductive Node where
  | file (content : GoString) (readable writable : Bool)
  | other
  deriving DecidableEq, Repr

/-- The content of the output directory, by file name (names pairwise
distinct). -/
abbrev Dir := List (GoString × Node)

/-- What the operating system decides: whether `os.MkdirAll` succeeds, whether
a new file of a given name can be created, and the text of the error when a
write fails. -/
structure Os where
  mkdirAll : Bool
  canCreate : GoString → Bool
  writeError : GoString → GoString

/-- `os.ReadFile`: the bytes of a readable regular file, `none` on an error. -/
def ReadFile (dir : Dir) (path : GoString) : Option GoString :=
  match dir.lookup path with
  | some (.file content true _) => some content
  | _ => none

/-- `os.WriteFile(path, data, 0644)`: the directory after the write, `none` on
an error (the directory is then as before).  An existing file keeps its
permissions, a new one can be read and written. -/
def WriteFile (os : Os) (dir : Dir) (path data : GoString) : Option Dir :=
  match dir.lookup path with
  | some (.file _ readable true) =>
    some (dir.map (fun e => if e.1 = path then (path, Node.file data readable true) else e))
  | some _ => none
  | none => if os.canCreate path then some (dir ++ [(path, Node.file data true true)]) else none

/-- The file name `exportDocument` computes for a document. -/
def outputPath (go : GoLib) (doc : Document) : GoString :=
  SafeFilename (if doc.Title = [] then lit "Untitled" else doc.Title)
    (FormatDateForFilename go doc.CreatedAt)

/-- The transcript `exportDocument` renders: the one of the cache, or, when
that is empty and the output file exists, can be read and holds a transcript
heading, the entries extracted from the file. -/
def selectedTranscript (go : GoLib) (doc : Document)
    (transcripts : GoMap (List TranscriptEntry)) (dir : Dir) : List TranscriptEntry :=
  if (dir.lookup (outputPath go doc)).isSome ∧ (transcriptOf transcripts doc.ID).length = 0 then
    match ReadFile dir (outputPath go doc) with
    | some existingContent =>
      if Contains existingContent (lit "## Transcript") then
        sliceOf (ExtractTranscriptFromMarkdown go existingContent)
      else transcriptOf transcripts doc.ID
    | none => transcriptOf transcripts doc.ID
  else transcriptOf transcripts doc.ID

/-- The first test of `exportDocument`: the notes are blank and the cache has
no transcript entry for the document. -/
def isEmptyCandidate (doc : Document) (transcripts : GoMap (List TranscriptEntry)) : Bool :=
  decide ((GetNotes doc = [] ∨ TrimSpace (GetNotes doc) = []) ∧
    (transcriptOf transcripts doc.ID).length = 0)

/-- `Exporter.exportDocument` (not verbose): the statistics and the directory
afterwards, and the error it returns, if any. -/
def exportDocument (go : GoLib) (os : Os) (doc : Document)
    (transcripts : GoMap (List TranscriptEntry)) (result : ExportResult) (dir : Dir) :
    ExportResult × Dir × Option GoString :=
  if (GetNotes doc = [] ∨ TrimSpace (GetNotes doc) = []) ∧
      (transcriptOf transcripts doc.ID).length = 0 then
    ({ result with Empty := result.Empty + 1 }, dir, none)
  else if ReadFile dir (outputPath go doc) =
      some (FormatDocumentMarkdown go doc (selectedTranscript go doc transcripts dir)) then
    ({ result with Skipped := result.Skipped + 1 }, dir, none)
  else
    match WriteFile os dir (outputPath go doc)
        (FormatDocumentMarkdown go doc (selectedTranscript go doc transcripts dir)) with
    | none => (result, dir, some (lit "failed to write file: " ++ os.writeError (outputPath go doc)))
    | some dir1 => ({ result with Written := result.Written + 1 }, dir1, none)

/-- The second loop of `Exporter.Export`, over the exportable documents. -/
def exportLoop (go : GoLib) (os : Os) (transcripts : GoMap (List TranscriptEntry)) :
    List Document → ExportResult → Dir → ExportResult × Dir
  | [], result, dir => (result, dir)
  | doc :: docs, result, dir =>
    match exportDocument go os doc transcripts result dir with
    | (result1, dir1, none) => exportLoop go os transcripts docs result1 dir1
    | (result1, dir1, some err) =>
      exportLoop go os transcripts docs
        { result1 with Errors := result1.Errors ++ [⟨doc.ID, doc.Title, err⟩] } dir1

/-- The first loop of `Exporter.Export`: the documents with content, in the
order of the iteration. -/
def exportable (state : CacheState) : List Document :=
  (state.Documents.map Prod.snd).filter (fun doc => HasExportableContent doc state.Transcripts)

/-- `Exporter.Export` (not verbose) on an output directory with content `dir`:
`none` is the error of `os.MkdirAll`, else the result and the directory
afterwards. -/
def Export (go : GoLib) (os : Os) (state : CacheState) (dir : Dir) :
    Option (ExportResult × Dir) :=
  if os.mkdirAll then
    some (exportLoop go os state.Transcripts (exportable state) ⟨0, 0, 0, []⟩ dir)
  else none

/-! ## Concrete inputs of the examples -/

/-- A library for the concrete examples.  They use empty timestamps and ASCII
speaker labels only, for which neither table is consulted. -/
def exampleLib : GoLib := ⟨fun _ _ => none, fun r => r⟩

/-- An operating system under which `os.MkdirAll` and every creation of a file
succeed. -/
def exampleOs : Os := ⟨true, fun _ => true, fun _ => []⟩

/-- A document with notes and no creation date. -/
def exampleDoc : Document := ⟨lit "d", lit "T", [], lit "Some notes here", []⟩

/-- A second document, with the title and (missing) date of `exampleDoc` and
other notes. -/
def exampleDocSameName : Document := ⟨lit "e", lit "T", [], lit "Some other notes", []⟩

/-- A third document, with another title. -/
def exampleDocOtherName : Document := ⟨lit "f", lit "U", [], lit "Some other notes", []⟩

/-- An earlier state of `exampleDoc`, without notes. -/
def examplePriorDoc : Document := ⟨lit "d", lit "T", [], [], []⟩

/-- The transcript entry of the preservation test of the repository. -/
def examplePriorEntries : List TranscriptEntry :=
  [{ Text := lit "Preserved transcript entry.", Source := lit "microphone" }]

/-- An entry whose speaker label is made of two words. -/
def exampleTwoWordEntries : List TranscriptEntry :=
  [{ Text := lit "hello", Source := lit "john doe" }]

/-! ## The words of the specification that the theorems compare the code with -/

/-- Go's `utf8.RuneCountInString`: the number of characters (runes) of a
string, an invalid byte counting as one. -/
def runeCountLoop : Nat → GoString → Nat
  | 0, _ => 0
  | _, [] => 0
  | fuel + 1, b :: s => 1 + runeCountLoop fuel ((b :: s).drop (decodeRune (b :: s)).2)

/-- The number of characters of a string. -/
def RuneCountInString (s : GoString) : Nat := runeCountLoop s.length s

/-- The lines of a rendered document as the specification lists them: the six
header lines, the notes section when the notes are not blank, and, when there
is an entry, the separator (if notes were emitted), the transcript heading and
one line and one empty line for every entry with a text that is not blank. -/
def linesAsSpecified (go : GoLib) (doc : Document) (entries : List TranscriptEntry) :
    List GoString :=
  [lit "# " ++ (if doc.Title = [] then lit "Untitled" else doc.Title),
   lit "Date: " ++ FormatDate go doc.CreatedAt,
   lit "Meeting ID: " ++ doc.ID, lit "", lit "---", lit ""] ++
  (if TrimSpace (GetNotes doc) ≠ [] then [lit "## AI-Generated Notes", lit "", GetNotes doc, lit ""]
   else []) ++
  (if entries ≠ [] then
    (if TrimSpace (GetNotes doc) ≠ [] then [lit "---", lit ""] else []) ++
    [lit "## Transcript", lit ""] ++
    (entries.filter (fun e => decide (TrimSpace e.Text ≠ []))).flatMap (fun e =>
      [lit "**" ++ SourceToSpeaker e.Source ++ lit ":** " ++ TrimSpace e.Text, lit ""])
   else [])

/-! ## The text of a transcript section -/

/-- The heading that starts the transcript section. -/
def transcriptHeading : GoString := lit "## Transcript"

/-- Whether neither the title, the id nor the notes of a document contain the
transcript heading. -/
def headingFree (doc : Document) : Bool :=
  !Contains doc.Title transcriptHeading && !Contains doc.ID transcriptHeading &&
    !Contains (GetNotes doc) transcriptHeading

/-- The entries a rendering shows, as (speaker label, text): those of the
entries whose trimmed text is not empty. -/
def shownEntries (es : List TranscriptEntry) : List (GoString × GoString) :=
  (es.filter (fun e => decide (TrimSpace e.Text ≠ []))).map
    (fun e => (SourceToSpeaker e.Source, TrimSpace e.Text))

/-- The text of rendered entries: each one is "**label:** text", an empty line
follows each but the last, a single newline the last. -/
def entryBody : List (GoString × GoString) → GoString
  | [] => []
  | [e] => 42 :: 42 :: (e.1 ++ 58 :: 42 :: 42 :: 32 :: (e.2 ++ [10]))
  | e :: rest => 42 :: 42 :: (e.1 ++ 58 :: 42 :: 42 :: 32 :: (e.2 ++ 10 :: 10 :: entryBody rest))

/-- A speaker label and a text that the pattern of the extractor reads back: a
non-empty word and a non-empty text without newline. -/
def readable (e : GoString × GoString) : Prop :=
  e.1 ≠ [] ∧ (∀ b ∈ e.1, isWordByte b = true) ∧ e.2 ≠ [] ∧ 10 ∉ e.2

/-- The lines of a rendering with a transcript that stand before the
transcript heading: the header, and the notes section with its separator when
there are notes. -/
def frontLines (go : GoLib) (doc : Document) : List GoString :=
  [lit "# " ++ (if doc.Title = [] then lit "Untitled" else doc.Title),
   lit "Date: " ++ FormatDate go doc.CreatedAt,
   lit "Meeting ID: " ++ doc.ID, [], lit "---", []] ++
  (if hasNotes doc then [lit "## AI-Generated Notes", [], GetNotes doc, [], lit "---", []] else [])

/-- A word character that is no upper-case letter. -/
def isLowerWordByte (b : Nat) : Bool :=
  (0x30 ≤ b && b ≤ 0x39) || b = 0x5F || (0x61 ≤ b && b ≤ 0x7A)

instance (e : GoString × GoString) : Decidable (readable e) :=
  inferInstanceAs (Decidable (e.1 ≠ [] ∧ (∀ b ∈ e.1, isWordByte b = true) ∧ e.2 ≠ [] ∧ 10 ∉ e.2))

/-- The entries whose trimmed text is not empty. -/
def nonBlank (es : List TranscriptEntry) : List TranscriptEntry :=
  es.filter (fun e => decide (TrimSpace e.Text ≠ []))

/-! ## The outcome of `exportDocument` -/

/-- How `exportDocument` ends for a candidate: counted as empty, as skipped, as
written, or with the error of the write. -/
inductive Outcome where
  | empty
  | skipped
  | written
  | failed
  deriving DecidableEq, Repr

/-- The outcome of `exportDocument` for a document, on a directory. -/
def classify (go : GoLib) (os : Os) (doc : Document) (transcripts : GoMap (List TranscriptEntry))
    (dir : Dir) : Outcome :=
  if isEmptyCandidate doc transcripts then Outcome.empty
  else if ReadFile dir (outputPath go doc) =
      some (FormatDocumentMarkdown go doc (selectedTranscript go doc transcripts dir)) then
    Outcome.skipped
  else
    match WriteFile os dir (outputPath go doc)
        (FormatDocumentMarkdown go doc (selectedTranscript go doc transcripts dir)) with
    | none => Outcome.failed
    | some _ => Outcome.written

/-- The outcome of a second export after an outcome of the first: what was
written is then skipped, everything else repeats. -/
def Outcome.again : Outcome → Outcome
  | .written => .skipped
  | o => o

/-- Whether the node at a path can be read after a write to the path: a file
keeps its permission, a new file can be read. -/
def readableAfterWrite : Option Node → Bool
  | some (Node.file _ r _) => r
  | _ => true

/-- A document with two bytes of notes and no transcript. -/
def exampleDocShortNotes : Document := ⟨lit "s", lit "S", [], lit "hi", []⟩

/-- An operating system under which no new file can be created. -/
def exampleOsReadOnly : Os := ⟨true, fun _ => false, fun _ => lit "permission denied"⟩

/-- The error `Export` records for a document whose file could not be
written. -/
def writeFailure (go : GoLib) (os : Os) (doc : Document) : ExportError :=
  ⟨doc.ID, doc.Title, lit "failed to write file: " ++ os.writeError (outputPath go doc)⟩

/-- The text of one entry as the extractor reads it: "**label:** text" and an
empty line after it. -/
def entryBlock (e : GoString × GoString) : GoString :=
  lit "**" ++ e.1 ++ lit ":** " ++ e.2 ++ lit "\n\n"

/-- The runes of a string, as a `range` loop reads them: an invalid byte is the
rune U+FFFD.  `fuel` bounds their number. -/
def runesLoop : Nat → GoString → List Nat
  | 0, _ => []
  | _, [] => []
  | fuel + 1, b :: s =>
    (decodeRune (b :: s)).1 :: runesLoop fuel ((b :: s).drop (decodeRune (b :: s)).2)

/-- The characters of a string: Go's `[]rune(s)`. -/
def runesOf (s : GoString) : List Nat := runesLoop s.length s

/-- The string `s` without every occurrence of the characters `cs`. -/
def deleteChars (cs : List Nat) (s : GoString) : GoString :=
  ((runesOf s).filter (fun r => decide (r ∉ cs))).flatMap encodeRune

/-- The title part of a file name as the specification derives it from the
title: "Untitled" for a title that is empty, blank or "None"; the unsafe
characters deleted; the ends trimmed; "Untitled" if nothing is left; at most
the first 100 bytes kept. -/
def titleAsSpecified (title : GoString) : GoString :=
  let named := if title = [] ∨ TrimSpace title = [] ∨ title = lit "None" then lit "Untitled"
    else title
  let trimmed := TrimSpace (deleteChars unsafeChars named)
  (if trimmed = [] then lit "Untitled" else trimmed).take 100

/-- The loop of Go's `utf8.ValidString`: every rune is read from a complete,
well-formed encoding.  `fuel` bounds the number of runes. -/
def validLoop : Nat → GoString → Bool
  | 0, s => s.isEmpty
  | _, [] => true
  | fuel + 1, b :: s =>
    (decide ((decodeRune (b :: s)).2 ≠ 1) || decide (b < 0x80)) &&
      validLoop fuel ((b :: s).drop (decodeRune (b :: s)).2)

/-- Whether a string is valid UTF-8. -/
def ValidString (s : GoString) : Bool := validLoop s.length s

/-- The `safeTitle` of `SafeFilename` before it is truncated: the title with
its fallback, without unsafe characters, trimmed, "Untitled" when empty. -/
def sanitizedTitle (title : GoString) : GoString :=
  let title1 :=
    if title = [] ∨ title = lit "None" ∨ TrimSpace title = [] then lit "Untitled" else title
  let safeTitle := TrimSpace (removeUnsafeChars title1)
  if safeTitle = [] then lit "Untitled" else safeTitle

/-- A title of 101 characters and 201 bytes: "A" and a hundred times "é". -/
def exampleLongTitle : GoString := lit (String.mk ('A' :: List.replicate 100 'é'))

/-- A cache state with four documents: one without content, `exampleDoc`, one
without notes whose entry list is empty, and one with another title. -/
def exampleMixedState : CacheState :=
  ⟨[(lit "s", exampleDocShortNotes), (lit "d", exampleDoc),
    (lit "p", { examplePriorDoc with ID := lit "p" }), (lit "f", exampleDocOtherName)],
   [(lit "p", [])]⟩

/-- A directory that holds the export of `exampleDoc`. -/
def exampleDirWithDoc : Dir :=
  [(lit "unknown-date_T.md", Node.file (lit
    "# T\nDate: Unknown date\nMeeting ID: d\n\n---\n\n## AI-Generated Notes\n\nSome notes here\n")
    true true)]

/-! ## cache.go -/

/-- A `CacheState` as `json.Unmarshal` leaves it: a map that the JSON text does
not mention, or gives as null, is the nil map (`none`). -/
structure DecodedState where
  Documents : Option (GoMap Document)
  Transcripts : Option (GoMap (List TranscriptEntry))
  deriving DecidableEq, Repr

/-- The state the exporter works on: a nil map is read as an empty one. -/
def DecodedState.state (s : DecodedState) : CacheState :=
  ⟨s.Documents.getD [], s.Transcripts.getD []⟩

/-- The part of package `encoding/json` that `ParseCache` calls, which is not
in the repository: `json.Valid`, and `json.Unmarshal` into a zero `outerCache`
and into a zero `innerCache`, each giving the message of its error or the
field that `ParseCache` reads afterwards (`outer.Cache`, the empty string when
the text has no such member, and `inner.State`). -/
structure JsonLib where
  valid : GoString → Bool
  unmarshalOuter : GoString → Except GoString GoString
  unmarshalInner : GoString → Except GoString DecodedState

/-- `ParseCache`: the error, or the state with both maps initialized. -/
def ParseCache (js : JsonLib) (data : GoString) : Except GoString DecodedState :=
  match js.unmarshalOuter data with
  | .error err => .error (lit "failed to parse outer cache JSON: " ++ err)
  | .ok cache =>
    if cache = [] then .error (lit "cache field is empty")
    else
      match js.unmarshalInner cache with
      | .error err => .error (lit "failed to parse inner cache JSON: " ++ err)
      | .ok state =>
        .ok ⟨some (match state.Documents with
                | none => []
                | some documents => documents),
             some (match state.Transcripts with
                | none => []
                | some transcripts => transcripts)⟩

/-- A library for the examples.  It knows four texts: a cache file whose inner
text has a state without documents and transcripts, that inner text, a cache
file with an empty "cache" member, and one whose "cache" member is no JSON
text.  Every other text it takes for invalid. -/
def exampleJson : JsonLib :=
  ⟨fun text =>
      decide (text = lit "\x7b\"cache\":\"\x7b\\\"state\\\":\x7b\x7d\x7d\"\x7d" ∨
        text = lit "\x7b\"state\":\x7b\x7d\x7d" ∨ text = lit "\x7b\"cache\":\"\"\x7d" ∨
        text = lit "\x7b\"cache\":\"not valid json\"\x7d"),
   fun text =>
      if text = lit "\x7b\"cache\":\"\x7b\\\"state\\\":\x7b\x7d\x7d\"\x7d" then
        .ok (lit "\x7b\"state\":\x7b\x7d\x7d")
      else if text = lit "\x7b\"cache\":\"\"\x7d" ∨ text = lit "\x7b\"state\":\x7b\x7d\x7d" then
        .ok []
      else if text = lit "\x7b\"cache\":\"not valid json\"\x7d" then .ok (lit "not valid json")
      else .error (lit "invalid character"),
   fun text =>
      if text = lit "\x7b\"state\":\x7b\x7d\x7d" then .ok ⟨none, none⟩
      else if text = lit "\x7b\"cache\":\"\x7b\\\"state\\\":\x7b\x7d\x7d\"\x7d" ∨
          text = lit "\x7b\"cache\":\"\"\x7d" ∨
          text = lit "\x7b\"cache\":\"not valid json\"\x7d" then .ok ⟨none, none⟩
      else .error (lit "invalid character")⟩

/-! ## formatter.go: `NumberWithCommas` -/

/-- The text of `fmt.Sprintf("%d", n)`: the decimal digits of `n`, after a
minus sign when `n` is negative. -/
def formatInt (n : Int) : GoString :=
  if n < 0 then 45 :: decimalLoop (n.natAbs + 1) n.natAbs []
  else decimalLoop (n.natAbs + 1) n.natAbs []

/-- The second loop of `NumberWithCommas`, from index `i` on: three bytes of
`str` at a time, a comma after each group but the last.  `fuel` bounds the
number of groups. -/
def commaLoop : Nat → Nat → GoString → GoString
  | 0, _, _ => []
  | fuel + 1, i, str =>
    if i < str.length then
      (str.drop i).take 3 ++ (if i + 3 < str.length then lit "," else []) ++
        commaLoop fuel (i + 3) str
    else []

/-- `NumberWithCommas`. -/
def NumberWithCommas (n : Int) : GoString :=
  let str := formatInt n
  if str.length ≤ 3 then str
  else
    (if str.length % 3 > 0 then
      str.take (str.length % 3) ++ (if str.length > str.length % 3 then lit "," else [])
     else []) ++ commaLoop str.length (str.length % 3) str

/-! ## Further inputs and words of the specification -/

/-- A library whose `time.Parse` reads the timestamp of the repository's test
under the first layout, as the library of Go does, and nothing else. -/
def exampleLibClock : GoLib :=
  ⟨fun layout value =>
    if layout = lit "2006-01-02T15:04:05Z07:00" ∧ value = lit "2026-01-21T20:30:01.410Z" then
      some (2026, 1, 21, 20, 30)
    else none,
   fun r => r⟩

/-- The timestamp "YYYY-MM-DDTHH:MM:SS" ++ frac ++ "Z" written from its
fields, zero-padded; `frac` is empty or a period and the milliseconds. -/
def timestampOf (year month day hour minute second : Nat) (frac : GoString) : GoString :=
  appendInt year 4 ++ lit "-" ++ appendInt month 2 ++ lit "-" ++ appendInt day 2 ++ lit "T" ++
    appendInt hour 2 ++ lit ":" ++ appendInt minute 2 ++ lit ":" ++ appendInt second 2 ++
    frac ++ lit "Z"

/-- Go's `strings.Join(groups, ",")`. -/
def joinCommas : List GoString → GoString
  | [] => []
  | [g] => g
  | g :: gs => g ++ 44 :: joinCommas gs

/-- The text `s` cut into groups of three bytes from the left, the last one
shorter when the length of `s` is no multiple of three.  `fuel` bounds the
number of groups. -/
def chunksLoop : Nat → GoString → List GoString
  | 0, _ => []
  | fuel + 1, s => if s = [] then [] else s.take 3 :: chunksLoop fuel (s.drop 3)

/-- A document whose `notes_markdown` is three spaces and whose `notes_plain`
is empty. -/
def exampleDocBlankMarkdown : Document := ⟨lit "b", lit "B", [], lit "   ", lit ""⟩

/-- The same document with sixteen bytes of `notes_plain`. -/
def exampleDocBlankMarkdownPlain : Document :=
  ⟨lit "b", lit "B", [], lit "   ", lit "Some plain notes"⟩

/-! ## Theorems -/

/-! ### Exportability (document.go) -/

/-- At least as many bytes as characters: the loop counts at most one rune for
every byte. -/
theorem runeCountLoop_le (fuel : Nat) (s : GoString) : runeCountLoop fuel s ≤ fuel := by
  induction fuel generalizing s with
  | zero => simp [runeCountLoop]
  | succ n ih =>
    cases s with
    | nil => simp [runeCountLoop]
    | cons b t =>
      simp only [runeCountLoop]
      have := ih ((b :: t).drop (decodeRune (b :: t)).2)
      omega

/-- C4 (as amended): `HasExportableContent` holds exactly when the transcript
mapping has the key `d.ID` (whatever list stands under it), or `notes_markdown`
is longer than 10 bytes, or `notes_plain` is longer than 10 bytes; a document
with no key in the mapping and both notes empty is not exportable. -/
theorem C4_exportable_iff_key_or_long_notes (d : Document) (T : GoMap (List TranscriptEntry)) :
    (HasExportableContent d T = true ↔
      (T.lookup d.ID).isSome = true ∨ 10 < d.NotesMarkdown.length ∨ 10 < d.NotesPlain.length) ∧
    ((T.lookup d.ID).isSome = false ∧ d.NotesMarkdown = [] ∧ d.NotesPlain = [] →
      HasExportableContent d T = false) := by
  unfold HasExportableContent
  constructor
  · by_cases h1 : (T.lookup d.ID).isSome = true
    · simp [h1]
    · by_cases h2 : 10 < d.NotesMarkdown.length
      · simp [h1, h2]
      · by_cases h3 : 10 < d.NotesPlain.length <;> simp [h1, h2, h3]
  · rintro ⟨h1, h2, h3⟩
    simp [h1, h2, h3]

/-- C4, the claim as stated fails: a document with empty notes whose id has
the empty entry list in the transcript mapping is exportable, though it has no
non-empty entry list and no note longer than 10. -/
theorem C4_counterexample_empty_list_is_exportable :
    HasExportableContent ⟨lit "d", lit "T", [], [], []⟩ [(lit "d", [])] = true ∧
    ¬ (transcriptOf [(lit "d", [])] (lit "d") ≠ [] ∨
        10 < RuneCountInString (Document.NotesMarkdown ⟨lit "d", lit "T", [], [], []⟩) ∨
        10 < RuneCountInString (Document.NotesPlain ⟨lit "d", lit "T", [], [], []⟩)) := by
  decide

/-- The threshold of `HasExportableContent` on `notes_markdown`, for a document
with no key in the transcript mapping and empty `notes_plain`: exactly 10
bytes are not exportable, exactly 11 bytes are, and so are 11 characters or
more, which are at least 11 bytes. -/
theorem hasExportableContent_threshold (d : Document) (T : GoMap (List TranscriptEntry))
    (hT : T.lookup d.ID = none) (hP : d.NotesPlain = []) :
    (d.NotesMarkdown.length = 10 → HasExportableContent d T = false) ∧
    (d.NotesMarkdown.length = 11 → HasExportableContent d T = true) ∧
    (11 ≤ RuneCountInString d.NotesMarkdown → HasExportableContent d T = true) := by
  unfold HasExportableContent
  refine ⟨fun h => ?_, fun h => ?_, fun h => ?_⟩
  · simp [hT, hP, h]
  · simp [hT, h]
  · have := runeCountLoop_le d.NotesMarkdown.length d.NotesMarkdown
    have h2 : 10 < d.NotesMarkdown.length := by
      unfold RuneCountInString at h
      omega
    simp [hT, h2]

/-- The threshold at the 10 bytes "0123456789". -/
theorem hasExportableContent_ten_bytes :
    HasExportableContent ⟨lit "d", [], [], lit "0123456789", []⟩ [] = false :=
  (hasExportableContent_threshold ⟨lit "d", [], [], lit "0123456789", []⟩ [] rfl rfl).1
    (by decide)

/-- C5, the code at notes of ten characters "é": a document with no transcript
and empty `notes_plain` whose `notes_markdown` is ten ASCII characters is not
exportable, and with eleven it is; but ten characters "é" are 20 bytes, and
the document is exportable. -/
theorem C5_ten_characters_are_exportable :
    RuneCountInString (lit "0123456789") = 10 ∧
    HasExportableContent ⟨lit "d", [], [], lit "0123456789", []⟩ [] = false ∧
    RuneCountInString (lit "0123456789a") = 11 ∧
    HasExportableContent ⟨lit "d", [], [], lit "0123456789a", []⟩ [] = true ∧
    RuneCountInString (lit "éééééééééé") = 10 ∧ (lit "éééééééééé").length = 20 ∧
    HasExportableContent ⟨lit "d", [], [], lit "éééééééééé", []⟩ [] = true := by
  decide

/-! ### The formatter (formatter.go) -/

theorem trimSpace_nil : TrimSpace [] = [] := by decide

theorem joinLines_eq_intercalate (ls : List GoString) :
    joinLines ls = List.intercalate [10] ls := by
  induction ls with
  | nil => rfl
  | cons l ls ih =>
    cases ls with
    | nil => simp [joinLines, List.intercalate]
    | cons l2 ls2 =>
      simp only [joinLines, ih]
      simp [List.intercalate, List.intersperse]

theorem transcriptLines_eq_flatMap (es : List TranscriptEntry) :
    transcriptLines es =
      (es.filter (fun e => decide (TrimSpace e.Text ≠ []))).flatMap (fun e =>
        [lit "**" ++ SourceToSpeaker e.Source ++ lit ":** " ++ TrimSpace e.Text, []]) := by
  induction es with
  | nil => rfl
  | cons e es ih =>
    by_cases h : TrimSpace e.Text = []
    · simp [transcriptLines, h, ih]
    · simp [transcriptLines, h, ih, List.filter_cons]

theorem hasNotes_iff (doc : Document) : hasNotes doc = true ↔ TrimSpace (GetNotes doc) ≠ [] := by
  unfold hasNotes
  constructor
  · intro h
    simp only [Bool.and_eq_true, decide_eq_true_eq] at h
    exact h.2
  · intro h
    have h1 : GetNotes doc ≠ [] := by
      intro h0
      rw [h0] at h
      exact h trimSpace_nil
    simp [h, h1]

/-- C7: `FormatDocumentMarkdown` returns the join with "\n" of exactly the
lines the specification lists, in that order: the title line (with "Untitled"
for an empty title), the date line, the id line, "", "---", ""; the notes
section if and only if the notes are not blank; and, if and only if there is an
entry, the separator (exactly when notes were emitted), the transcript heading,
"", and a speaker line and "" for each entry whose trimmed text is not empty. -/
theorem C7_format_is_join_of_specified_lines (go : GoLib) (doc : Document)
    (entries : List TranscriptEntry) :
    FormatDocumentMarkdown go doc entries =
      List.intercalate (lit "\n") (linesAsSpecified go doc entries) := by
  have hnl : lit "\n" = [10] := by decide
  have he : lit "" = [] := by decide
  rw [hnl, FormatDocumentMarkdown, joinLines_eq_intercalate]
  congr 1
  unfold documentLines linesAsSpecified
  rw [he, transcriptLines_eq_flatMap]
  by_cases hn : TrimSpace (GetNotes doc) = []
  · have hn2 : hasNotes doc = false := by
      cases h : hasNotes doc with
      | false => rfl
      | true => exact absurd hn ((hasNotes_iff doc).1 h)
    cases entries with
    | nil => simp [hn, hn2]
    | cons e es => simp [hn, hn2]
  · have hn2 : hasNotes doc = true := (hasNotes_iff doc).2 hn
    cases entries with
    | nil => simp [hn, hn2]
    | cons e es => simp [hn, hn2]

/-! ### The file operations -/

theorem lookup_map_set (dir : Dir) (path : GoString) (n : Node) (old : Node)
    (h : dir.lookup path = some old) :
    (dir.map (fun e => if e.1 = path then (path, n) else e)).lookup path = some n := by
  induction dir with
  | nil => simp at h
  | cons e dir ih =>
    obtain ⟨k, v⟩ := e
    by_cases hk : k = path
    · subst hk
      simp [List.lookup_cons]
    · have hk2 : (path == k) = false := by
        simp only [beq_eq_false_iff_ne, ne_eq]
        exact fun h => hk h.symm
      simp only [List.lookup_cons, hk2] at h
      simp [List.lookup_cons, hk, hk2, ih h]

theorem lookup_map_set_other (dir : Dir) (path q : GoString) (n : Node) (hq : q ≠ path) :
    (dir.map (fun e => if e.1 = path then (path, n) else e)).lookup q = dir.lookup q := by
  induction dir with
  | nil => rfl
  | cons e dir ih =>
    obtain ⟨k, v⟩ := e
    by_cases hk : k = path
    · subst hk
      have hq2 : (q == k) = false := by simpa using hq
      simp [List.lookup_cons, hq2, ih]
    · by_cases hqk : q = k
      · subst hqk
        simp [List.lookup_cons, hk]
      · have hq2 : (q == k) = false := by simpa using hqk
        simp [List.lookup_cons, hk, hq2, ih]

theorem lookup_append_single (dir : Dir) (path q : GoString) (n : Node) :
    (dir ++ [(path, n)]).lookup q =
      match dir.lookup q with
      | some x => some x
      | none => if q = path then some n else none := by
  induction dir with
  | nil =>
    by_cases h : q = path
    · subst h
      simp [List.lookup_cons]
    · have h2 : (q == path) = false := by simpa using h
      simp [List.lookup_cons, h, h2]
  | cons e dir ih =>
    obtain ⟨k, v⟩ := e
    by_cases hqk : q = k
    · subst hqk
      simp [List.lookup_cons]
    · have h2 : (q == k) = false := by simpa using hqk
      simp only [List.cons_append, List.lookup_cons, h2, ih]

/-- After a successful write the path holds a writable regular file with the
written bytes. -/
theorem writeFile_lookup (os : Os) (dir dir1 : Dir) (path data : GoString)
    (h : WriteFile os dir path data = some dir1) :
    ∃ r, dir1.lookup path = some (Node.file data r true) := by
  unfold WriteFile at h
  split at h
  · next c r hl =>
    simp only [Option.some.injEq] at h
    subst h
    exact ⟨r, lookup_map_set dir path _ _ hl⟩
  · simp at h
  · next hl =>
    split at h
    · simp only [Option.some.injEq] at h
      subst h
      refine ⟨true, ?_⟩
      rw [lookup_append_single, hl]
      simp
    · simp at h

/-- A write leaves every other path as it was. -/
theorem writeFile_lookup_other (os : Os) (dir dir1 : Dir) (path data q : GoString)
    (h : WriteFile os dir path data = some dir1) (hq : q ≠ path) :
    dir1.lookup q = dir.lookup q := by
  unfold WriteFile at h
  split at h
  · simp only [Option.some.injEq] at h
    subst h
    exact lookup_map_set_other dir path q _ hq
  · simp at h
  · split at h
    · simp only [Option.some.injEq] at h
      subst h
      rw [lookup_append_single]
      cases dir.lookup q <;> simp [hq]
    · simp at h

theorem readFile_isSome_lookup (dir : Dir) (path c : GoString) (h : ReadFile dir path = some c) :
    (dir.lookup path).isSome = true := by
  unfold ReadFile at h
  split at h
  · next hl => simp [hl]
  · simp at h

/-! ### One document (exporter.go, `exportDocument`) -/

/-- C10: when the candidate is not empty and the output path holds a file
whose bytes equal the freshly rendered text, `exportDocument` increments
`Skipped` only, returns no error, and leaves the output directory as it was
(nothing is written). -/
theorem C10_unchanged_file_is_skipped (go : GoLib) (os : Os) (doc : Document)
    (T : GoMap (List TranscriptEntry)) (result : ExportResult) (dir : Dir)
    (hne : ¬ ((GetNotes doc = [] ∨ TrimSpace (GetNotes doc) = []) ∧
      (transcriptOf T doc.ID).length = 0))
    (hfile : ReadFile dir (outputPath go doc) =
      some (FormatDocumentMarkdown go doc (selectedTranscript go doc T dir))) :
    exportDocument go os doc T result dir =
      (⟨result.Written, result.Skipped + 1, result.Empty, result.Errors⟩, dir, none) := by
  unfold exportDocument
  rw [if_neg hne, if_pos hfile]

set_option maxRecDepth 100000 in
/-- C10, witness: a document with notes whose rendering is already in the
directory. -/
theorem C10_unchanged_file_is_skipped_witness :
    exportDocument exampleLib exampleOs exampleDoc [] ⟨0, 0, 0, []⟩
        [(lit "unknown-date_T.md", Node.file (lit
          "# T\nDate: Unknown date\nMeeting ID: d\n\n---\n\n## AI-Generated Notes\n\nSome notes here\n")
          true true)] =
      (⟨0, 1, 0, []⟩,
        [(lit "unknown-date_T.md", Node.file (lit
          "# T\nDate: Unknown date\nMeeting ID: d\n\n---\n\n## AI-Generated Notes\n\nSome notes here\n")
          true true)], none) :=
  C10_unchanged_file_is_skipped exampleLib exampleOs exampleDoc [] ⟨0, 0, 0, []⟩ _
    (by decide) (by decide)

/-- C8: whenever `exportDocument` counts a candidate as written, the output
path afterwards holds a regular file whose bytes are exactly
`FormatDocumentMarkdown(doc, T)`, where `T` is the transcript list of the cache
when that is not empty, otherwise the entries `ExtractTranscriptFromMarkdown`
recovers from the file that was at the path when it could be read and contains
"## Transcript", otherwise the empty list. -/
theorem C8_written_file_holds_rendering (go : GoLib) (os : Os) (doc : Document)
    (T : GoMap (List TranscriptEntry)) (result : ExportResult) (dir : Dir)
    (hw : (exportDocument go os doc T result dir).1.Written = result.Written + 1) :
    ∃ r w, (exportDocument go os doc T result dir).2.1.lookup (outputPath go doc) =
      some (Node.file (FormatDocumentMarkdown go doc
        (if transcriptOf T doc.ID ≠ [] then transcriptOf T doc.ID
         else match ReadFile dir (outputPath go doc) with
          | some existing =>
            if Contains existing (lit "## Transcript") then
              sliceOf (ExtractTranscriptFromMarkdown go existing)
            else []
          | none => [])) r w) := by
  have hsel : selectedTranscript go doc T dir =
      (if transcriptOf T doc.ID ≠ [] then transcriptOf T doc.ID
         else match ReadFile dir (outputPath go doc) with
          | some existing =>
            if Contains existing (lit "## Transcript") then
              sliceOf (ExtractTranscriptFromMarkdown go existing)
            else []
          | none => []) := by
    unfold selectedTranscript
    by_cases hT : transcriptOf T doc.ID = []
    · cases hr : ReadFile dir (outputPath go doc) with
      | none => simp [hT]
      | some c =>
        have := readFile_isSome_lookup dir _ c hr
        simp [hT, this]
    · have hl : ¬ (transcriptOf T doc.ID).length = 0 := by
        simpa [List.length_eq_zero] using hT
      simp [hT, hl]
  rw [← hsel]
  unfold exportDocument at hw ⊢
  split at hw
  · simp at hw
  · split at hw
    · simp at hw
    · next hne hns =>
      rw [if_neg hne, if_neg hns]
      cases hwf : WriteFile os dir (outputPath go doc)
          (FormatDocumentMarkdown go doc (selectedTranscript go doc T dir)) with
      | none => simp [hwf] at hw
      | some dir1 =>
        obtain ⟨r, hr⟩ := writeFile_lookup os dir dir1 _ _ hwf
        exact ⟨r, true, by simpa using hr⟩

set_option maxRecDepth 100000 in
/-- C8, witness: a document with notes, written into the empty directory. -/
theorem C8_written_file_holds_rendering_witness :
    ∃ r w, (exportDocument exampleLib exampleOs exampleDoc [] ⟨0, 0, 0, []⟩ []).2.1.lookup
        (outputPath exampleLib exampleDoc) =
      some (Node.file (FormatDocumentMarkdown exampleLib exampleDoc
        (if transcriptOf [] exampleDoc.ID ≠ [] then transcriptOf [] exampleDoc.ID
         else match ReadFile [] (outputPath exampleLib exampleDoc) with
          | some existing =>
            if Contains existing (lit "## Transcript") then
              sliceOf (ExtractTranscriptFromMarkdown exampleLib existing)
            else []
          | none => [])) r w) :=
  C8_written_file_holds_rendering exampleLib exampleOs exampleDoc [] ⟨0, 0, 0, []⟩ [] (by decide)

theorem transcriptLines_blank (es : List TranscriptEntry)
    (h : ∀ e ∈ es, TrimSpace e.Text = []) : transcriptLines es = [] := by
  induction es with
  | nil => rfl
  | cons e es ih =>
    have he : TrimSpace e.Text = [] := h e (List.mem_cons_self _ _)
    simp only [transcriptLines, he, if_true]
    exact ih (fun x hx => h x (List.mem_cons_of_mem _ hx))

theorem selectedTranscript_of_cache (go : GoLib) (doc : Document)
    (T : GoMap (List TranscriptEntry)) (dir : Dir) (h : transcriptOf T doc.ID ≠ []) :
    selectedTranscript go doc T dir = transcriptOf T doc.ID := by
  unfold selectedTranscript
  have hl : ¬ (transcriptOf T doc.ID).length = 0 := by
    simpa [List.length_eq_zero] using h
  simp [hl]

/-- C6 (as amended): a document with empty notes whose transcript list in the
cache is not empty but holds only entries with blank text passes
`HasExportableContent` and is not counted as empty by `exportDocument`: its
rendering is the header followed by the transcript heading without entries,
and when no file of its name exists and one can be created, that rendering is
written and `Written` is incremented. -/
theorem C6_blank_entries_are_rendered_not_empty (go : GoLib) (os : Os) (doc : Document)
    (T : GoMap (List TranscriptEntry)) (result : ExportResult) (dir : Dir)
    (es : List TranscriptEntry)
    (hnotes : GetNotes doc = []) (hT : T.lookup doc.ID = some es) (hne : es ≠ [])
    (hblank : ∀ e ∈ es, TrimSpace e.Text = []) :
    HasExportableContent doc T = true ∧
    (exportDocument go os doc T result dir).1.Empty = result.Empty ∧
    FormatDocumentMarkdown go doc es =
      joinLines [lit "# " ++ (if doc.Title = [] then lit "Untitled" else doc.Title),
        lit "Date: " ++ FormatDate go doc.CreatedAt, lit "Meeting ID: " ++ doc.ID,
        [], lit "---", [], lit "## Transcript", []] ∧
    (dir.lookup (outputPath go doc) = none → os.canCreate (outputPath go doc) = true →
      exportDocument go os doc T result dir =
        (⟨result.Written + 1, result.Skipped, result.Empty, result.Errors⟩,
          dir ++ [(outputPath go doc, Node.file (FormatDocumentMarkdown go doc es) true true)],
          none)) := by
  have hcache : transcriptOf T doc.ID = es := by simp [transcriptOf, hT]
  have hsel : selectedTranscript go doc T dir = es := by
    rw [selectedTranscript_of_cache go doc T dir (by rw [hcache]; exact hne), hcache]
  have hlen : ¬ es.length = 0 := by simpa [List.length_eq_zero] using hne
  have hnot : ¬ ((GetNotes doc = [] ∨ TrimSpace (GetNotes doc) = []) ∧
      (transcriptOf T doc.ID).length = 0) := by
    rw [hcache]
    exact fun h => hlen h.2
  refine ⟨by simp [HasExportableContent, hT], ?_, ?_, ?_⟩
  · unfold exportDocument
    rw [if_neg hnot]
    split
    · rfl
    · split <;> rfl
  · have hn : hasNotes doc = false := by simp [hasNotes, hnotes]
    have hpos : 0 < es.length := Nat.pos_of_ne_zero hlen
    simp [FormatDocumentMarkdown, documentLines, hn, hpos, transcriptLines_blank es hblank]
  · intro habs hcreate
    have hread : ReadFile dir (outputPath go doc) = none := by simp [ReadFile, habs]
    unfold exportDocument
    rw [if_neg hnot, hsel, hread]
    simp [WriteFile, habs, hcreate]

/-- C6, witness: one entry with the text "   " under the id of a document
without notes. -/
theorem C6_blank_entries_are_rendered_not_empty_witness :
    HasExportableContent ⟨lit "d", lit "T", [], [], []⟩ [(lit "d", [{ Text := lit "   " }])] = true :=
  (C6_blank_entries_are_rendered_not_empty exampleLib exampleOs ⟨lit "d", lit "T", [], [], []⟩
    [(lit "d", [{ Text := lit "   " }])] ⟨0, 0, 0, []⟩ [] [{ Text := lit "   " }]
    (by decide) (by decide) (by decide) (by decide)).1

set_option maxRecDepth 100000 in
/-- C6, the claim as stated fails: exporting a document without notes whose
only transcript entry has the text "   " into the empty directory counts it as
written, not as empty, and leaves a file. -/
theorem C6_counterexample_blank_entry_is_written :
    HasExportableContent ⟨lit "d", lit "T", [], [], []⟩ [(lit "d", [{ Text := lit "   " }])] = true ∧
    Export exampleLib exampleOs
        ⟨[(lit "d", ⟨lit "d", lit "T", [], [], []⟩)], [(lit "d", [{ Text := lit "   " }])]⟩ [] =
      some (⟨1, 0, 0, []⟩,
        [(lit "unknown-date_T.md",
          Node.file (lit "# T\nDate: Unknown date\nMeeting ID: d\n\n---\n\n## Transcript\n") true true)]) := by
  decide

/-! ### The loop over the documents (exporter.go, `Export`) -/

theorem exportDocument_errors (go : GoLib) (os : Os) (doc : Document)
    (T : GoMap (List TranscriptEntry)) (result : ExportResult) (dir : Dir) :
    (exportDocument go os doc T result dir).1.Errors = result.Errors := by
  unfold exportDocument
  split
  · rfl
  · split
    · rfl
    · split <;> rfl

theorem exportLoop_errors_length (go : GoLib) (os : Os) (T : GoMap (List TranscriptEntry))
    (docs : List Document) (result : ExportResult) (dir : Dir) :
    result.Errors.length ≤ (exportLoop go os T docs result dir).1.Errors.length := by
  induction docs generalizing result dir with
  | nil => simp [exportLoop]
  | cons doc docs ih =>
    have he := exportDocument_errors go os doc T result dir
    rcases hstep : exportDocument go os doc T result dir with ⟨r1, d1, e1⟩
    rw [hstep] at he
    cases e1 with
    | none =>
      simp only [exportLoop, hstep]
      have := ih r1 d1
      have hl := congrArg List.length he
      simp only at hl
      omega
    | some err =>
      simp only [exportLoop, hstep]
      have := ih { r1 with Errors := r1.Errors ++ [⟨doc.ID, doc.Title, err⟩] } d1
      simp only [List.length_append, List.length_singleton] at this
      have hl := congrArg List.length he
      simp only at hl
      omega

/-- A candidate that is counted as empty changes nothing but `Empty`. -/
theorem exportDocument_empty (go : GoLib) (os : Os) (doc : Document)
    (T : GoMap (List TranscriptEntry)) (result : ExportResult) (dir : Dir)
    (h : isEmptyCandidate doc T = true) :
    exportDocument go os doc T result dir =
      (⟨result.Written, result.Skipped, result.Empty + 1, result.Errors⟩, dir, none) := by
  unfold isEmptyCandidate at h
  unfold exportDocument
  rw [if_pos (of_decide_eq_true h)]

/-- A candidate that is not empty and has no file yet: the rendering of the
transcript of the cache is written, or the write fails. -/
theorem exportDocument_fresh (go : GoLib) (os : Os) (doc : Document)
    (T : GoMap (List TranscriptEntry)) (result : ExportResult) (dir : Dir)
    (h : isEmptyCandidate doc T = false) (habs : dir.lookup (outputPath go doc) = none) :
    exportDocument go os doc T result dir =
      if os.canCreate (outputPath go doc) then
        (⟨result.Written + 1, result.Skipped, result.Empty, result.Errors⟩,
          dir ++ [(outputPath go doc,
            Node.file (FormatDocumentMarkdown go doc (transcriptOf T doc.ID)) true true)], none)
      else (result, dir, some (lit "failed to write file: " ++ os.writeError (outputPath go doc))) := by
  unfold isEmptyCandidate at h
  have hsel : selectedTranscript go doc T dir = transcriptOf T doc.ID := by
    simp [selectedTranscript, habs]
  have hread : ReadFile dir (outputPath go doc) = none := by simp [ReadFile, habs]
  unfold exportDocument
  rw [if_neg (of_decide_eq_false h), hsel, hread]
  by_cases hc : os.canCreate (outputPath go doc) = true
  · simp [WriteFile, habs, hc]
  · simp [WriteFile, habs, hc]

/-- The loop on documents with pairwise distinct file names, none of which is
in the directory yet: when no error is added, the directory gains exactly the
renderings of the candidates that are not empty, each under its own name. -/
theorem exportLoop_fresh (go : GoLib) (os : Os) (T : GoMap (List TranscriptEntry))
    (docs : List Document) (result : ExportResult) (dir : Dir)
    (hnodup : (docs.map (outputPath go)).Nodup)
    (habs : ∀ doc ∈ docs, dir.lookup (outputPath go doc) = none)
    (hnoerr : (exportLoop go os T docs result dir).1.Errors.length = result.Errors.length) :
    (exportLoop go os T docs result dir).2 =
      dir ++ (docs.filter (fun doc => !isEmptyCandidate doc T)).map (fun doc =>
        (outputPath go doc,
          Node.file (FormatDocumentMarkdown go doc (transcriptOf T doc.ID)) true true)) ∧
    (exportLoop go os T docs result dir).1.Written =
      result.Written + (docs.filter (fun doc => !isEmptyCandidate doc T)).length ∧
    (exportLoop go os T docs result dir).1.Skipped = result.Skipped := by
  induction docs generalizing result dir with
  | nil => simp [exportLoop]
  | cons doc docs ih =>
    have hnd : (docs.map (outputPath go)).Nodup := (List.nodup_cons.1 hnodup).2
    have hnotin : outputPath go doc ∉ docs.map (outputPath go) := (List.nodup_cons.1 hnodup).1
    cases hE : isEmptyCandidate doc T with
    | true =>
      have hstep := exportDocument_empty go os doc T result dir hE
      simp only [exportLoop, hstep] at hnoerr ⊢
      have := ih ⟨result.Written, result.Skipped, result.Empty + 1, result.Errors⟩ dir hnd
        (fun d hd => habs d (List.mem_cons_of_mem _ hd)) hnoerr
      simpa [List.filter_cons, hE] using this
    | false =>
      have hstep := exportDocument_fresh go os doc T result dir hE
        (habs doc (List.mem_cons_self _ _))
      by_cases hc : os.canCreate (outputPath go doc) = true
      · rw [if_pos hc] at hstep
        simp only [exportLoop, hstep] at hnoerr ⊢
        have habs2 : ∀ d ∈ docs, (dir ++ [(outputPath go doc,
            Node.file (FormatDocumentMarkdown go doc (transcriptOf T doc.ID)) true true)]).lookup
            (outputPath go d) = none := by
          intro d hd
          rw [lookup_append_single, habs d (List.mem_cons_of_mem _ hd)]
          have hne : outputPath go d ≠ outputPath go doc := by
            intro heq
            exact hnotin (heq ▸ List.mem_map_of_mem _ hd)
          simp [hne]
        have := ih ⟨result.Written + 1, result.Skipped, result.Empty, result.Errors⟩ _ hnd
          habs2 hnoerr
        obtain ⟨h1, h2, h3⟩ := this
        refine ⟨?_, ?_, ?_⟩
        · rw [h1]
          simp [List.filter_cons, hE]
        · rw [h2]
          simp [List.filter_cons, hE]
          omega
        · rw [h3]
      · rw [if_neg hc] at hstep
        simp only [exportLoop, hstep] at hnoerr
        have := exportLoop_errors_length go os T docs
          { result with Errors := result.Errors ++
            [⟨doc.ID, doc.Title, lit "failed to write file: " ++ os.writeError (outputPath go doc)⟩] }
          dir
        simp only [List.length_append, List.length_singleton] at this
        omega

/-- C9 (as amended): when the exportable documents have pairwise distinct
output file names, an export into the empty directory that records no error
leaves exactly as many files as documents counted as written, under pairwise
distinct names, and the files are, in the order of processing, the renderings
of the candidates that are not empty, each a readable and writable file under
the name of its own document. -/
theorem C9_one_file_per_written_document (go : GoLib) (os : Os) (state : CacheState)
    (result : ExportResult) (dir1 : Dir)
    (hdistinct : ((exportable state).map (outputPath go)).Nodup)
    (hrun : Export go os state [] = some (result, dir1))
    (hnoerr : result.Errors = []) :
    dir1.length = result.Written ∧ (dir1.map Prod.fst).Nodup ∧
    dir1 = ((exportable state).filter (fun doc => !isEmptyCandidate doc state.Transcripts)).map
      (fun doc => (outputPath go doc,
        Node.file (FormatDocumentMarkdown go doc (transcriptOf state.Transcripts doc.ID))
          true true)) := by
  unfold Export at hrun
  split at hrun
  · simp only [Option.some.injEq] at hrun
    have hres : (exportLoop go os state.Transcripts (exportable state) ⟨0, 0, 0, []⟩ []).1 = result :=
      congrArg Prod.fst hrun
    have hdir : (exportLoop go os state.Transcripts (exportable state) ⟨0, 0, 0, []⟩ []).2 = dir1 :=
      congrArg Prod.snd hrun
    have key := exportLoop_fresh go os state.Transcripts (exportable state) ⟨0, 0, 0, []⟩ []
      hdistinct (fun _ _ => rfl) (by rw [hres, hnoerr])
    rw [hres, hdir] at key
    obtain ⟨h1, h2, _⟩ := key
    simp only [List.nil_append, Nat.zero_add] at h1 h2
    refine ⟨by rw [h2, h1, List.length_map], ?_, h1⟩
    rw [h1, List.map_map]
    exact List.Nodup.sublist ((List.filter_sublist _).map (outputPath go)) hdistinct
  · simp at hrun

set_option maxRecDepth 100000 in
/-- C9, witness: two documents with notes and different titles. -/
theorem C9_one_file_per_written_document_witness :
    [(lit "unknown-date_T.md", Node.file (lit
        "# T\nDate: Unknown date\nMeeting ID: d\n\n---\n\n## AI-Generated Notes\n\nSome notes here\n")
        true true),
     (lit "unknown-date_U.md", Node.file (lit
        "# U\nDate: Unknown date\nMeeting ID: f\n\n---\n\n## AI-Generated Notes\n\nSome other notes\n")
        true true)].length = 2 :=
  (C9_one_file_per_written_document exampleLib exampleOs
    ⟨[(lit "d", exampleDoc), (lit "f", exampleDocOtherName)], []⟩ ⟨2, 0, 0, []⟩ _
    (by decide) (by decide) (by decide)).1

set_option maxRecDepth 100000 in
/-- C9, the claim as stated fails: two different documents with the same title
and date are both counted as written into the empty directory, without an
error, yet share one output path and leave a single file, the rendering of the
second. -/
theorem C9_counterexample_same_name_one_file :
    exampleDoc ≠ exampleDocSameName ∧
    outputPath exampleLib exampleDoc = outputPath exampleLib exampleDocSameName ∧
    Export exampleLib exampleOs
        ⟨[(lit "d", exampleDoc), (lit "e", exampleDocSameName)], []⟩ [] =
      some (⟨2, 0, 0, []⟩,
        [(lit "unknown-date_T.md", Node.file (lit
          "# T\nDate: Unknown date\nMeeting ID: e\n\n---\n\n## AI-Generated Notes\n\nSome other notes\n")
          true true)]) := by
  decide

/-! ### Runes -/

/-- What `decodeRune` reads: a first byte and continuation bytes only; the rune
is a newline exactly when the first byte is one. -/
theorem decodeRune_spec (b0 : Nat) (rest : GoString) :
    ((decodeRune (b0 :: rest)).1 = 10 ↔ b0 = 10) ∧
    ∃ cs, (b0 :: rest).take (decodeRune (b0 :: rest)).2 = b0 :: cs ∧
      (∀ c ∈ cs, isCont c = true) ∧ (decodeRune (b0 :: rest)).2 = cs.length + 1 := by
  unfold decodeRune
  by_cases h1 : b0 < 0x80
  · simp [h1]
  · by_cases h2 : b0 < 0xC2
    · simp [h1, h2, RuneError]
      omega
    · by_cases h3 : b0 < 0xE0
      · cases rest with
        | nil => simp [h1, h2, h3, RuneError]; omega
        | cons b1 r1 =>
          by_cases hc : isCont b1 = true
          · simp [h1, h2, h3, hc]
            omega
          · simp [h1, h2, h3, hc, RuneError]
            omega
      · by_cases h4 : b0 < 0xF0
        · rcases rest with _ | ⟨b1, _ | ⟨b2, r2⟩⟩
          · simp [h1, h2, h3, h4, RuneError]; omega
          · simp [h1, h2, h3, h4, RuneError]; omega
          · by_cases hc : ((if b0 = 0xE0 then 0xA0 else 0x80) ≤ b1 ∧
                b1 ≤ (if b0 = 0xED then 0x9F else 0xBF) ∧ isCont b2 = true)
            · have hb1 : isCont b1 = true := by
                obtain ⟨ha, hb, _⟩ := hc
                simp only [isCont, Bool.and_eq_true, decide_eq_true_eq]
                split at ha <;> split at hb <;> omega
              have hval : (b0 - 0xE0) * 4096 + (b1 - 0x80) * 64 + (b2 - 0x80) ≠ 10 := by
                obtain ⟨ha, _, _⟩ := hc
                split at ha <;> omega
              simp only [h1, h2, h3, h4, if_false, if_true, if_pos hc]
              refine ⟨⟨fun h => absurd h hval, fun h => by omega⟩, [b1, b2], by simp, ?_, by simp⟩
              intro c hcm
              simp only [List.mem_cons, List.mem_singleton, List.not_mem_nil, or_false] at hcm
              rcases hcm with rfl | rfl
              · exact hb1
              · exact hc.2.2
            · simp only [h1, h2, h3, h4, if_false, if_true, if_neg hc]
              simp [RuneError]; omega
        · by_cases h5 : b0 < 0xF5
          · rcases rest with _ | ⟨b1, _ | ⟨b2, _ | ⟨b3, r3⟩⟩⟩
            · simp [h1, h2, h3, h4, h5, RuneError]; omega
            · simp [h1, h2, h3, h4, h5, RuneError]; omega
            · simp [h1, h2, h3, h4, h5, RuneError]; omega
            · by_cases hc : ((if b0 = 0xF0 then 0x90 else 0x80) ≤ b1 ∧
                  b1 ≤ (if b0 = 0xF4 then 0x8F else 0xBF) ∧ isCont b2 = true ∧ isCont b3 = true)
              · have hb1 : isCont b1 = true := by
                  obtain ⟨ha, hb, _⟩ := hc
                  simp only [isCont, Bool.and_eq_true, decide_eq_true_eq]
                  split at ha <;> split at hb <;> omega
                have hval : (b0 - 0xF0) * 262144 + (b1 - 0x80) * 4096 + (b2 - 0x80) * 64 +
                    (b3 - 0x80) ≠ 10 := by
                  obtain ⟨ha, _, _⟩ := hc
                  split at ha <;> omega
                simp only [h1, h2, h3, h4, h5, if_false, if_true, if_pos hc]
                refine ⟨⟨fun h => absurd h hval, fun h => by omega⟩, [b1, b2, b3], by simp, ?_,
                  by simp⟩
                intro c hcm
                simp only [List.mem_cons, List.mem_singleton, List.not_mem_nil, or_false] at hcm
                rcases hcm with rfl | rfl | rfl
                · exact hb1
                · exact hc.2.2.1
                · exact hc.2.2.2
              · simp only [h1, h2, h3, h4, h5, if_false, if_true, if_neg hc]
                simp [RuneError]; omega
          · simp [h1, h2, h3, h4, h5, RuneError]; omega

theorem decodeRune_width_pos (b0 : Nat) (rest : GoString) :
    1 ≤ (decodeRune (b0 :: rest)).2 := by
  obtain ⟨_, cs, _, _, h⟩ := decodeRune_spec b0 rest
  omega

theorem decodeRune_width_le (s : GoString) : (decodeRune s).2 ≤ s.length := by
  cases s with
  | nil => simp [decodeRune]
  | cons b0 rest =>
    obtain ⟨_, cs, ht, _, h⟩ := decodeRune_spec b0 rest
    have := congrArg List.length ht
    simp only [List.length_take, List.length_cons] at this
    simp only [List.length_cons]
    omega

/-- A rune that is no newline holds no newline byte. -/
theorem decodeRune_take_no_newline (b0 : Nat) (rest : GoString)
    (h : (decodeRune (b0 :: rest)).1 ≠ 10) :
    10 ∉ (b0 :: rest).take (decodeRune (b0 :: rest)).2 := by
  obtain ⟨h1, cs, ht, hc, _⟩ := decodeRune_spec b0 rest
  rw [ht]
  intro hm
  rcases List.mem_cons.1 hm with h10 | h10
  · exact h (h1.2 h10.symm)
  · have := hc 10 h10
    simp [isCont] at this

/-- A rune of a text that is followed by a newline, or by nothing, lies within
the text. -/
theorem decodeRune_width_le_text (b0 : Nat) (t tail : GoString)
    (htail : tail = [] ∨ ∃ r, tail = 10 :: r) :
    (decodeRune (b0 :: (t ++ tail))).2 ≤ (b0 :: t).length := by
  rcases htail with rfl | ⟨r, rfl⟩
  · simpa using decodeRune_width_le (b0 :: t)
  · obtain ⟨_, cs, ht, hc, hw⟩ := decodeRune_spec b0 (t ++ 10 :: r)
    by_contra hlt
    have hlen : t.length < cs.length := by
      simp only [List.length_cons] at hlt
      omega
    have h2 : (t ++ 10 :: r).take cs.length = cs := by
      rw [hw] at ht
      simpa using ht
    have h3 : 10 ∈ cs := by
      rw [← h2, List.take_append_eq_append_take]
      apply List.mem_append_right
      have : cs.length - t.length = (cs.length - t.length - 1) + 1 := by omega
      rw [this, List.take_succ_cons]
      exact List.mem_cons_self _ _
    have := hc 10 h3
    simp [isCont] at this

/-! ### The matcher on the two repetitions of the pattern -/

theorem plusLoop_succ (m : GoString → Caps → (GoString → Caps → Option (GoString × Caps)) →
      Option (GoString × Caps)) (greedy : Bool) (fuel : Nat) (s : GoString) (c : Caps)
    (k : GoString → Caps → Option (GoString × Caps)) :
    plusLoop m greedy (fuel + 1) s c k =
      m s c (fun s1 c1 =>
        if greedy then
          match plusLoop m greedy fuel s1 c1 k with
          | some r => some r
          | none => k s1 c1
        else
          match k s1 c1 with
          | some r => some r
          | none => plusLoop m greedy fuel s1 c1 k) := rfl

theorem run_byte_cons (b x : Nat) (xs : GoString) (c : Caps)
    (k : GoString → Caps → Option (GoString × Caps)) :
    (Re.byte b).run (x :: xs) c k = if x = b then k xs c else none := rfl

theorem run_byte_nil (b : Nat) (c : Caps) (k : GoString → Caps → Option (GoString × Caps)) :
    (Re.byte b).run [] c k = none := rfl

theorem run_word_cons (x : Nat) (xs : GoString) (c : Caps)
    (k : GoString → Caps → Option (GoString × Caps)) :
    Re.word.run (x :: xs) c k = if isWordByte x then k xs c else none := rfl

theorem run_word_nil (c : Caps) (k : GoString → Caps → Option (GoString × Caps)) :
    Re.word.run [] c k = none := rfl

theorem run_anyNotNL (s : GoString) (c : Caps) (k : GoString → Caps → Option (GoString × Caps)) :
    Re.anyNotNL.run s c k =
      if (decodeRune s).2 = 0 ∨ (decodeRune s).1 = 0x0A then none
      else k (s.drop (decodeRune s).2) c := rfl

theorem run_endText_nil (c : Caps) (k : GoString → Caps → Option (GoString × Caps)) :
    Re.endText.run [] c k = k [] c := rfl

theorem run_endText_cons (x : Nat) (xs : GoString) (c : Caps)
    (k : GoString → Caps → Option (GoString × Caps)) :
    Re.endText.run (x :: xs) c k = none := rfl

theorem run_cat (r1 r2 : Re) (s : GoString) (c : Caps)
    (k : GoString → Caps → Option (GoString × Caps)) :
    (Re.cat r1 r2).run s c k = r1.run s c (fun s1 c1 => r2.run s1 c1 k) := rfl

theorem run_alt (r1 r2 : Re) (s : GoString) (c : Caps)
    (k : GoString → Caps → Option (GoString × Caps)) :
    (Re.alt r1 r2).run s c k =
      match r1.run s c k with
      | some r => some r
      | none => r2.run s c k := rfl

theorem run_plus (greedy : Bool) (r : Re) (s : GoString) (c : Caps)
    (k : GoString → Caps → Option (GoString × Caps)) :
    (Re.plus greedy r).run s c k = plusLoop r.run greedy (s.length + 1) s c k := rfl

theorem run_group (i : Nat) (r : Re) (s : GoString) (c : Caps)
    (k : GoString → Caps → Option (GoString × Caps)) :
    (Re.group i r).run s c k =
      r.run s c (fun s1 c1 => k s1 ((i, s.take (s.length - s1.length)) :: c1)) := rfl

theorem plusLoop_word_stop (greedy : Bool) (fuel : Nat) (rest : GoString) (c : Caps)
    (k : GoString → Caps → Option (GoString × Caps))
    (hrest : rest = [] ∨ ∃ x xs, rest = x :: xs ∧ isWordByte x = false) :
    plusLoop (Re.run .word) greedy fuel rest c k = none := by
  cases fuel with
  | zero => rfl
  | succ f =>
    rcases hrest with rfl | ⟨x, xs, rfl, hx⟩
    · rw [plusLoop_succ, run_word_nil]
    · rw [plusLoop_succ, run_word_cons, hx]
      rfl

/-- The greedy `\w+` on a word that is followed by no word character: what
follows the repetition is tried first after the whole word. -/
theorem plusLoop_word_forward (L rest : GoString) (c : Caps)
    (k : GoString → Caps → Option (GoString × Caps)) (r : GoString × Caps) (fuel : Nat)
    (hL : L ≠ []) (hw : ∀ b ∈ L, isWordByte b = true)
    (hrest : rest = [] ∨ ∃ x xs, rest = x :: xs ∧ isWordByte x = false)
    (hf : L.length ≤ fuel) (hk : k rest c = some r) :
    plusLoop (Re.run .word) true fuel (L ++ rest) c k = some r := by
  induction L generalizing fuel with
  | nil => exact absurd rfl hL
  | cons x L ih =>
    cases fuel with
    | zero => simp at hf
    | succ f =>
      have hx : isWordByte x = true := hw x (List.mem_cons_self _ _)
      rw [List.cons_append, plusLoop_succ, run_word_cons, hx]
      simp only [if_true]
      cases L with
      | nil =>
        simp only [List.nil_append]
        rw [plusLoop_word_stop true f rest c k hrest]
        exact hk
      | cons y L2 =>
        have := ih f (by simp) (fun b hb => hw b (List.mem_cons_of_mem _ hb))
          (by simpa using hf)
        rw [this]

theorem plusLoop_dot_stop (fuel : Nat) (tail : GoString) (c : Caps)
    (k : GoString → Caps → Option (GoString × Caps))
    (htail : tail = [] ∨ ∃ r, tail = 10 :: r) :
    plusLoop (Re.run .anyNotNL) false fuel tail c k = none := by
  cases fuel with
  | zero => rfl
  | succ f =>
    rcases htail with rfl | ⟨r, rfl⟩
    · rw [plusLoop_succ, run_anyNotNL]
      simp [decodeRune]
    · rw [plusLoop_succ, run_anyNotNL]
      simp [decodeRune]

/-- The lazy `.+?` on a text without newline that is followed by a newline or
by nothing, when what follows the repetition fails before any other byte: the
repetition takes the whole text. -/
theorem plusLoop_dot_forward (fuel : Nat) (t tail : GoString) (c : Caps)
    (k : GoString → Caps → Option (GoString × Caps))
    (ht : t ≠ []) (hnl : 10 ∉ t) (htail : tail = [] ∨ ∃ r, tail = 10 :: r)
    (hk : ∀ x xs c1, x ≠ 10 → k (x :: xs) c1 = none) (hf : t.length ≤ fuel) :
    plusLoop (Re.run .anyNotNL) false fuel (t ++ tail) c k = k tail c := by
  induction fuel generalizing t with
  | zero =>
    have : t = [] := List.length_eq_zero.1 (Nat.le_zero.1 hf)
    exact absurd this ht
  | succ f ih =>
    cases t with
    | nil => exact absurd rfl ht
    | cons b t1 =>
      have hb : b ≠ 10 := fun h => hnl (h ▸ List.mem_cons_self _ _)
      obtain ⟨h1, _⟩ := decodeRune_spec b (t1 ++ tail)
      have hr : (decodeRune (b :: (t1 ++ tail))).1 ≠ 10 := fun h => hb (h1.1 h)
      have hw1 := decodeRune_width_pos b (t1 ++ tail)
      have hw2 := decodeRune_width_le_text b t1 tail htail
      have hdrop : (b :: (t1 ++ tail)).drop (decodeRune (b :: (t1 ++ tail))).2 =
          (b :: t1).drop (decodeRune (b :: (t1 ++ tail))).2 ++ tail := by
        exact (List.drop_append_of_le_length hw2 :
          ((b :: t1) ++ tail).drop (decodeRune (b :: (t1 ++ tail))).2 = _)
      have hw0 : ¬ ((decodeRune (b :: (t1 ++ tail))).2 = 0 ∨ (decodeRune (b :: (t1 ++ tail))).1 = 10) := by
        intro h
        rcases h with h | h
        · omega
        · exact hr h
      rw [List.cons_append, plusLoop_succ, run_anyNotNL, if_neg hw0]
      simp only [Bool.false_eq_true, if_false]
      rw [hdrop]
      cases ht2 : (b :: t1).drop (decodeRune (b :: (t1 ++ tail))).2 with
      | nil =>
        simp only [List.nil_append]
        cases hkt : k tail c with
        | some r => rfl
        | none => exact plusLoop_dot_stop f tail c k htail
      | cons x xs =>
        have hxm : x ∈ b :: t1 := List.mem_of_mem_drop (ht2 ▸ List.mem_cons_self x xs)
        have hx : x ≠ 10 := fun h => hnl (h ▸ hxm)
        simp only [List.cons_append, hk x (xs ++ tail) c hx]
        have hlen : (x :: xs).length ≤ f := by
          have := congrArg List.length ht2
          simp only [List.length_drop, List.length_cons] at this hf ⊢
          omega
        have hnl2 : 10 ∉ x :: xs := fun h => hnl (List.mem_of_mem_drop (ht2 ▸ h))
        have := ih (x :: xs) (by simp) hnl2 hlen
        simpa using this

/-! ### The pattern on one rendered entry -/

theorem lit_stars : lit "**" = [42, 42] := by decide

theorem lit_colon_stars : lit ":** " = [58, 42, 42, 32] := by decide

theorem take_length_sub (a b : GoString) : (a ++ b).take ((a ++ b).length - b.length) = a := by
  rw [List.length_append, Nat.add_sub_cancel, List.take_left']
  rfl

/-- What follows the text in the pattern, `(?:\n\n|\n$|$)`, fails before a
byte that is no newline. -/
theorem run_terminator_fail (x : Nat) (xs : GoString) (c : Caps)
    (k : GoString → Caps → Option (GoString × Caps)) (hx : x ≠ 10) :
    (Re.alt (.cat (.byte 10) (.byte 10)) (.alt (.cat (.byte 10) .endText) .endText)).run
      (x :: xs) c k = none := by
  simp [run_alt, run_cat, run_byte_cons, run_endText_cons, hx]

/-- The pattern matches a rendered entry at the head of the text: a speaker
label that is a word, a text without newline, and after it an empty line or
one newline at the end of the text. -/
theorem matchHere_entry (L t tail rest : GoString)
    (hL : L ≠ []) (hw : ∀ b ∈ L, isWordByte b = true) (ht : t ≠ []) (hnl : 10 ∉ t)
    (htail : tail = 10 :: 10 :: rest ∨ (tail = [10] ∧ rest = [])) :
    matchHere transcriptEntryRegex (42 :: 42 :: (L ++ 58 :: 42 :: 42 :: 32 :: (t ++ tail))) =
      some (rest, [(2, t), (1, L)]) := by
  unfold matchHere transcriptEntryRegex
  rw [lit_stars, lit_colon_stars]
  simp only [Re.text, run_cat, run_byte_cons, if_true, run_group, run_plus]
  rw [plusLoop_word_forward L (58 :: 42 :: 42 :: 32 :: (t ++ tail)) [] _
    (rest, [(2, t), (1, L)]) _ hL hw (Or.inr ⟨58, _, rfl, by decide⟩)
    (by simp only [List.length_append]; omega)]
  simp only [run_byte_cons, if_true, take_length_sub]
  rw [plusLoop_dot_forward _ t tail _ _ ht hnl
    (by rcases htail with h | h
        · exact Or.inr ⟨_, h⟩
        · exact Or.inr ⟨[], h.1⟩)
    (fun x xs c1 hx => run_terminator_fail x xs _ _ hx)
    (by simp only [List.length_append]; omega)]
  rcases htail with h | ⟨h, h2⟩
  · subst h
    simp [run_alt, run_cat, run_byte_cons, take_length_sub]
  · subst h h2
    simp [run_alt, run_cat, run_byte_cons, run_byte_nil, run_endText_nil, take_length_sub]

/-! ### What a match of the pattern looks like, on any text -/

theorem run_byte_some (b : Nat) (s : GoString) (c : Caps)
    (k : GoString → Caps → Option (GoString × Caps)) (r : GoString × Caps)
    (h : (Re.byte b).run s c k = some r) : ∃ xs, s = b :: xs ∧ k xs c = some r := by
  cases s with
  | nil => simp [run_byte_nil] at h
  | cons x xs =>
    rw [run_byte_cons] at h
    by_cases hx : x = b
    · rw [if_pos hx] at h
      exact ⟨xs, by rw [hx], h⟩
    · rw [if_neg hx] at h
      simp at h

theorem plusLoop_word_sound (fuel : Nat) (s : GoString) (c : Caps)
    (k : GoString → Caps → Option (GoString × Caps)) (r : GoString × Caps)
    (h : plusLoop Re.word.run true fuel s c k = some r) :
    ∃ L rest, s = L ++ rest ∧ L ≠ [] ∧ (∀ b ∈ L, isWordByte b = true) ∧ k rest c = some r := by
  induction fuel generalizing s with
  | zero => simp [plusLoop] at h
  | succ f ih =>
    cases s with
    | nil => simp [plusLoop_succ, run_word_nil] at h
    | cons x xs =>
      rw [plusLoop_succ, run_word_cons] at h
      by_cases hx : isWordByte x = true
      · rw [if_pos hx] at h
        simp only [if_true] at h
        cases hin : plusLoop Re.word.run true f xs c k with
        | some r1 =>
          rw [hin] at h
          simp only [Option.some.injEq] at h
          subst h
          obtain ⟨L, rest, hs, _, hw, hk⟩ := ih xs hin
          refine ⟨x :: L, rest, by rw [hs]; rfl, by simp, ?_, hk⟩
          intro b hb
          rcases List.mem_cons.1 hb with rfl | hb
          · exact hx
          · exact hw b hb
        | none =>
          rw [hin] at h
          exact ⟨[x], xs, rfl, by simp, by simpa using hx, h⟩
      · rw [if_neg hx] at h
        simp at h

theorem plusLoop_dot_sound (fuel : Nat) (s : GoString) (c : Caps)
    (k : GoString → Caps → Option (GoString × Caps)) (r : GoString × Caps)
    (h : plusLoop Re.anyNotNL.run false fuel s c k = some r) :
    ∃ t rest, s = t ++ rest ∧ t ≠ [] ∧ 10 ∉ t ∧ k rest c = some r := by
  induction fuel generalizing s with
  | zero => simp [plusLoop] at h
  | succ f ih =>
    rw [plusLoop_succ, run_anyNotNL] at h
    by_cases hw0 : (decodeRune s).2 = 0 ∨ (decodeRune s).1 = 10
    · rw [if_pos hw0] at h
      simp at h
    · rw [if_neg hw0] at h
      simp only [Bool.false_eq_true, if_false] at h
      cases s with
      | nil => simp [decodeRune] at hw0
      | cons b s1 =>
        have hr : (decodeRune (b :: s1)).1 ≠ 10 := fun h => hw0 (Or.inr h)
        have hno := decodeRune_take_no_newline b s1 hr
        have hpos := decodeRune_width_pos b s1
        have hsplit : b :: s1 = (b :: s1).take (decodeRune (b :: s1)).2 ++
            (b :: s1).drop (decodeRune (b :: s1)).2 := (List.take_append_drop _ _).symm
        have hne : (b :: s1).take (decodeRune (b :: s1)).2 ≠ [] := by
          intro h0
          have := congrArg List.length h0
          simp only [List.length_take, List.length_cons, List.length_nil] at this
          omega
        cases hk : k ((b :: s1).drop (decodeRune (b :: s1)).2) c with
        | some r1 =>
          rw [hk] at h
          simp only [Option.some.injEq] at h
          exact ⟨_, _, hsplit, hne, hno, h ▸ hk⟩
        | none =>
          rw [hk] at h
          obtain ⟨t, rest, hs, _, hnl, hk2⟩ := ih _ h
          refine ⟨(b :: s1).take (decodeRune (b :: s1)).2 ++ t, rest, ?_, ?_, ?_, hk2⟩
          · rw [List.append_assoc, ← hs]
            exact hsplit
          · simp [hne]
          · intro hm
            rcases List.mem_append.1 hm with hm | hm
            · exact hno hm
            · exact hnl hm

theorem run_endText_some (s : GoString) (c : Caps)
    (k : GoString → Caps → Option (GoString × Caps)) (r : GoString × Caps)
    (h : Re.endText.run s c k = some r) : s = [] ∧ k [] c = some r := by
  cases s with
  | nil => exact ⟨rfl, h⟩
  | cons x xs => simp [run_endText_cons] at h

/-- What follows the text in the pattern matches two newlines, or one newline
or nothing at the end of the text. -/
theorem run_terminator_some (s : GoString) (c : Caps) (r : GoString × Caps)
    (h : (Re.alt (.cat (.byte 10) (.byte 10)) (.alt (.cat (.byte 10) .endText) .endText)).run
      s c (fun s1 c1 => some (s1, c1)) = some r) :
    ∃ term, s = term ++ r.1 ∧ r.2 = c := by
  rw [run_alt] at h
  cases h1 : (Re.cat (.byte 10) (.byte 10)).run s c (fun s1 c1 => some (s1, c1)) with
  | some r1 =>
    rw [h1] at h
    simp only [Option.some.injEq] at h
    rw [run_cat] at h1
    obtain ⟨xs, hxs, h2⟩ := run_byte_some _ _ _ _ _ h1
    obtain ⟨ys, hys, h3⟩ := run_byte_some _ _ _ _ _ h2
    simp only [Option.some.injEq] at h3
    refine ⟨[10, 10], ?_, ?_⟩
    · rw [hxs, hys, ← h, ← h3]
      rfl
    · rw [← h, ← h3]
  | none =>
    rw [h1] at h
    simp only at h
    rw [run_alt] at h
    cases h2 : (Re.cat (.byte 10) .endText).run s c (fun s1 c1 => some (s1, c1)) with
    | some r2 =>
      rw [h2] at h
      simp only [Option.some.injEq] at h
      rw [run_cat] at h2
      obtain ⟨xs, hxs, h3⟩ := run_byte_some _ _ _ _ _ h2
      obtain ⟨hnil, h4⟩ := run_endText_some _ _ _ _ h3
      simp only [Option.some.injEq] at h4
      refine ⟨[10], ?_, ?_⟩
      · rw [hxs, hnil, ← h, ← h4]
        rfl
      · rw [← h, ← h4]
    | none =>
      rw [h2] at h
      simp only at h
      obtain ⟨hnil, h4⟩ := run_endText_some _ _ _ _ h
      simp only [Option.some.injEq] at h4
      refine ⟨[], ?_, ?_⟩
      · rw [hnil, ← h4]
        rfl
      · rw [← h4]

/-- Every match of the pattern is the two stars, a speaker label that is a
word, ":** ", a text without newline, and what ends the entry; the groups
capture the label and the text. -/
theorem matchHere_sound (s rest : GoString) (caps : Caps)
    (h : matchHere transcriptEntryRegex s = some (rest, caps)) :
    ∃ L t term, s = 42 :: 42 :: (L ++ 58 :: 42 :: 42 :: 32 :: (t ++ (term ++ rest))) ∧
      L ≠ [] ∧ (∀ b ∈ L, isWordByte b = true) ∧ t ≠ [] ∧ 10 ∉ t ∧ caps = [(2, t), (1, L)] := by
  unfold matchHere transcriptEntryRegex at h
  rw [lit_stars, lit_colon_stars] at h
  simp only [Re.text, run_cat] at h
  obtain ⟨s1, e1, h1⟩ := run_byte_some _ _ _ _ _ h
  obtain ⟨s2, e2, h2⟩ := run_byte_some _ _ _ _ _ h1
  rw [run_group, run_plus] at h2
  obtain ⟨L, r1, e3, hL, hw, h3⟩ := plusLoop_word_sound _ _ _ _ _ h2
  rw [e3] at h3
  simp only [take_length_sub] at h3
  obtain ⟨s3, e4, h4⟩ := run_byte_some _ _ _ _ _ h3
  obtain ⟨s4, e5, h5⟩ := run_byte_some _ _ _ _ _ h4
  obtain ⟨s5, e6, h6⟩ := run_byte_some _ _ _ _ _ h5
  obtain ⟨s6, e7, h7⟩ := run_byte_some _ _ _ _ _ h6
  rw [run_group, run_plus] at h7
  obtain ⟨t, r2, e8, ht, hnl, h8⟩ := plusLoop_dot_sound _ _ _ _ _ h7
  rw [e8] at h8
  simp only [take_length_sub] at h8
  obtain ⟨term, hs, hc⟩ := run_terminator_some _ _ _ h8
  simp only at hs hc
  exact ⟨L, t, term, by rw [e1, e2, e3, e4, e5, e6, e7, e8, hs], hL, hw, ht, hnl, hc⟩

/-! ### All matches in a transcript section -/

theorem matchHere_newline (s : GoString) : matchHere transcriptEntryRegex (10 :: s) = none := by
  simp [matchHere, transcriptEntryRegex, lit_stars, Re.text, run_cat, run_byte_cons]

theorem matchHere_nil : matchHere transcriptEntryRegex [] = none := by
  simp [matchHere, transcriptEntryRegex, lit_stars, Re.text, run_cat, run_byte_nil]

theorem findFirst_newline (fuel : Nat) (s : GoString) :
    findFirst transcriptEntryRegex (fuel + 1) (10 :: s) = findFirst transcriptEntryRegex fuel s := by
  simp [findFirst, matchHere_newline, decodeRune]

theorem entryBody_cons (e : GoString × GoString) (rest : List (GoString × GoString)) :
    ∃ tail, entryBody (e :: rest) = 42 :: 42 :: (e.1 ++ 58 :: 42 :: 42 :: 32 :: (e.2 ++ tail)) ∧
      (tail = 10 :: 10 :: entryBody rest ∨ (tail = [10] ∧ entryBody rest = [])) := by
  cases rest with
  | nil => exact ⟨[10], rfl, Or.inr ⟨rfl, rfl⟩⟩
  | cons e2 rest2 => exact ⟨10 :: 10 :: entryBody (e2 :: rest2), rfl, Or.inl rfl⟩

/-- In the text of rendered entries the matches of the pattern are the
entries, one after the other. -/
theorem findAllLoop_entryBody (es : List (GoString × GoString)) (fuel : Nat)
    (hgood : ∀ e ∈ es, readable e) (hf : es.length ≤ fuel) :
    (findAllLoop transcriptEntryRegex fuel (entryBody es)).map (List.drop 1) =
      es.map (fun e => [e.1, e.2]) := by
  induction es generalizing fuel with
  | nil =>
    cases fuel with
    | zero => rfl
    | succ f => simp [entryBody, findAllLoop, findFirst, matchHere_nil]
  | cons e rest ih =>
    cases fuel with
    | zero => simp at hf
    | succ f =>
      obtain ⟨tail, hb, htail⟩ := entryBody_cons e rest
      obtain ⟨h1, h2, h3, h4⟩ := hgood e (List.mem_cons_self _ _)
      have hm := matchHere_entry e.1 e.2 tail (entryBody rest) h1 h2 h3 h4 htail
      rw [hb]
      simp only [findAllLoop, findFirst, hm, List.map_cons]
      rw [ih f (fun x hx => hgood x (List.mem_cons_of_mem _ hx)) (by simpa using hf)]
      simp [List.lookup]

theorem findFirst_succ (re : Re) (fuel : Nat) (s : GoString) :
    findFirst re (fuel + 1) s =
      match matchHere re s with
      | some (rest, caps) => some (s, rest, caps)
      | none =>
        match s with
        | [] => none
        | _ :: _ => findFirst re fuel (s.drop (decodeRune s).2) := rfl

theorem findAllLoop_succ (re : Re) (fuel : Nat) (s : GoString) :
    findAllLoop re (fuel + 1) s =
      match findFirst re (s.length + 1) s with
      | none => []
      | some (start, rest, caps) =>
        [start.take (start.length - rest.length), (caps.lookup 1).getD [],
          (caps.lookup 2).getD []] :: findAllLoop re fuel rest := rfl

theorem findFirst_sound (fuel : Nat) (s start rest : GoString) (caps : Caps)
    (h : findFirst transcriptEntryRegex fuel s = some (start, rest, caps)) :
    matchHere transcriptEntryRegex start = some (rest, caps) := by
  induction fuel generalizing s with
  | zero => simp [findFirst] at h
  | succ f ih =>
    rw [findFirst_succ] at h
    cases hm : matchHere transcriptEntryRegex s with
    | some r =>
      rw [hm] at h
      simp only [Option.some.injEq, Prod.mk.injEq] at h
      obtain ⟨h1, h2, h3⟩ := h
      rw [← h1, hm, ← h2, ← h3]
    | none =>
      rw [hm] at h
      cases s with
      | nil => simp at h
      | cons x xs => exact ih _ h

/-- On any text, every match the loop collects holds a speaker label and a
text that are readable. -/
theorem findAllLoop_sound (fuel : Nat) (s : GoString) :
    ∃ es : List (GoString × GoString), (∀ e ∈ es, readable e) ∧
      (findAllLoop transcriptEntryRegex fuel s).map (List.drop 1) = es.map (fun e => [e.1, e.2]) := by
  induction fuel generalizing s with
  | zero => exact ⟨[], by simp, rfl⟩
  | succ f ih =>
    rw [findAllLoop_succ]
    cases hf : findFirst transcriptEntryRegex (s.length + 1) s with
    | none => exact ⟨[], by simp, rfl⟩
    | some r =>
      obtain ⟨start, rest, caps⟩ := r
      obtain ⟨L, t, term, _, hL, hw, ht, hnl, hc⟩ :=
        matchHere_sound start rest caps (findFirst_sound _ _ _ _ _ hf)
      obtain ⟨es, hes, heq⟩ := ih rest
      refine ⟨(L, t) :: es, ?_, ?_⟩
      · intro e he
        rcases List.mem_cons.1 he with rfl | he
        · exact ⟨hL, hw, ht, hnl⟩
        · exact hes e he
      · simp only [List.map_cons, heq, hc]
        simp [List.lookup]

/-- The loop of the extractor over matches that hold the labels and texts
`es`: an entry for each text that is not blank. -/
theorem extractEntries_of_pairs (go : GoLib) (ms : List (List GoString))
    (es : List (GoString × GoString))
    (h : ms.map (List.drop 1) = es.map (fun e => [e.1, e.2])) :
    extractEntries go ms =
      (es.filter (fun e => decide (TrimSpace e.2 ≠ []))).map
        (fun e => { Text := TrimSpace e.2, Source := SpeakerToSource go e.1 }) := by
  induction ms generalizing es with
  | nil =>
    cases es with
    | nil => rfl
    | cons e es => simp at h
  | cons m ms ih =>
    cases es with
    | nil => simp at h
    | cons e es =>
      simp only [List.map_cons, List.cons.injEq] at h
      obtain ⟨hm, hrest⟩ := h
      rcases m with _ | ⟨m0, m1⟩
      · simp at hm
      · simp only [List.drop_succ_cons, List.drop_zero] at hm
        subst hm
        by_cases hb : TrimSpace e.2 = []
        · simp [extractEntries, hb, ih es hrest]
        · simp [extractEntries, hb, ih es hrest, List.filter_cons]

/-! ### Searching a text made of lines -/

theorem hasPrefix_cons_cons (c : Nat) (s : GoString) (p : Nat) (ps : GoString) :
    HasPrefix (c :: s) (p :: ps) = (decide (c = p) && HasPrefix s ps) := rfl

theorem contains_cons (c : Nat) (s sub : GoString) :
    Contains (c :: s) sub = (HasPrefix (c :: s) sub || Contains s sub) := rfl

theorem afterFirst_cons (sep : GoString) (c : Nat) (s : GoString) :
    afterFirst sep (c :: s) =
      if HasPrefix (c :: s) sep then some ((c :: s).drop sep.length) else afterFirst sep s := rfl

theorem joinLines_cons_cons (l l2 : GoString) (ls : List GoString) :
    joinLines (l :: l2 :: ls) = l ++ 10 :: joinLines (l2 :: ls) := rfl

theorem hasPrefix_nil_left (p : GoString) (hp : p ≠ []) : HasPrefix [] p = false := by
  cases p with
  | nil => exact absurd rfl hp
  | cons x xs => rfl

theorem hasPrefix_append_sep (x y pat : GoString) (h : 10 ∉ pat) :
    HasPrefix (x ++ 10 :: y) pat = HasPrefix x pat := by
  induction x generalizing pat with
  | nil =>
    cases pat with
    | nil => rfl
    | cons p ps =>
      have hp : ¬ (10 = p) := fun e => h (e ▸ List.mem_cons_self _ _)
      simp [HasPrefix, hp]
  | cons c x ih =>
    cases pat with
    | nil => rfl
    | cons p ps =>
      rw [List.cons_append, hasPrefix_cons_cons, hasPrefix_cons_cons,
        ih ps (fun hm => h (List.mem_cons_of_mem _ hm))]

theorem contains_append_sep (x y pat : GoString) (h : 10 ∉ pat) (hp : pat ≠ []) :
    Contains (x ++ 10 :: y) pat = (Contains x pat || Contains y pat) := by
  induction x with
  | nil =>
    have h1 : HasPrefix (10 :: y) pat = false := by
      have := hasPrefix_append_sep [] y pat h
      simpa [hasPrefix_nil_left pat hp] using this
    simp [Contains, h1, hasPrefix_nil_left pat hp]
  | cons c x ih =>
    have h1 := hasPrefix_append_sep (c :: x) y pat h
    simp only [List.cons_append] at h1
    rw [List.cons_append, contains_cons, contains_cons, h1, ih, Bool.or_assoc]

theorem contains_joinLines (ls : List GoString) (pat : GoString) (h : 10 ∉ pat) (hp : pat ≠ []) :
    Contains (joinLines ls) pat = ls.any (fun l => Contains l pat) := by
  induction ls with
  | nil => simp [joinLines, Contains, hasPrefix_nil_left pat hp]
  | cons l ls ih =>
    cases ls with
    | nil => simp [joinLines]
    | cons l2 ls2 =>
      rw [joinLines_cons_cons, contains_append_sep _ _ _ h hp, ih]
      simp

theorem afterFirst_append_sep (x y pat : GoString) (h : 10 ∉ pat) (hp : pat ≠ [])
    (hx : Contains x pat = false) : afterFirst pat (x ++ 10 :: y) = afterFirst pat y := by
  induction x with
  | nil =>
    have h1 : HasPrefix (10 :: y) pat = false := by
      have := hasPrefix_append_sep [] y pat h
      simpa [hasPrefix_nil_left pat hp] using this
    simp [afterFirst, h1]
  | cons c x ih =>
    rw [contains_cons, Bool.or_eq_false_iff] at hx
    have h1 := hasPrefix_append_sep (c :: x) y pat h
    simp only [List.cons_append] at h1
    rw [List.cons_append, afterFirst_cons, h1, hx.1]
    simp only [Bool.false_eq_true, if_false]
    exact ih hx.2

theorem hasPrefix_self_append (pat y : GoString) : HasPrefix (pat ++ y) pat = true := by
  induction pat with
  | nil => cases y <;> rfl
  | cons p ps ih => simp [HasPrefix, ih]

theorem afterFirst_self_append (pat y : GoString) (hp : pat ≠ []) :
    afterFirst pat (pat ++ y) = some y := by
  cases pat with
  | nil => exact absurd rfl hp
  | cons p ps =>
    have := hasPrefix_self_append (p :: ps) y
    simp only [List.cons_append] at this
    simp [afterFirst, this]

/-- In a text of lines of which the first to contain `pat` is `pat` itself,
followed by further lines: what comes after the first occurrence of `pat` is a
newline and these further lines. -/
theorem afterFirst_joinLines (pre post : List GoString) (pat : GoString) (h : 10 ∉ pat)
    (hp : pat ≠ []) (hpre : ∀ l ∈ pre, Contains l pat = false) (hpost : post ≠ []) :
    afterFirst pat (joinLines (pre ++ pat :: post)) = some (10 :: joinLines post) := by
  induction pre with
  | nil =>
    cases post with
    | nil => exact absurd rfl hpost
    | cons q qs =>
      rw [List.nil_append, joinLines_cons_cons]
      exact afterFirst_self_append pat _ hp
  | cons l pre ih =>
    have hl : Contains l pat = false := hpre l (List.mem_cons_self _ _)
    have hne : ∃ z zs, pre ++ pat :: post = z :: zs := by
      cases pre with
      | nil => exact ⟨_, _, rfl⟩
      | cons z zs => exact ⟨_, _, rfl⟩
    obtain ⟨z, zs, hz⟩ := hne
    rw [List.cons_append, hz, joinLines_cons_cons, ← hz, afterFirst_append_sep _ _ _ h hp hl]
    exact ih (fun x hx => hpre x (List.mem_cons_of_mem _ hx))

/-! ### The lines of a rendering before the transcript heading -/

theorem heading_eq : transcriptHeading = [35, 35, 32, 84, 114, 97, 110, 115, 99, 114, 105, 112, 116] := by
  decide

theorem heading_no_newline : 10 ∉ transcriptHeading := by decide

theorem heading_ne_nil : transcriptHeading ≠ [] := by decide

theorem contains_heading_no_hash (s : GoString) (h : 35 ∉ s) :
    Contains s transcriptHeading = false := by
  rw [heading_eq]
  induction s with
  | nil => rfl
  | cons c s ih =>
    have hc : ¬ (c = 35) := fun e => h (e ▸ List.mem_cons_self _ _)
    rw [contains_cons, hasPrefix_cons_cons, ih (fun hm => h (List.mem_cons_of_mem _ hm))]
    simp [hc]

theorem contains_heading_append_no_hash (pre s : GoString) (h : 35 ∉ pre) :
    Contains (pre ++ s) transcriptHeading = Contains s transcriptHeading := by
  induction pre with
  | nil => rfl
  | cons c pre ih =>
    have hc : ¬ (c = 35) := fun e => h (e ▸ List.mem_cons_self _ _)
    rw [List.cons_append, contains_cons, ih (fun hm => h (List.mem_cons_of_mem _ hm)), heading_eq,
      hasPrefix_cons_cons]
    simp [hc]

theorem contains_heading_title_line (title : GoString) :
    Contains (lit "# " ++ title) transcriptHeading = Contains title transcriptHeading := by
  have h1 : lit "# " = [35, 32] := by decide
  rw [h1, heading_eq]
  simp only [List.cons_append, List.nil_append]
  rw [contains_cons, contains_cons, hasPrefix_cons_cons, hasPrefix_cons_cons, hasPrefix_cons_cons]
  simp

theorem decimalLoop_digits (fuel n : Nat) (acc : GoString)
    (hacc : ∀ b ∈ acc, 48 ≤ b ∧ b ≤ 57) : ∀ b ∈ decimalLoop fuel n acc, 48 ≤ b ∧ b ≤ 57 := by
  induction fuel generalizing n acc with
  | zero => simpa [decimalLoop] using hacc
  | succ f ih =>
    unfold decimalLoop
    by_cases h : n < 10
    · rw [if_pos h]
      intro b hb
      rcases List.mem_cons.1 hb with rfl | hb
      · omega
      · exact hacc b hb
    · rw [if_neg h]
      apply ih
      intro b hb
      rcases List.mem_cons.1 hb with rfl | hb
      · omega
      · exact hacc b hb

theorem appendInt_digits (x width : Nat) : ∀ b ∈ appendInt x width, 48 ≤ b ∧ b ≤ 57 := by
  intro b hb
  unfold appendInt at hb
  rcases List.mem_append.1 hb with hb | hb
  · have := List.eq_of_mem_replicate hb
    omega
  · exact decimalLoop_digits _ _ [] (by simp) b hb

theorem formatDate_no_hash (go : GoLib) (timestamp : GoString) : 35 ∉ FormatDate go timestamp := by
  have hu : 35 ∉ lit "Unknown date" := by decide
  unfold FormatDate
  split
  · exact hu
  · split
    · exact hu
    · intro hm
      have hd : ∀ x w, 35 ∉ appendInt x w := fun x w h35 => by
        have := appendInt_digits x w 35 h35
        omega
      have h1 : lit "-" = [45] := by decide
      have h2 : lit " " = [32] := by decide
      have h3 : lit ":" = [58] := by decide
      rw [h1, h2, h3] at hm
      simp only [List.mem_append, List.mem_singleton] at hm
      rcases hm with ((((((((hm | hm) | hm) | hm) | hm) | hm) | hm) | hm) | hm)
      all_goals first | exact hd _ _ hm | omega

theorem documentLines_of_entries (go : GoLib) (doc : Document) (es : List TranscriptEntry)
    (hes : es ≠ []) :
    documentLines go doc es = frontLines go doc ++ transcriptHeading :: [] :: transcriptLines es := by
  have hpos : 0 < es.length := List.length_pos.2 hes
  unfold documentLines frontLines transcriptHeading
  cases hasNotes doc <;> simp [hpos]

theorem contains_heading_header (go : GoLib) (doc : Document) (hfree : headingFree doc = true) :
    ∀ l ∈ [lit "# " ++ (if doc.Title = [] then lit "Untitled" else doc.Title),
      lit "Date: " ++ FormatDate go doc.CreatedAt,
      lit "Meeting ID: " ++ doc.ID, [], lit "---", []],
      Contains l transcriptHeading = false := by
  simp only [headingFree, Bool.and_eq_true, Bool.not_eq_true', ] at hfree
  obtain ⟨⟨ht, hi⟩, _⟩ := hfree
  intro l hl
  simp only [List.mem_cons, List.mem_singleton, List.not_mem_nil, or_false] at hl
  rcases hl with rfl | rfl | rfl | rfl | rfl | rfl
  · rw [contains_heading_title_line]
    split
    · decide
    · exact ht
  · rw [contains_heading_append_no_hash _ _ (by decide)]
    exact contains_heading_no_hash _ (formatDate_no_hash go _)
  · rw [contains_heading_append_no_hash _ _ (by decide)]
    exact hi
  · decide
  · decide
  · decide

theorem contains_heading_frontLines (go : GoLib) (doc : Document) (hfree : headingFree doc = true) :
    ∀ l ∈ frontLines go doc, Contains l transcriptHeading = false := by
  intro l hl
  unfold frontLines at hl
  rcases List.mem_append.1 hl with hl | hl
  · exact contains_heading_header go doc hfree l hl
  · simp only [headingFree, Bool.and_eq_true, Bool.not_eq_true'] at hfree
    split at hl
    · simp only [List.mem_cons, List.mem_singleton, List.not_mem_nil, or_false] at hl
      rcases hl with rfl | rfl | rfl | rfl | rfl | rfl
      · decide
      · decide
      · exact hfree.2
      · decide
      · decide
      · decide
    · simp at hl

/-- A rendering without entries of a document that does not mention the
transcript heading holds no transcript heading. -/
theorem contains_heading_format_nil (go : GoLib) (doc : Document)
    (hfree : headingFree doc = true) :
    Contains (FormatDocumentMarkdown go doc []) transcriptHeading = false := by
  unfold FormatDocumentMarkdown
  rw [contains_joinLines _ _ heading_no_newline heading_ne_nil]
  rw [Bool.eq_false_iff]
  intro hany
  obtain ⟨l, hl, hc⟩ := List.any_eq_true.1 hany
  have hsub : ∀ l ∈ documentLines go doc [], l ∈ frontLines go doc := by
    intro l hl
    unfold documentLines at hl
    unfold frontLines
    cases hn : hasNotes doc <;> simp [hn] at hl ⊢ <;> tauto
  rw [contains_heading_frontLines go doc hfree l (hsub l hl)] at hc
  exact Bool.false_ne_true hc

/-- In a rendering with entries of a document that does not mention the
transcript heading, the text after the first heading is the transcript
section. -/
theorem afterFirst_format (go : GoLib) (doc : Document) (es : List TranscriptEntry)
    (hfree : headingFree doc = true) (hes : es ≠ []) :
    afterFirst transcriptHeading (FormatDocumentMarkdown go doc es) =
      some (10 :: joinLines ([] :: transcriptLines es)) := by
  unfold FormatDocumentMarkdown
  rw [documentLines_of_entries go doc es hes]
  exact afterFirst_joinLines _ _ _ heading_no_newline heading_ne_nil
    (contains_heading_frontLines go doc hfree) (by simp)

theorem contains_heading_format (go : GoLib) (doc : Document) (es : List TranscriptEntry)
    (hes : es ≠ []) : Contains (FormatDocumentMarkdown go doc es) transcriptHeading = true := by
  unfold FormatDocumentMarkdown
  rw [documentLines_of_entries go doc es hes,
    contains_joinLines _ _ heading_no_newline heading_ne_nil]
  apply List.any_eq_true.2
  refine ⟨transcriptHeading, by simp, ?_⟩
  decide

/-! ### The transcript section of a rendering -/

theorem shownEntries_cons_blank (e : TranscriptEntry) (es : List TranscriptEntry)
    (h : TrimSpace e.Text = []) : shownEntries (e :: es) = shownEntries es := by
  simp [shownEntries, List.filter_cons, h]

theorem shownEntries_cons_shown (e : TranscriptEntry) (es : List TranscriptEntry)
    (h : TrimSpace e.Text ≠ []) :
    shownEntries (e :: es) = (SourceToSpeaker e.Source, TrimSpace e.Text) :: shownEntries es := by
  simp [shownEntries, List.filter_cons, h]

theorem transcriptLines_cons_blank (e : TranscriptEntry) (es : List TranscriptEntry)
    (h : TrimSpace e.Text = []) : transcriptLines (e :: es) = transcriptLines es := by
  simp [transcriptLines, h]

theorem transcriptLines_cons_shown (e : TranscriptEntry) (es : List TranscriptEntry)
    (h : TrimSpace e.Text ≠ []) :
    transcriptLines (e :: es) =
      (42 :: 42 :: (SourceToSpeaker e.Source ++ 58 :: 42 :: 42 :: 32 :: TrimSpace e.Text)) ::
        [] :: transcriptLines es := by
  simp [transcriptLines, h, lit_stars, lit_colon_stars]

theorem transcriptLines_eq_nil_iff (es : List TranscriptEntry) :
    transcriptLines es = [] ↔ shownEntries es = [] := by
  induction es with
  | nil => simp [transcriptLines, shownEntries]
  | cons e es ih =>
    by_cases h : TrimSpace e.Text = []
    · rw [transcriptLines_cons_blank e es h, shownEntries_cons_blank e es h, ih]
    · rw [transcriptLines_cons_shown e es h, shownEntries_cons_shown e es h]
      simp

/-- The lines of the entries, joined, are the text of the shown entries. -/
theorem joinLines_transcriptLines (es : List TranscriptEntry) :
    joinLines (transcriptLines es) = entryBody (shownEntries es) := by
  induction es with
  | nil => rfl
  | cons e es ih =>
    by_cases h : TrimSpace e.Text = []
    · rw [transcriptLines_cons_blank e es h, shownEntries_cons_blank e es h, ih]
    · rw [transcriptLines_cons_shown e es h, shownEntries_cons_shown e es h, joinLines_cons_cons]
      cases hs : shownEntries es with
      | nil =>
        rw [(transcriptLines_eq_nil_iff es).2 hs]
        simp [joinLines, entryBody]
      | cons s ss =>
        cases ht : transcriptLines es with
        | nil =>
          rw [(transcriptLines_eq_nil_iff es).1 ht] at hs
          simp at hs
        | cons x xs =>
          rw [joinLines_cons_cons, ← ht, ih, hs]
          simp [entryBody]

theorem length_le_entryBody (es : List (GoString × GoString)) :
    es.length ≤ (entryBody es).length := by
  induction es with
  | nil => simp
  | cons e rest ih =>
    obtain ⟨tail, hb, htail⟩ := entryBody_cons e rest
    rw [hb]
    rcases htail with h | ⟨h, h2⟩
    · subst h
      simp only [List.length_cons, List.length_append]
      omega
    · subst h
      rw [h2] at ih
      simp only [List.length_cons, List.length_append, List.length_nil] at ih ⊢
      omega

theorem findAll_section (es : List (GoString × GoString))
    (hgood : ∀ e ∈ es, readable e) :
    (FindAllStringSubmatch transcriptEntryRegex (10 :: 10 :: entryBody es)).map (List.drop 1) =
      es.map (fun e => [e.1, e.2]) := by
  have hlen := length_le_entryBody es
  have h1 : FindAllStringSubmatch transcriptEntryRegex (10 :: 10 :: entryBody es) =
      findAllLoop transcriptEntryRegex ((entryBody es).length + 3) (entryBody es) := by
    unfold FindAllStringSubmatch
    simp only [List.length_cons]
    rw [findAllLoop_succ, findAllLoop_succ]
    simp only [List.length_cons]
    rw [findFirst_newline, findFirst_newline]
  rw [h1]
  exact findAllLoop_entryBody es _ hgood (by omega)

theorem findAll_blank_section : FindAllStringSubmatch transcriptEntryRegex [10] = [] := by
  unfold FindAllStringSubmatch
  simp only [List.length_cons, List.length_nil]
  rw [findAllLoop_succ]
  simp only [List.length_cons, List.length_nil]
  rw [findFirst_newline, findFirst_succ, matchHere_nil]

/-- The extractor on a rendering: for a document that does not mention the
transcript heading and entries whose shown labels and texts are readable, it
returns an entry for each shown entry, with the text trimmed again and the
source of the label. -/
theorem extract_format (go : GoLib) (doc : Document) (es : List TranscriptEntry)
    (hfree : headingFree doc = true) (hread : ∀ e ∈ shownEntries es, readable e) :
    sliceOf (ExtractTranscriptFromMarkdown go (FormatDocumentMarkdown go doc es)) =
      ((shownEntries es).filter (fun e => decide (TrimSpace e.2 ≠ []))).map
        (fun e => { Text := TrimSpace e.2, Source := SpeakerToSource go e.1 }) := by
  have hlit : lit "## Transcript" = transcriptHeading := rfl
  by_cases hes : es = []
  · subst hes
    unfold ExtractTranscriptFromMarkdown
    rw [hlit, contains_heading_format_nil go doc hfree]
    simp [sliceOf, shownEntries]
  · unfold ExtractTranscriptFromMarkdown
    rw [hlit, contains_heading_format go doc es hes, afterFirst_format go doc es hfree hes]
    simp only [Bool.not_true, Bool.false_eq_true, if_false]
    cases hS : shownEntries es with
    | nil =>
      rw [(transcriptLines_eq_nil_iff es).2 hS]
      simp [joinLines, findAll_blank_section, sliceOf]
    | cons s ss =>
      have hTL : joinLines ([] :: transcriptLines es) = 10 :: entryBody (shownEntries es) := by
        cases ht : transcriptLines es with
        | nil =>
          rw [(transcriptLines_eq_nil_iff es).1 ht] at hS
          simp at hS
        | cons x xs =>
          rw [joinLines_cons_cons, ← ht, joinLines_transcriptLines]
          rfl
      rw [hTL]
      have hmap := findAll_section (shownEntries es) hread
      have hext := extractEntries_of_pairs go _ _ hmap
      rw [hext, ← hS]
      split
      · next h0 =>
        have hl := congrArg List.length hmap
        simp only [List.length_map] at hl
        rw [h0, hS] at hl
        simp at hl
      · split
        · next h1 =>
          rw [List.length_eq_zero.1 h1]
          rfl
        · rfl

/-! ### The round trip of the two well-known sources -/

theorem speaker_round_trip (go : GoLib) (source : GoString)
    (h : source = lit "microphone" ∨ source = lit "system") :
    SpeakerToSource go (SourceToSpeaker source) = source ∧
      readable (SourceToSpeaker source, [0]) := by
  rcases h with rfl | rfl
  · refine ⟨by simp [SourceToSpeaker, SpeakerToSource], ?_⟩
    have : SourceToSpeaker (lit "microphone") = lit "Me" := by decide
    rw [this]
    exact ⟨by decide, by decide, by decide, by decide⟩
  · refine ⟨?_, ?_⟩
    · have h1 : SourceToSpeaker (lit "system") = lit "Them" := by decide
      have h2 : lit "Them" ≠ lit "Me" := by decide
      rw [h1]
      simp [SpeakerToSource, h2]
    · have : SourceToSpeaker (lit "system") = lit "Them" := by decide
      rw [this]
      exact ⟨by decide, by decide, by decide, by decide⟩

/-- C1 (as amended): for every document whose title, id and notes do not
contain "## Transcript", and every entry list in which each entry's source is
"microphone" or "system" and each entry's text is non-empty, has no leading or
trailing white space and contains no newline, extracting from the rendering
returns a list of the same length whose i-th element has the text and the
source of the i-th entry. -/
theorem C1_round_trip_of_trimmed_single_line_entries (go : GoLib) (doc : Document)
    (entries : List TranscriptEntry) (hfree : headingFree doc = true)
    (h : ∀ e ∈ entries, (e.Source = lit "microphone" ∨ e.Source = lit "system") ∧
      e.Text ≠ [] ∧ TrimSpace e.Text = e.Text ∧ 10 ∉ e.Text) :
    (sliceOf (ExtractTranscriptFromMarkdown go (FormatDocumentMarkdown go doc entries))).map
        (fun e => (e.Text, e.Source)) =
      entries.map (fun e => (e.Text, e.Source)) := by
  have hshown : shownEntries entries = entries.map (fun e => (SourceToSpeaker e.Source, e.Text)) := by
    clear hfree
    induction entries with
    | nil => rfl
    | cons e es ih =>
      obtain ⟨_, h2, h3, _⟩ := h e (List.mem_cons_self _ _)
      rw [shownEntries_cons_shown e es (by rw [h3]; exact h2), h3,
        ih (fun x hx => h x (List.mem_cons_of_mem _ hx))]
      rfl
  have hread : ∀ e ∈ shownEntries entries, readable e := by
    rw [hshown]
    intro e he
    obtain ⟨x, hx, rfl⟩ := List.mem_map.1 he
    obtain ⟨h1, h2, _, h4⟩ := h x hx
    obtain ⟨_, r1, r2, _, _⟩ := speaker_round_trip go x.Source h1
    exact ⟨r1, r2, h2, h4⟩
  rw [extract_format go doc entries hfree hread, hshown]
  clear hshown hread hfree
  induction entries with
  | nil => rfl
  | cons e es ih =>
    obtain ⟨h1, h2, h3, _⟩ := h e (List.mem_cons_self _ _)
    have hne : TrimSpace e.Text ≠ [] := by rw [h3]; exact h2
    simp only [List.map_cons, List.filter_cons, hne, ne_eq, not_false_eq_true, decide_True,
      if_true]
    rw [h3, (speaker_round_trip go e.Source h1).1]
    congr 1
    exact ih (fun x hx => h x (List.mem_cons_of_mem _ hx))

set_option maxRecDepth 100000 in
/-- C1, witness: the two entries of the round trip test of the repository. -/
theorem C1_round_trip_of_trimmed_single_line_entries_witness :
    (sliceOf (ExtractTranscriptFromMarkdown exampleLib (FormatDocumentMarkdown exampleLib exampleDoc
        [{ Text := lit "Hello from me", Source := lit "microphone" },
         { Text := lit "Hello from them", Source := lit "system" }]))).map
        (fun e => (e.Text, e.Source)) =
      [(lit "Hello from me", lit "microphone"), (lit "Hello from them", lit "system")] :=
  C1_round_trip_of_trimmed_single_line_entries exampleLib exampleDoc
    [{ Text := lit "Hello from me", Source := lit "microphone" },
     { Text := lit "Hello from them", Source := lit "system" }] (by decide) (by decide)

set_option maxRecDepth 100000 in
/-- C1, the claim as stated fails: the entry with source "microphone" and the
text " a" is non-empty and holds no blank line, yet the text extracted from
its rendering is "a". -/
theorem C1_counterexample_leading_space_is_lost :
    (∀ e ∈ [({ Text := lit " a", Source := lit "microphone" } : TranscriptEntry)],
      (e.Source = lit "microphone" ∨ e.Source = lit "system") ∧ e.Text ≠ [] ∧
        Contains e.Text (lit "\n\n") = false) ∧
    (sliceOf (ExtractTranscriptFromMarkdown exampleLib (FormatDocumentMarkdown exampleLib exampleDoc
        [{ Text := lit " a", Source := lit "microphone" }]))).map (fun e => e.Text) = [lit "a"] ∧
    [lit "a"] ≠ [lit " a"] := by
  decide

/-! ### `strings.TrimSpace` -/

theorem isSpace_ne_runeError (r : Nat) (h : isSpace r = true) : r ≠ RuneError := by
  intro e
  rw [e] at h
  revert h
  decide

/-- A rune that was decoded without error is decoded from its own bytes: more
text after them does not change it. -/
theorem decodeRune_append (p q : GoString) (h : (decodeRune p).1 ≠ RuneError) :
    decodeRune (p ++ q) = decodeRune p := by
  cases p with
  | nil => simp [decodeRune] at h
  | cons b0 rest =>
    revert h
    rw [List.cons_append]
    unfold decodeRune
    by_cases h1 : b0 < 0x80
    · simp [h1]
    · by_cases h2 : b0 < 0xC2
      · simp [h1, h2]
      · by_cases h3 : b0 < 0xE0
        · cases rest with
          | nil => simp [h1, h2, h3]
          | cons b1 r1 => simp [h1, h2, h3]
        · by_cases h4 : b0 < 0xF0
          · rcases rest with _ | ⟨b1, _ | ⟨b2, r2⟩⟩
            · simp [h1, h2, h3, h4]
            · simp [h1, h2, h3, h4]
            · simp [h1, h2, h3, h4]
          · by_cases h5 : b0 < 0xF5
            · rcases rest with _ | ⟨b1, _ | ⟨b2, _ | ⟨b3, r3⟩⟩⟩
              · simp [h1, h2, h3, h4, h5]
              · simp [h1, h2, h3, h4, h5]
              · simp [h1, h2, h3, h4, h5]
              · simp [h1, h2, h3, h4, h5]
            · simp [h1, h2, h3, h4, h5]

theorem startsSpace_of_take (s : GoString) (k : Nat) (h : startsSpace (s.take k) = true) :
    startsSpace s = true := by
  unfold startsSpace at h ⊢
  have hs : isSpace (decodeRune (s.take k)).1 = true := by
    simp only [Bool.and_eq_true] at h
    exact h.2
  have := decodeRune_append (s.take k) (s.drop k) (isSpace_ne_runeError _ hs)
  rw [List.take_append_drop] at this
  rw [this]
  exact h

theorem trimLeftLoop_of_not_startsSpace (fuel : Nat) (s : GoString) (h : startsSpace s = false) :
    trimLeftLoop fuel s = s := by
  cases fuel with
  | zero => rfl
  | succ f => simp [trimLeftLoop, h]

theorem trimRightLoop_of_not_endsSpace (fuel : Nat) (s : GoString) (h : endsSpace s = false) :
    trimRightLoop fuel s = s := by
  cases fuel with
  | zero => rfl
  | succ f => simp [trimRightLoop, h]

theorem trimLeftLoop_spec (fuel : Nat) (s : GoString) (hf : s.length ≤ fuel) :
    startsSpace (trimLeftLoop fuel s) = false ∧ ∃ k, trimLeftLoop fuel s = s.drop k := by
  induction fuel generalizing s with
  | zero =>
    have : s = [] := List.length_eq_zero.1 (Nat.le_zero.1 hf)
    subst this
    exact ⟨by decide, 0, rfl⟩
  | succ f ih =>
    by_cases h : startsSpace s = true
    · have hw : (decodeRune s).2 ≠ 0 := by
        unfold startsSpace at h
        simp only [Bool.and_eq_true, decide_eq_true_eq] at h
        exact h.1
      have hlen : (s.drop (decodeRune s).2).length ≤ f := by
        rw [List.length_drop]
        omega
      obtain ⟨h1, k, h2⟩ := ih _ hlen
      simp only [trimLeftLoop, h, if_true]
      exact ⟨h1, (decodeRune s).2 + k, by rw [h2, List.drop_drop]⟩
    · have h' : startsSpace s = false := by simpa using h
      rw [trimLeftLoop_of_not_startsSpace _ _ h']
      exact ⟨h', 0, rfl⟩

theorem decodeLastRune_nil : decodeLastRune [] = (RuneError, 0) := rfl

theorem trimRightLoop_spec (fuel : Nat) (s : GoString) (hf : s.length ≤ fuel) :
    endsSpace (trimRightLoop fuel s) = false ∧ ∃ k, trimRightLoop fuel s = s.take k := by
  induction fuel generalizing s with
  | zero =>
    have : s = [] := List.length_eq_zero.1 (Nat.le_zero.1 hf)
    subst this
    exact ⟨by decide, 0, rfl⟩
  | succ f ih =>
    by_cases h : endsSpace s = true
    · have hw : (decodeLastRune s).2 ≠ 0 := by
        unfold endsSpace at h
        simp only [Bool.and_eq_true, decide_eq_true_eq] at h
        exact h.1
      have hne : s ≠ [] := by
        intro e
        rw [e, decodeLastRune_nil] at hw
        exact hw rfl
      have hpos : 0 < s.length := List.length_pos.2 hne
      have hlen : (s.take (s.length - (decodeLastRune s).2)).length ≤ f := by
        rw [List.length_take]
        omega
      obtain ⟨h1, k, h2⟩ := ih _ hlen
      simp only [trimRightLoop, h, if_true]
      exact ⟨h1, min k (s.length - (decodeLastRune s).2), by rw [h2, List.take_take]⟩
    · have h' : endsSpace s = false := by simpa using h
      rw [trimRightLoop_of_not_endsSpace _ _ h']
      exact ⟨h', s.length, by simp⟩

/-- Trimming removes bytes from the two ends only. -/
theorem trimSpace_eq_take_drop (s : GoString) : ∃ j k, TrimSpace s = (s.drop j).take k := by
  obtain ⟨_, j, hj⟩ := trimLeftLoop_spec s.length s (Nat.le_refl _)
  obtain ⟨_, k, hk⟩ := trimRightLoop_spec (trimLeftLoop s.length s).length
    (trimLeftLoop s.length s) (Nat.le_refl _)
  exact ⟨j, k, by unfold TrimSpace; simp only; rw [hk, hj]⟩

theorem mem_of_mem_trimSpace (s : GoString) (b : Nat) (h : b ∈ TrimSpace s) : b ∈ s := by
  obtain ⟨j, k, e⟩ := trimSpace_eq_take_drop s
  rw [e] at h
  exact List.mem_of_mem_drop (List.mem_of_mem_take h)

/-- Trimming a trimmed text changes nothing. -/
theorem trimSpace_idem (s : GoString) : TrimSpace (TrimSpace s) = TrimSpace s := by
  obtain ⟨hl, _⟩ := trimLeftLoop_spec s.length s (Nat.le_refl _)
  obtain ⟨hr, k, hk⟩ := trimRightLoop_spec (trimLeftLoop s.length s).length
    (trimLeftLoop s.length s) (Nat.le_refl _)
  have hT : TrimSpace s = trimRightLoop (trimLeftLoop s.length s).length (trimLeftLoop s.length s) :=
    rfl
  have hs : startsSpace (TrimSpace s) = false := by
    cases hst : startsSpace (TrimSpace s) with
    | false => rfl
    | true =>
      rw [hT, hk] at hst
      rw [startsSpace_of_take _ _ hst] at hl
      exact absurd hl (by simp)
  have he : endsSpace (TrimSpace s) = false := by rw [hT]; exact hr
  show trimRightLoop _ (trimLeftLoop (TrimSpace s).length (TrimSpace s)) = TrimSpace s
  rw [trimLeftLoop_of_not_startsSpace _ _ hs, trimRightLoop_of_not_endsSpace _ _ he]

/-! ### Rendering what was extracted -/

theorem transcriptLines_of_shown (es : List TranscriptEntry) :
    transcriptLines es =
      (shownEntries es).flatMap
        (fun e => [42 :: 42 :: (e.1 ++ 58 :: 42 :: 42 :: 32 :: e.2), []]) := by
  induction es with
  | nil => rfl
  | cons e es ih =>
    by_cases h : TrimSpace e.Text = []
    · rw [transcriptLines_cons_blank e es h, shownEntries_cons_blank e es h, ih]
    · rw [transcriptLines_cons_shown e es h, shownEntries_cons_shown e es h, ih]
      simp

/-- The rendering depends on the entries only through the entries it shows and
through whether there is any entry at all. -/
theorem format_of_shown (go : GoLib) (doc : Document) (A B : List TranscriptEntry)
    (h : shownEntries A = shownEntries B) (hE : A = [] ↔ B = []) :
    FormatDocumentMarkdown go doc A = FormatDocumentMarkdown go doc B := by
  have hlen : (A.length > 0) ↔ (B.length > 0) := by
    simp only [gt_iff_lt, List.length_pos]
    exact not_congr hE
  unfold FormatDocumentMarkdown documentLines
  rw [transcriptLines_of_shown A, transcriptLines_of_shown B, h]
  by_cases hB : B.length > 0
  · rw [if_pos hB, if_pos (hlen.2 hB)]
  · rw [if_neg hB, if_neg (fun hA => hB (hlen.1 hA))]

theorem shownEntries_text (es : List TranscriptEntry) :
    ∀ e ∈ shownEntries es, TrimSpace e.2 = e.2 ∧ e.2 ≠ [] := by
  intro e he
  unfold shownEntries at he
  obtain ⟨x, hx, rfl⟩ := List.mem_map.1 he
  have := (List.mem_filter.1 hx).2
  simp only [decide_eq_true_eq] at this
  exact ⟨trimSpace_idem _, this⟩

theorem shownEntries_of_map (f : GoString × GoString → GoString) (S : List (GoString × GoString))
    (hS : ∀ e ∈ S, TrimSpace e.2 = e.2 ∧ e.2 ≠ []) :
    shownEntries (S.map (fun e => ({ Text := e.2, Source := f e } : TranscriptEntry))) =
      S.map (fun e => (SourceToSpeaker (f e), e.2)) := by
  induction S with
  | nil => rfl
  | cons e S ih =>
    obtain ⟨h1, h2⟩ := hS e (List.mem_cons_self _ _)
    rw [List.map_cons, shownEntries_cons_shown _ _ (by simpa [h1] using h2),
      ih (fun x hx => hS x (List.mem_cons_of_mem _ hx))]
    simp [h1]

/-- Extracting from a rendering, for a document that does not mention the
transcript heading and readable shown entries: the entries found show the same
texts, under the labels that the two speaker mappings make of the labels. -/
theorem shownEntries_extract_format (go : GoLib) (doc : Document) (es : List TranscriptEntry)
    (hfree : headingFree doc = true) (hread : ∀ e ∈ shownEntries es, readable e) :
    shownEntries (sliceOf (ExtractTranscriptFromMarkdown go (FormatDocumentMarkdown go doc es))) =
      (shownEntries es).map (fun e => (SourceToSpeaker (SpeakerToSource go e.1), e.2)) ∧
    (sliceOf (ExtractTranscriptFromMarkdown go (FormatDocumentMarkdown go doc es)) = [] ↔
      shownEntries es = []) := by
  have htext := shownEntries_text es
  have hfilter : (shownEntries es).filter (fun e => decide (TrimSpace e.2 ≠ [])) = shownEntries es := by
    apply List.filter_eq_self.2
    intro e he
    obtain ⟨h1, h2⟩ := htext e he
    simpa [h1] using h2
  have hmap : (shownEntries es).map
      (fun e => ({ Text := TrimSpace e.2, Source := SpeakerToSource go e.1 } : TranscriptEntry)) =
      (shownEntries es).map
        (fun e => ({ Text := e.2, Source := SpeakerToSource go e.1 } : TranscriptEntry)) := by
    apply List.map_congr_left
    intro e he
    rw [(htext e he).1]
  rw [extract_format go doc es hfree hread, hfilter, hmap]
  exact ⟨shownEntries_of_map (fun e => SpeakerToSource go e.1) _ htext, by simp⟩

/-! ### The speaker labels the extractor can read -/

theorem isWordByte_lt (b : Nat) (h : isWordByte b = true) : b < 0x80 := by
  simp only [isWordByte, Bool.or_eq_true, Bool.and_eq_true, decide_eq_true_eq] at h
  omega

theorem isLowerWordByte_asciiLower (b : Nat) (h : isWordByte b = true) :
    isLowerWordByte (asciiLower b) = true := by
  simp only [isWordByte, Bool.or_eq_true, Bool.and_eq_true, decide_eq_true_eq] at h
  simp only [isLowerWordByte, asciiLower, Bool.or_eq_true, Bool.and_eq_true, decide_eq_true_eq]
  split <;> omega

theorem isWordByte_of_lower (b : Nat) (h : isLowerWordByte b = true) : isWordByte b = true := by
  simp only [isLowerWordByte, Bool.or_eq_true, Bool.and_eq_true, decide_eq_true_eq] at h
  simp only [isWordByte, Bool.or_eq_true, Bool.and_eq_true, decide_eq_true_eq]
  omega

theorem asciiLower_of_lower (b : Nat) (h : isLowerWordByte b = true) : asciiLower b = b := by
  simp only [isLowerWordByte, Bool.or_eq_true, Bool.and_eq_true, decide_eq_true_eq] at h
  simp only [asciiLower]
  split <;> omega

theorem toUpperByte_of_lower (b : Nat) (h : isLowerWordByte b = true) :
    ∃ u, toUpperByte b = [u] ∧ isWordByte u = true ∧ asciiLower u = b := by
  simp only [isLowerWordByte, Bool.or_eq_true, Bool.and_eq_true, decide_eq_true_eq] at h
  have hlt : b < 0x80 := by omega
  refine ⟨if 0x61 ≤ b ∧ b ≤ 0x7A then b - 0x20 else b, by simp [toUpperByte, hlt], ?_, ?_⟩
  · simp only [isWordByte, Bool.or_eq_true, Bool.and_eq_true, decide_eq_true_eq]
    split <;> omega
  · simp only [asciiLower]
    split <;> split <;> omega

theorem toLower_word (go : GoLib) (L : GoString) (hw : ∀ b ∈ L, isWordByte b = true) :
    ToLower go L = L.map asciiLower := by
  have hall : L.all (fun b => decide (b < 0x80)) = true := by
    rw [List.all_eq_true]
    intro b hb
    simpa using isWordByte_lt b (hw b hb)
  simp [ToLower, hall]

theorem map_asciiLower_of_lower (l : GoString) (h : ∀ b ∈ l, isLowerWordByte b = true) :
    l.map asciiLower = l := by
  induction l with
  | nil => rfl
  | cons b l ih =>
    rw [List.map_cons, asciiLower_of_lower b (h b (List.mem_cons_self _ _)),
      ih (fun x hx => h x (List.mem_cons_of_mem _ hx))]

/-- The source that `SpeakerToSource` gives for a word is a word without
upper-case letters. -/
theorem speakerToSource_word (go : GoLib) (L : GoString) (hL : L ≠ [])
    (hw : ∀ b ∈ L, isWordByte b = true) :
    SpeakerToSource go L ≠ [] ∧ ∀ b ∈ SpeakerToSource go L, isLowerWordByte b = true := by
  unfold SpeakerToSource
  split
  · exact ⟨by decide, by decide⟩
  · split
    · exact ⟨by decide, by decide⟩
    · rw [toLower_word go L hw]
      refine ⟨by simpa using hL, ?_⟩
      intro b hb
      obtain ⟨x, hx, rfl⟩ := List.mem_map.1 hb
      exact isLowerWordByte_asciiLower x (hw x hx)

/-- The label of a source that is a word without upper-case letters is a word
that the two speaker mappings reproduce. -/
theorem sourceToSpeaker_lower (go : GoLib) (l : GoString) (hl : l ≠ [])
    (hw : ∀ b ∈ l, isLowerWordByte b = true) :
    SourceToSpeaker l ≠ [] ∧ (∀ b ∈ SourceToSpeaker l, isWordByte b = true) ∧
      SourceToSpeaker (SpeakerToSource go (SourceToSpeaker l)) = SourceToSpeaker l := by
  have hMe : SourceToSpeaker (SpeakerToSource go (lit "Me")) = lit "Me" := by
    have : SpeakerToSource go (lit "Me") = lit "microphone" := by simp [SpeakerToSource]
    rw [this]
    decide
  have hThem : SourceToSpeaker (SpeakerToSource go (lit "Them")) = lit "Them" := by
    have h2 : lit "Them" ≠ lit "Me" := by decide
    have : SpeakerToSource go (lit "Them") = lit "system" := by simp [SpeakerToSource, h2]
    rw [this]
    decide
  by_cases h1 : l = lit "microphone"
  · have e : SourceToSpeaker l = lit "Me" := by rw [h1]; decide
    rw [e]
    exact ⟨by decide, by decide, hMe⟩
  · by_cases h2 : l = lit "system"
    · have e : SourceToSpeaker l = lit "Them" := by rw [h2]; decide
      rw [e]
      exact ⟨by decide, by decide, hThem⟩
    · cases l with
      | nil => exact absurd rfl hl
      | cons b rest =>
        obtain ⟨u, hu, huw, hul⟩ := toUpperByte_of_lower b (hw b (List.mem_cons_self _ _))
        have e : SourceToSpeaker (b :: rest) = u :: rest := by
          simp [SourceToSpeaker, h1, h2, hu]
        have hword : ∀ x ∈ u :: rest, isWordByte x = true := by
          intro x hx
          rcases List.mem_cons.1 hx with rfl | hx
          · exact huw
          · exact isWordByte_of_lower x (hw x (List.mem_cons_of_mem _ hx))
        rw [e]
        refine ⟨by simp, hword, ?_⟩
        by_cases g1 : u :: rest = lit "Me"
        · rw [g1]
          exact hMe
        · by_cases g2 : u :: rest = lit "Them"
          · rw [g2]
            exact hThem
          · have hs : SpeakerToSource go (u :: rest) = b :: rest := by
              unfold SpeakerToSource
              rw [if_neg g1, if_neg g2, toLower_word go _ hword, List.map_cons, hul,
                map_asciiLower_of_lower rest (fun x hx => hw x (List.mem_cons_of_mem _ hx))]
            rw [hs, e]

/-- The label that the two speaker mappings make of a word is a word that they
reproduce. -/
theorem label_stable (go : GoLib) (L : GoString) (hL : L ≠ [])
    (hw : ∀ b ∈ L, isWordByte b = true) :
    SourceToSpeaker (SpeakerToSource go L) ≠ [] ∧
    (∀ b ∈ SourceToSpeaker (SpeakerToSource go L), isWordByte b = true) ∧
    SourceToSpeaker (SpeakerToSource go (SourceToSpeaker (SpeakerToSource go L))) =
      SourceToSpeaker (SpeakerToSource go L) := by
  obtain ⟨h1, h2⟩ := speakerToSource_word go L hL hw
  exact sourceToSpeaker_lower go _ h1 h2

/-! ### What the extractor returns on any text -/

/-- On any text the extractor returns entries made of readable labels and
texts: the text of an entry is a trimmed text without newline, its source the
source of a word. -/
theorem extract_sound (go : GoLib) (F : GoString) :
    ∃ S : List (GoString × GoString),
      (∀ e ∈ S, readable e ∧ TrimSpace e.2 = e.2) ∧
      sliceOf (ExtractTranscriptFromMarkdown go F) =
        S.map (fun e => ({ Text := e.2, Source := SpeakerToSource go e.1 } : TranscriptEntry)) := by
  have hnone : ∃ S : List (GoString × GoString),
      (∀ e ∈ S, readable e ∧ TrimSpace e.2 = e.2) ∧
      ([] : List TranscriptEntry) =
        S.map (fun e => ({ Text := e.2, Source := SpeakerToSource go e.1 } : TranscriptEntry)) :=
    ⟨[], by simp, rfl⟩
  have hsome : ∀ ms : List (List GoString),
      (∃ es : List (GoString × GoString), (∀ e ∈ es, readable e) ∧
        ms.map (List.drop 1) = es.map (fun e => [e.1, e.2])) →
      ∃ S : List (GoString × GoString),
        (∀ e ∈ S, readable e ∧ TrimSpace e.2 = e.2) ∧
        extractEntries go ms =
          S.map (fun e => ({ Text := e.2, Source := SpeakerToSource go e.1 } : TranscriptEntry)) := by
    rintro ms ⟨es, hes, hmap⟩
    refine ⟨(es.filter (fun e => decide (TrimSpace e.2 ≠ []))).map (fun e => (e.1, TrimSpace e.2)),
      ?_, ?_⟩
    · intro e he
      obtain ⟨x, hx, rfl⟩ := List.mem_map.1 he
      obtain ⟨hx1, hx2⟩ := List.mem_filter.1 hx
      simp only [decide_eq_true_eq] at hx2
      obtain ⟨r1, r2, _, r4⟩ := hes x hx1
      exact ⟨⟨r1, r2, hx2, fun hm => r4 (mem_of_mem_trimSpace _ _ hm)⟩, trimSpace_idem _⟩
    · rw [extractEntries_of_pairs go ms es hmap, List.map_map]
      rfl
  unfold ExtractTranscriptFromMarkdown
  split
  · exact hnone
  · split
    · exact hnone
    · next sec _ =>
      have hs := hsome (FindAllStringSubmatch transcriptEntryRegex sec)
        (findAllLoop_sound _ sec)
      split
      · exact hnone
      · split
        · exact hnone
        · exact hs

/-- Rendering, extracting and rendering again gives the first rendering, when
the entries came out of the extractor and the document does not mention the
transcript heading. -/
theorem format_extract_fixed (go : GoLib) (doc : Document) (F : GoString)
    (hfree : headingFree doc = true) :
    FormatDocumentMarkdown go doc (sliceOf (ExtractTranscriptFromMarkdown go
        (FormatDocumentMarkdown go doc (sliceOf (ExtractTranscriptFromMarkdown go F))))) =
      FormatDocumentMarkdown go doc (sliceOf (ExtractTranscriptFromMarkdown go F)) := by
  obtain ⟨S, hS, hE⟩ := extract_sound go F
  have hshown : shownEntries (sliceOf (ExtractTranscriptFromMarkdown go F)) =
      S.map (fun e => (SourceToSpeaker (SpeakerToSource go e.1), e.2)) := by
    rw [hE]
    exact shownEntries_of_map (fun e => SpeakerToSource go e.1) S
      (fun e he => ⟨(hS e he).2, (hS e he).1.2.2.1⟩)
  have hread : ∀ e ∈ shownEntries (sliceOf (ExtractTranscriptFromMarkdown go F)), readable e := by
    rw [hshown]
    intro e he
    obtain ⟨x, hx, rfl⟩ := List.mem_map.1 he
    obtain ⟨⟨r1, r2, r3, r4⟩, _⟩ := hS x hx
    obtain ⟨l1, l2, _⟩ := label_stable go x.1 r1 r2
    exact ⟨l1, l2, r3, r4⟩
  obtain ⟨h1, h2⟩ := shownEntries_extract_format go doc _ hfree hread
  apply format_of_shown
  · rw [h1, hshown, List.map_map]
    apply List.map_congr_left
    intro x hx
    obtain ⟨⟨r1, r2, _, _⟩, _⟩ := hS x hx
    simp only [Function.comp]
    rw [(label_stable go x.1 r1 r2).2.2]
  · rw [h2, hshown, hE]
    simp

/-! ### Preservation of the transcript of an earlier export -/

theorem shownEntries_nonBlank (es : List TranscriptEntry) :
    shownEntries (nonBlank es) = shownEntries es := by
  unfold shownEntries nonBlank
  rw [List.filter_filter]
  simp

theorem nonBlank_eq_nil_iff (es : List TranscriptEntry) :
    nonBlank es = [] ↔ shownEntries es = [] := by
  unfold shownEntries nonBlank
  simp

theorem transcriptLines_nonBlank (es : List TranscriptEntry) :
    transcriptLines (nonBlank es) = transcriptLines es := by
  rw [transcriptLines_of_shown, transcriptLines_of_shown, shownEntries_nonBlank]

theorem lookup_writeFile_existing (os : Os) (dir : Dir) (path old data : GoString) (r : Bool)
    (h : dir.lookup path = some (Node.file old r true)) :
    ∃ dir1, WriteFile os dir path data = some dir1 ∧
      dir1.lookup path = some (Node.file data r true) := by
  refine ⟨_, by simp [WriteFile, h]; rfl, ?_⟩
  exact lookup_map_set dir path _ _ h

/-- One candidate whose output path holds a readable and writable file that
the exporter wrote earlier, the rendering of a document that does not mention
"## Transcript" with a non-empty entry list whose speaker labels (of the
entries with non-blank text) are single words the speaker mappings reproduce,
as "Me" and "Them" are, and whose trimmed texts contain no newline.  When the
cache now has non-blank notes and no transcript entry for the document,
`exportDocument` leaves at the same path the rendering of the current document
with the prior entries of non-blank text: it holds the current notes, and its
entry lines are exactly those of the prior file, in the same order. -/
theorem exportDocument_preserves_prior (go : GoLib) (os : Os) (doc0 doc : Document)
    (es0 : List TranscriptEntry) (T : GoMap (List TranscriptEntry)) (result : ExportResult)
    (dir : Dir)
    (hfree0 : headingFree doc0 = true) (hes0 : es0 ≠ [])
    (hread : ∀ e ∈ shownEntries es0,
      readable e ∧ SourceToSpeaker (SpeakerToSource go e.1) = e.1)
    (hnotes : TrimSpace (GetNotes doc) ≠ [])
    (hT : transcriptOf T doc.ID = [])
    (hfile : dir.lookup (outputPath go doc) =
      some (Node.file (FormatDocumentMarkdown go doc0 es0) true true)) :
    (exportDocument go os doc T result dir).2.1.lookup (outputPath go doc) =
      some (Node.file (FormatDocumentMarkdown go doc (nonBlank es0)) true true) ∧
    GetNotes doc ∈ documentLines go doc (nonBlank es0) ∧
    transcriptLines (nonBlank es0) = transcriptLines es0 := by
  have hlit : lit "## Transcript" = transcriptHeading := rfl
  have hrd : ReadFile dir (outputPath go doc) = some (FormatDocumentMarkdown go doc0 es0) := by
    simp [ReadFile, hfile]
  obtain ⟨h1, h2⟩ := shownEntries_extract_format go doc0 es0 hfree0 (fun e he => (hread e he).1)
  have h1' : shownEntries (sliceOf (ExtractTranscriptFromMarkdown go
      (FormatDocumentMarkdown go doc0 es0))) = shownEntries es0 := by
    rw [h1]
    conv_rhs => rw [← List.map_id (shownEntries es0)]
    apply List.map_congr_left
    intro e he
    rw [(hread e he).2]
    rfl
  have hsel : selectedTranscript go doc T dir =
      sliceOf (ExtractTranscriptFromMarkdown go (FormatDocumentMarkdown go doc0 es0)) := by
    unfold selectedTranscript
    rw [hrd, hlit]
    simp [hfile, hT, contains_heading_format go doc0 es0 hes0]
  have hcontent : FormatDocumentMarkdown go doc (selectedTranscript go doc T dir) =
      FormatDocumentMarkdown go doc (nonBlank es0) := by
    rw [hsel]
    apply format_of_shown
    · rw [h1', shownEntries_nonBlank]
    · rw [h2, nonBlank_eq_nil_iff]
  have hnot : ¬ ((GetNotes doc = [] ∨ TrimSpace (GetNotes doc) = []) ∧
      (transcriptOf T doc.ID).length = 0) := by
    rintro ⟨h | h, _⟩
    · rw [h] at hnotes
      exact hnotes trimSpace_nil
    · exact hnotes h
  refine ⟨?_, ?_, transcriptLines_nonBlank es0⟩
  · unfold exportDocument
    rw [if_neg hnot, hcontent, hrd]
    by_cases heq : some (FormatDocumentMarkdown go doc0 es0) =
        some (FormatDocumentMarkdown go doc (nonBlank es0))
    · rw [if_pos heq]
      simp only [Option.some.injEq] at heq
      rw [← heq]
      exact hfile
    · rw [if_neg heq]
      obtain ⟨dir1, hw, hl⟩ := lookup_writeFile_existing os dir (outputPath go doc) _
        (FormatDocumentMarkdown go doc (nonBlank es0)) true hfile
      rw [hw]
      exact hl
  · have hn : hasNotes doc = true := (hasNotes_iff doc).2 hnotes
    unfold documentLines
    simp [hn]

set_option maxRecDepth 100000 in
/-- C3, the claim as stated fails: the exporter wrote a file with the
transcript entry "**John doe:** hello" (source "john doe"); re-exporting the
document with notes and no transcript in the cache leaves a file with the
notes and without the entry. -/
theorem C3_counterexample_two_word_speaker_is_lost :
    Contains (FormatDocumentMarkdown exampleLib examplePriorDoc exampleTwoWordEntries)
      (lit "## Transcript\n\n**John doe:** hello\n") = true ∧
    Export exampleLib exampleOs ⟨[(lit "d", exampleDoc)], []⟩
        [(lit "unknown-date_T.md",
          Node.file (FormatDocumentMarkdown exampleLib examplePriorDoc exampleTwoWordEntries)
            true true)] =
      some (⟨1, 0, 0, []⟩,
        [(lit "unknown-date_T.md", Node.file (lit
          "# T\nDate: Unknown date\nMeeting ID: d\n\n---\n\n## AI-Generated Notes\n\nSome notes here\n")
          true true)]) := by
  decide

/-! ### One document, by its outcome -/

theorem isEmptyCandidate_iff (doc : Document) (T : GoMap (List TranscriptEntry)) :
    isEmptyCandidate doc T = true ↔
      ((GetNotes doc = [] ∨ TrimSpace (GetNotes doc) = []) ∧ (transcriptOf T doc.ID).length = 0) := by
  simp [isEmptyCandidate]

theorem exportDocument_of_empty (go : GoLib) (os : Os) (doc : Document)
    (T : GoMap (List TranscriptEntry)) (result : ExportResult) (dir : Dir)
    (h : classify go os doc T dir = Outcome.empty) :
    exportDocument go os doc T result dir =
      (⟨result.Written, result.Skipped, result.Empty + 1, result.Errors⟩, dir, none) := by
  unfold classify at h
  by_cases he : isEmptyCandidate doc T = true
  · exact exportDocument_empty go os doc T result dir he
  · rw [if_neg he] at h
    split at h
    · simp at h
    · split at h <;> simp at h

theorem exportDocument_of_skipped (go : GoLib) (os : Os) (doc : Document)
    (T : GoMap (List TranscriptEntry)) (result : ExportResult) (dir : Dir)
    (h : classify go os doc T dir = Outcome.skipped) :
    exportDocument go os doc T result dir =
      (⟨result.Written, result.Skipped + 1, result.Empty, result.Errors⟩, dir, none) := by
  unfold classify at h
  by_cases he : isEmptyCandidate doc T = true
  · rw [if_pos he] at h
    simp at h
  · rw [if_neg he] at h
    have hne := fun hp => he ((isEmptyCandidate_iff doc T).2 hp)
    split at h
    · next hr => exact (by unfold exportDocument; rw [if_neg hne, if_pos hr])
    · split at h <;> simp at h

theorem exportDocument_of_failed (go : GoLib) (os : Os) (doc : Document)
    (T : GoMap (List TranscriptEntry)) (result : ExportResult) (dir : Dir)
    (h : classify go os doc T dir = Outcome.failed) :
    exportDocument go os doc T result dir =
      (result, dir, some (lit "failed to write file: " ++ os.writeError (outputPath go doc))) := by
  unfold classify at h
  by_cases he : isEmptyCandidate doc T = true
  · rw [if_pos he] at h
    simp at h
  · rw [if_neg he] at h
    have hne := fun hp => he ((isEmptyCandidate_iff doc T).2 hp)
    split at h
    · simp at h
    · next hr =>
      unfold exportDocument
      rw [if_neg hne, if_neg hr]
      split at h
      · rfl
      · simp at h

theorem exportDocument_of_written (go : GoLib) (os : Os) (doc : Document)
    (T : GoMap (List TranscriptEntry)) (result : ExportResult) (dir : Dir)
    (h : classify go os doc T dir = Outcome.written) :
    ∃ dir1, WriteFile os dir (outputPath go doc)
        (FormatDocumentMarkdown go doc (selectedTranscript go doc T dir)) = some dir1 ∧
      exportDocument go os doc T result dir =
        (⟨result.Written + 1, result.Skipped, result.Empty, result.Errors⟩, dir1, none) := by
  unfold classify at h
  by_cases he : isEmptyCandidate doc T = true
  · rw [if_pos he] at h
    simp at h
  · rw [if_neg he] at h
    have hne := fun hp => he ((isEmptyCandidate_iff doc T).2 hp)
    split at h
    · simp at h
    · next hr =>
      split at h
      · simp at h
      · next dir1 hw =>
        refine ⟨dir1, hw, ?_⟩
        unfold exportDocument
        rw [if_neg hne, if_neg hr, hw]

/-! ### `exportDocument` looks at its own path only -/

theorem readFile_congr (dir dir2 : Dir) (p : GoString) (h : dir.lookup p = dir2.lookup p) :
    ReadFile dir p = ReadFile dir2 p := by
  unfold ReadFile
  rw [h]

theorem selectedTranscript_congr (go : GoLib) (doc : Document) (T : GoMap (List TranscriptEntry))
    (dir dir2 : Dir) (h : dir.lookup (outputPath go doc) = dir2.lookup (outputPath go doc)) :
    selectedTranscript go doc T dir = selectedTranscript go doc T dir2 := by
  unfold selectedTranscript
  rw [h, readFile_congr dir dir2 _ h]

theorem writeFile_isSome_congr (os : Os) (dir dir2 : Dir) (p data : GoString)
    (h : dir.lookup p = dir2.lookup p) :
    (WriteFile os dir p data).isSome = (WriteFile os dir2 p data).isSome := by
  unfold WriteFile
  rw [h]
  split
  · rfl
  · rfl
  · split <;> rfl

theorem classify_congr (go : GoLib) (os : Os) (doc : Document) (T : GoMap (List TranscriptEntry))
    (dir dir2 : Dir) (h : dir.lookup (outputPath go doc) = dir2.lookup (outputPath go doc)) :
    classify go os doc T dir = classify go os doc T dir2 := by
  unfold classify
  rw [selectedTranscript_congr go doc T dir dir2 h, readFile_congr dir dir2 _ h]
  have hw := writeFile_isSome_congr os dir dir2 (outputPath go doc)
    (FormatDocumentMarkdown go doc (selectedTranscript go doc T dir2)) h
  cases h1 : WriteFile os dir (outputPath go doc)
      (FormatDocumentMarkdown go doc (selectedTranscript go doc T dir2)) <;>
    cases h2 : WriteFile os dir2 (outputPath go doc)
      (FormatDocumentMarkdown go doc (selectedTranscript go doc T dir2)) <;>
    simp [h1, h2] at hw ⊢

theorem writeFile_lookup_eq (os : Os) (dir dir1 : Dir) (path data : GoString)
    (h : WriteFile os dir path data = some dir1) :
    dir1.lookup path = some (Node.file data (readableAfterWrite (dir.lookup path)) true) := by
  unfold WriteFile at h
  split at h
  · next c r hl =>
    simp only [Option.some.injEq] at h
    subst h
    rw [hl]
    exact lookup_map_set dir path _ _ hl
  · simp at h
  · next hl =>
    split at h
    · simp only [Option.some.injEq] at h
      subst h
      rw [lookup_append_single, hl]
      simp [readableAfterWrite]
    · simp at h

/-- The node at the path of a document after `exportDocument`. -/
theorem exportDocument_lookup_self (go : GoLib) (os : Os) (doc : Document)
    (T : GoMap (List TranscriptEntry)) (result : ExportResult) (dir : Dir) :
    (exportDocument go os doc T result dir).2.1.lookup (outputPath go doc) =
      if classify go os doc T dir = Outcome.written then
        some (Node.file (FormatDocumentMarkdown go doc (selectedTranscript go doc T dir))
          (readableAfterWrite (dir.lookup (outputPath go doc))) true)
      else dir.lookup (outputPath go doc) := by
  cases hc : classify go os doc T dir with
  | empty => rw [exportDocument_of_empty go os doc T result dir hc]; simp
  | skipped => rw [exportDocument_of_skipped go os doc T result dir hc]; simp
  | failed => rw [exportDocument_of_failed go os doc T result dir hc]; simp
  | written =>
    obtain ⟨dir1, hw, he⟩ := exportDocument_of_written go os doc T result dir hc
    rw [he]
    simpa using writeFile_lookup_eq os dir dir1 _ _ hw

/-- `exportDocument` leaves every other path as it was. -/
theorem exportDocument_lookup_other (go : GoLib) (os : Os) (doc : Document)
    (T : GoMap (List TranscriptEntry)) (result : ExportResult) (dir : Dir) (q : GoString)
    (hq : q ≠ outputPath go doc) :
    (exportDocument go os doc T result dir).2.1.lookup q = dir.lookup q := by
  cases hc : classify go os doc T dir with
  | empty => rw [exportDocument_of_empty go os doc T result dir hc]
  | skipped => rw [exportDocument_of_skipped go os doc T result dir hc]
  | failed => rw [exportDocument_of_failed go os doc T result dir hc]
  | written =>
    obtain ⟨dir1, hw, he⟩ := exportDocument_of_written go os doc T result dir hc
    rw [he]
    exact writeFile_lookup_other os dir dir1 _ _ q hw hq

theorem exportDocument_lookup_congr (go : GoLib) (os : Os) (doc : Document)
    (T : GoMap (List TranscriptEntry)) (r r2 : ExportResult) (dir dir2 : Dir)
    (h : dir.lookup (outputPath go doc) = dir2.lookup (outputPath go doc)) :
    (exportDocument go os doc T r dir).2.1.lookup (outputPath go doc) =
      (exportDocument go os doc T r2 dir2).2.1.lookup (outputPath go doc) := by
  rw [exportDocument_lookup_self, exportDocument_lookup_self, classify_congr go os doc T dir dir2 h,
    selectedTranscript_congr go doc T dir dir2 h, h]

/-! ### A second export of a document -/

theorem selectedTranscript_form (go : GoLib) (doc : Document) (T : GoMap (List TranscriptEntry))
    (dir : Dir) :
    selectedTranscript go doc T dir = transcriptOf T doc.ID ∨
      ∃ F, selectedTranscript go doc T dir = sliceOf (ExtractTranscriptFromMarkdown go F) := by
  unfold selectedTranscript
  split
  · split
    · split
      · exact Or.inr ⟨_, rfl⟩
      · exact Or.inl rfl
    · exact Or.inl rfl
  · exact Or.inl rfl

/-- Rendering again from a file that the exporter rendered without a
transcript in the cache gives the same text. -/
theorem format_reselected (go : GoLib) (doc : Document) (X : List TranscriptEntry)
    (hfree : headingFree doc = true)
    (hX : X = [] ∨ ∃ F, X = sliceOf (ExtractTranscriptFromMarkdown go F)) :
    FormatDocumentMarkdown go doc
        (if Contains (FormatDocumentMarkdown go doc X) (lit "## Transcript") then
          sliceOf (ExtractTranscriptFromMarkdown go (FormatDocumentMarkdown go doc X))
         else []) =
      FormatDocumentMarkdown go doc X := by
  have hlit : lit "## Transcript" = transcriptHeading := rfl
  rw [hlit]
  by_cases hnil : X = []
  · subst hnil
    rw [contains_heading_format_nil go doc hfree]
    simp
  · rw [contains_heading_format go doc X hnil]
    simp only [if_true]
    rcases hX with h | ⟨F, h⟩
    · exact absurd h hnil
    · rw [h]
      exact format_extract_fixed go doc F hfree

theorem selectedTranscript_of_file (go : GoLib) (doc : Document) (T : GoMap (List TranscriptEntry))
    (dir : Dir) (content : GoString) (w : Bool)
    (hl : dir.lookup (outputPath go doc) = some (Node.file content true w))
    (hnil : transcriptOf T doc.ID = []) :
    selectedTranscript go doc T dir =
      if Contains content (lit "## Transcript") then
        sliceOf (ExtractTranscriptFromMarkdown go content)
      else [] := by
  unfold selectedTranscript
  simp [ReadFile, hl, hnil]

/-- After `exportDocument`, on a directory where no writable file is
unreadable, a second `exportDocument` of the same document skips what the first
wrote and ends as the first in every other case. -/
theorem classify_again (go : GoLib) (os : Os) (doc : Document) (T : GoMap (List TranscriptEntry))
    (r : ExportResult) (dir dir2 : Dir) (hfree : headingFree doc = true)
    (hreg : ∀ c, dir.lookup (outputPath go doc) ≠ some (Node.file c false true))
    (h : dir2.lookup (outputPath go doc) =
      (exportDocument go os doc T r dir).2.1.lookup (outputPath go doc)) :
    classify go os doc T dir2 = (classify go os doc T dir).again := by
  rw [exportDocument_lookup_self] at h
  cases hc : classify go os doc T dir with
  | empty =>
    rw [hc] at h
    simp only [if_false, reduceCtorEq] at h
    rw [classify_congr go os doc T dir2 dir h, hc]
    rfl
  | skipped =>
    rw [hc] at h
    simp only [if_false, reduceCtorEq] at h
    rw [classify_congr go os doc T dir2 dir h, hc]
    rfl
  | failed =>
    rw [hc] at h
    simp only [if_false, reduceCtorEq] at h
    rw [classify_congr go os doc T dir2 dir h, hc]
    rfl
  | written =>
    rw [hc] at h
    simp only [if_true] at h
    obtain ⟨dir1, hw, _⟩ := exportDocument_of_written go os doc T r dir hc
    have hne : ¬ isEmptyCandidate doc T = true := by
      intro he
      unfold classify at hc
      rw [if_pos he] at hc
      simp at hc
    have hrd : readableAfterWrite (dir.lookup (outputPath go doc)) = true := by
      cases hl : dir.lookup (outputPath go doc) with
      | none => rfl
      | some n =>
        cases n with
        | other => rfl
        | file c rd wr =>
          cases rd with
          | true => rfl
          | false =>
            cases wr with
            | true => exact absurd hl (hreg c)
            | false =>
              unfold WriteFile at hw
              rw [hl] at hw
              simp at hw
    rw [hrd] at h
    have hread : ReadFile dir2 (outputPath go doc) =
        some (FormatDocumentMarkdown go doc (selectedTranscript go doc T dir)) := by
      simp [ReadFile, h]
    have hsel : FormatDocumentMarkdown go doc (selectedTranscript go doc T dir2) =
        FormatDocumentMarkdown go doc (selectedTranscript go doc T dir) := by
      by_cases hlen : (transcriptOf T doc.ID).length = 0
      · have h2 : selectedTranscript go doc T dir2 =
            if Contains (FormatDocumentMarkdown go doc (selectedTranscript go doc T dir))
                (lit "## Transcript") then
              sliceOf (ExtractTranscriptFromMarkdown go
                (FormatDocumentMarkdown go doc (selectedTranscript go doc T dir)))
            else [] := by
          exact selectedTranscript_of_file go doc T dir2 _ true h (List.length_eq_zero.1 hlen)
        rw [h2]
        apply format_reselected go doc _ hfree
        rcases selectedTranscript_form go doc T dir with h3 | h3
        · exact Or.inl (by rw [h3]; exact List.length_eq_zero.1 hlen)
        · exact Or.inr h3
      · have h2 : ∀ d, selectedTranscript go doc T d = transcriptOf T doc.ID := by
          intro d
          unfold selectedTranscript
          simp [hlen]
        rw [h2 dir2, h2 dir]
    unfold classify
    rw [if_neg hne, hsel, if_pos hread]
    rfl

/-! ### Two exports in succession -/

theorem exportLoop_cons (go : GoLib) (os : Os) (T : GoMap (List TranscriptEntry))
    (doc : Document) (docs : List Document) (result : ExportResult) (dir : Dir) :
    exportLoop go os T (doc :: docs) result dir =
      match exportDocument go os doc T result dir with
      | (result1, dir1, none) => exportLoop go os T docs result1 dir1
      | (result1, dir1, some err) =>
        exportLoop go os T docs
          { result1 with Errors := result1.Errors ++ [⟨doc.ID, doc.Title, err⟩] } dir1 := rfl

/-- The loop after one step, by the outcome of the step. -/
theorem exportLoop_step (go : GoLib) (os : Os) (T : GoMap (List TranscriptEntry))
    (doc : Document) (docs : List Document) (result : ExportResult) (dir : Dir) :
    ∃ r1, exportLoop go os T (doc :: docs) result dir =
        exportLoop go os T docs r1 (exportDocument go os doc T result dir).2.1 ∧
      r1.Written = result.Written +
        (if classify go os doc T dir = Outcome.written then 1 else 0) ∧
      r1.Skipped = result.Skipped +
        (if classify go os doc T dir = Outcome.skipped then 1 else 0) ∧
      r1.Empty = result.Empty +
        (if classify go os doc T dir = Outcome.empty then 1 else 0) ∧
      r1.Errors.length = result.Errors.length +
        (if classify go os doc T dir = Outcome.failed then 1 else 0) := by
  rw [exportLoop_cons]
  cases hc : classify go os doc T dir with
  | empty =>
    rw [exportDocument_of_empty go os doc T result dir hc]
    exact ⟨_, rfl, by simp, by simp, by simp, by simp⟩
  | skipped =>
    rw [exportDocument_of_skipped go os doc T result dir hc]
    exact ⟨_, rfl, by simp, by simp, by simp, by simp⟩
  | failed =>
    rw [exportDocument_of_failed go os doc T result dir hc]
    exact ⟨_, rfl, by simp, by simp, by simp, by simp⟩
  | written =>
    obtain ⟨dir1, _, he⟩ := exportDocument_of_written go os doc T result dir hc
    rw [he]
    exact ⟨_, rfl, by simp, by simp, by simp, by simp⟩

/-- The first export, on documents with pairwise distinct file names: every
path of a document ends as the step of that document alone leaves it, and the
statistics count the outcomes the documents have on the first directory. -/
theorem exportLoop_first (go : GoLib) (os : Os) (T : GoMap (List TranscriptEntry))
    (docs : List Document) (result : ExportResult) (dir : Dir)
    (hnodup : (docs.map (outputPath go)).Nodup) :
    (∀ q, (∀ d ∈ docs, q ≠ outputPath go d) →
      (exportLoop go os T docs result dir).2.lookup q = dir.lookup q) ∧
    (∀ d ∈ docs, ∀ r2, (exportLoop go os T docs result dir).2.lookup (outputPath go d) =
      (exportDocument go os d T r2 dir).2.1.lookup (outputPath go d)) ∧
    (exportLoop go os T docs result dir).1.Written = result.Written +
      docs.countP (fun d => decide (classify go os d T dir = Outcome.written)) ∧
    (exportLoop go os T docs result dir).1.Skipped = result.Skipped +
      docs.countP (fun d => decide (classify go os d T dir = Outcome.skipped)) ∧
    (exportLoop go os T docs result dir).1.Empty = result.Empty +
      docs.countP (fun d => decide (classify go os d T dir = Outcome.empty)) ∧
    (exportLoop go os T docs result dir).1.Errors.length = result.Errors.length +
      docs.countP (fun d => decide (classify go os d T dir = Outcome.failed)) := by
  induction docs generalizing result dir with
  | nil => simp [exportLoop]
  | cons doc docs ih =>
    have hnd : (docs.map (outputPath go)).Nodup := (List.nodup_cons.1 hnodup).2
    have hnotin : outputPath go doc ∉ docs.map (outputPath go) := (List.nodup_cons.1 hnodup).1
    have hne : ∀ d ∈ docs, outputPath go d ≠ outputPath go doc := by
      intro d hd heq
      exact hnotin (heq ▸ List.mem_map_of_mem _ hd)
    obtain ⟨r1, hstep, c1, c2, c3, c4⟩ := exportLoop_step go os T doc docs result dir
    obtain ⟨ia, ib, i1, i2, i3, i4⟩ := ih r1 (exportDocument go os doc T result dir).2.1 hnd
    have hcongr : ∀ d ∈ docs, classify go os d T (exportDocument go os doc T result dir).2.1 =
        classify go os d T dir := fun d hd =>
      classify_congr go os d T _ _
        (exportDocument_lookup_other go os doc T result dir _ (hne d hd))
    have hcount : ∀ o : Outcome,
        docs.countP (fun d => decide (classify go os d T
          (exportDocument go os doc T result dir).2.1 = o)) =
        docs.countP (fun d => decide (classify go os d T dir = o)) := by
      intro o
      apply List.countP_congr
      intro d hd
      rw [hcongr d hd]
    rw [hstep]
    refine ⟨?_, ?_, ?_, ?_, ?_, ?_⟩
    · intro q hq
      rw [ia q (fun d hd => hq d (List.mem_cons_of_mem _ hd))]
      exact exportDocument_lookup_other go os doc T result dir q (hq doc (List.mem_cons_self _ _))
    · intro d hd r2
      rcases List.mem_cons.1 hd with rfl | hd
      · rw [ia _ (fun x hx => (hne x hx).symm)]
        exact exportDocument_lookup_congr go os d T result r2 dir dir rfl
      · rw [ib d hd r2]
        exact exportDocument_lookup_congr go os d T r2 r2 _ _
          (exportDocument_lookup_other go os doc T result dir _ (hne d hd))
    · rw [i1, c1, hcount, List.countP_cons]
      simp only [decide_eq_true_eq]
      omega
    · rw [i2, c2, hcount, List.countP_cons]
      simp only [decide_eq_true_eq]
      omega
    · rw [i3, c3, hcount, List.countP_cons]
      simp only [decide_eq_true_eq]
      omega
    · rw [i4, c4, hcount, List.countP_cons]
      simp only [decide_eq_true_eq]
      omega

theorem exportDocument_dir_of_not_written (go : GoLib) (os : Os) (doc : Document)
    (T : GoMap (List TranscriptEntry)) (result : ExportResult) (dir : Dir)
    (h : classify go os doc T dir ≠ Outcome.written) :
    (exportDocument go os doc T result dir).2.1 = dir := by
  cases hc : classify go os doc T dir with
  | empty => rw [exportDocument_of_empty go os doc T result dir hc]
  | skipped => rw [exportDocument_of_skipped go os doc T result dir hc]
  | failed => rw [exportDocument_of_failed go os doc T result dir hc]
  | written => exact absurd hc h

/-- An export in which no document is written leaves the directory as it was
and counts the outcomes. -/
theorem exportLoop_stable (go : GoLib) (os : Os) (T : GoMap (List TranscriptEntry))
    (docs : List Document) (result : ExportResult) (dir : Dir)
    (h : ∀ d ∈ docs, classify go os d T dir ≠ Outcome.written) :
    (exportLoop go os T docs result dir).2 = dir ∧
    (exportLoop go os T docs result dir).1.Written = result.Written ∧
    (exportLoop go os T docs result dir).1.Skipped = result.Skipped +
      docs.countP (fun d => decide (classify go os d T dir = Outcome.skipped)) ∧
    (exportLoop go os T docs result dir).1.Empty = result.Empty +
      docs.countP (fun d => decide (classify go os d T dir = Outcome.empty)) ∧
    (exportLoop go os T docs result dir).1.Errors.length = result.Errors.length +
      docs.countP (fun d => decide (classify go os d T dir = Outcome.failed)) := by
  induction docs generalizing result with
  | nil => simp [exportLoop]
  | cons doc docs ih =>
    have hd := h doc (List.mem_cons_self _ _)
    obtain ⟨r1, hstep, c1, c2, c3, c4⟩ := exportLoop_step go os T doc docs result dir
    rw [exportDocument_dir_of_not_written go os doc T result dir hd] at hstep
    obtain ⟨i0, i1, i2, i3, i4⟩ := ih r1 (fun d hx => h d (List.mem_cons_of_mem _ hx))
    rw [hstep]
    refine ⟨i0, ?_, ?_, ?_, ?_⟩
    · rw [i1, c1, if_neg hd]
      rfl
    · rw [i2, c2, List.countP_cons]
      simp only [decide_eq_true_eq]
      omega
    · rw [i3, c3, List.countP_cons]
      simp only [decide_eq_true_eq]
      omega
    · rw [i4, c4, List.countP_cons]
      simp only [decide_eq_true_eq]
      omega

theorem countP_again_skipped (f : Document → Outcome) (docs : List Document) :
    docs.countP (fun d => decide ((f d).again = Outcome.skipped)) =
      docs.countP (fun d => decide (f d = Outcome.written)) +
        docs.countP (fun d => decide (f d = Outcome.skipped)) := by
  induction docs with
  | nil => rfl
  | cons d docs ih =>
    rw [List.countP_cons, List.countP_cons, List.countP_cons, ih]
    cases f d <;> simp [Outcome.again] <;> omega

theorem countP_again_same (f : Document → Outcome) (docs : List Document) (o : Outcome)
    (ho : o = Outcome.empty ∨ o = Outcome.failed) :
    docs.countP (fun d => decide ((f d).again = o)) =
      docs.countP (fun d => decide (f d = o)) := by
  apply List.countP_congr
  intro d _
  rcases ho with rfl | rfl <;> cases f d <;> simp [Outcome.again]

theorem again_ne_written (o : Outcome) : o.again ≠ Outcome.written := by
  cases o <;> simp [Outcome.again]

/-- C2 (as amended): let the exportable documents have pairwise distinct
output file names, let none of them contain "## Transcript" in its title, id
or notes, and let every writable file of the output directory be readable.
When Export runs twice in succession on the same cache state, the second run
visiting the documents in any order and the directory touched only by Export,
the second run writes nothing (Written = 0), leaves the directory as the first
run left it, counts as skipped what the first run counted as written or as
skipped, and counts as empty and as errors what the first run did; every
document that is written when exported on the first directory is skipped on
the directory the first run leaves. -/
theorem C2_second_export_writes_nothing (go : GoLib) (os : Os) (state state2 : CacheState)
    (dir0 dir1 dir2 : Dir) (r1 r2 : ExportResult)
    (hT : state2.Transcripts = state.Transcripts)
    (hD : state2.Documents.Perm state.Documents)
    (hdistinct : ((exportable state).map (outputPath go)).Nodup)
    (hfree : ∀ d ∈ exportable state, headingFree d = true)
    (hreg : ∀ p c, dir0.lookup p ≠ some (Node.file c false true))
    (h1 : Export go os state dir0 = some (r1, dir1))
    (h2 : Export go os state2 dir1 = some (r2, dir2)) :
    r2.Written = 0 ∧ dir2 = dir1 ∧ r2.Skipped = r1.Written + r1.Skipped ∧
    r2.Empty = r1.Empty ∧ r2.Errors.length = r1.Errors.length ∧
    ∀ d ∈ exportable state, classify go os d state.Transcripts dir0 = Outcome.written →
      ∀ r, exportDocument go os d state.Transcripts r dir1 =
        (⟨r.Written, r.Skipped + 1, r.Empty, r.Errors⟩, dir1, none) := by
  have hperm : (exportable state2).Perm (exportable state) := by
    unfold exportable
    rw [hT]
    exact (hD.map Prod.snd).filter _
  have hmk : os.mkdirAll = true := by
    by_contra hno
    simp [Export, hno] at h1
  simp only [Export, hmk, if_true, Option.some.injEq] at h1 h2
  rw [hT] at h2
  have hr1 : (exportLoop go os state.Transcripts (exportable state) ⟨0, 0, 0, []⟩ dir0).1 = r1 :=
    congrArg Prod.fst h1
  have hd1 : (exportLoop go os state.Transcripts (exportable state) ⟨0, 0, 0, []⟩ dir0).2 = dir1 :=
    congrArg Prod.snd h1
  have hr2 : (exportLoop go os state.Transcripts (exportable state2) ⟨0, 0, 0, []⟩ dir1).1 = r2 :=
    congrArg Prod.fst h2
  have hd2 : (exportLoop go os state.Transcripts (exportable state2) ⟨0, 0, 0, []⟩ dir1).2 = dir2 :=
    congrArg Prod.snd h2
  obtain ⟨_, fb, f1, f2, f3, f4⟩ := exportLoop_first go os state.Transcripts (exportable state)
    ⟨0, 0, 0, []⟩ dir0 hdistinct
  rw [hd1] at fb
  rw [hr1] at f1 f2 f3 f4
  have hagain : ∀ d ∈ exportable state, classify go os d state.Transcripts dir1 =
      (classify go os d state.Transcripts dir0).again := fun d hd =>
    classify_again go os d state.Transcripts ⟨0, 0, 0, []⟩ dir0 dir1 (hfree d hd)
      (hreg _) (fb d hd _)
  obtain ⟨s0, s1, s2, s3, s4⟩ := exportLoop_stable go os state.Transcripts (exportable state2)
    ⟨0, 0, 0, []⟩ dir1 (fun d hd => by
      rw [hagain d (hperm.mem_iff.1 hd)]
      exact again_ne_written _)
  rw [hd2] at s0
  rw [hr2] at s1 s2 s3 s4
  have hcount : ∀ o : Outcome,
      (exportable state2).countP (fun d => decide (classify go os d state.Transcripts dir1 = o)) =
      (exportable state).countP
        (fun d => decide ((classify go os d state.Transcripts dir0).again = o)) := by
    intro o
    rw [hperm.countP_eq]
    apply List.countP_congr
    intro d hd
    rw [hagain d hd]
  refine ⟨s1, s0, ?_, ?_, ?_, ?_⟩
  · rw [s2, hcount, countP_again_skipped, f1, f2]
    simp
  · rw [s3, hcount, countP_again_same _ _ _ (Or.inl rfl), f3]
  · rw [s4, hcount, countP_again_same _ _ _ (Or.inr rfl), f4]
  · intro d hd hw r
    apply exportDocument_of_skipped
    rw [hagain d hd, hw]
    rfl

set_option maxRecDepth 100000 in
/-- C2, witness: two documents with notes and different titles, exported twice
into a directory that is empty at first. -/
theorem C2_second_export_writes_nothing_witness :
    (ExportResult.mk 0 2 0 []).Skipped =
      (ExportResult.mk 2 0 0 []).Written + (ExportResult.mk 2 0 0 []).Skipped :=
  (C2_second_export_writes_nothing exampleLib exampleOs
    ⟨[(lit "d", exampleDoc), (lit "f", exampleDocOtherName)], []⟩
    ⟨[(lit "f", exampleDocOtherName), (lit "d", exampleDoc)], []⟩ []
    [(lit "unknown-date_T.md", Node.file (lit
        "# T\nDate: Unknown date\nMeeting ID: d\n\n---\n\n## AI-Generated Notes\n\nSome notes here\n")
        true true),
     (lit "unknown-date_U.md", Node.file (lit
        "# U\nDate: Unknown date\nMeeting ID: f\n\n---\n\n## AI-Generated Notes\n\nSome other notes\n")
        true true)]
    [(lit "unknown-date_T.md", Node.file (lit
        "# T\nDate: Unknown date\nMeeting ID: d\n\n---\n\n## AI-Generated Notes\n\nSome notes here\n")
        true true),
     (lit "unknown-date_U.md", Node.file (lit
        "# U\nDate: Unknown date\nMeeting ID: f\n\n---\n\n## AI-Generated Notes\n\nSome other notes\n")
        true true)] ⟨2, 0, 0, []⟩ ⟨0, 2, 0, []⟩ rfl (List.Perm.swap _ _ _) (by decide) (by decide)
    (fun p c h => by simp at h) (by decide) (by decide)).2.2.1

set_option maxRecDepth 100000 in
/-- C2, the claim as stated fails: two documents with the same title and date
and different notes are both written by a first export into the empty
directory, and both written again by a second one. -/
theorem C2_counterexample_same_name_written_again :
    Export exampleLib exampleOs ⟨[(lit "d", exampleDoc), (lit "e", exampleDocSameName)], []⟩ [] =
      some (⟨2, 0, 0, []⟩,
        [(lit "unknown-date_T.md", Node.file (lit
          "# T\nDate: Unknown date\nMeeting ID: e\n\n---\n\n## AI-Generated Notes\n\nSome other notes\n")
          true true)]) ∧
    Export exampleLib exampleOs ⟨[(lit "d", exampleDoc), (lit "e", exampleDocSameName)], []⟩
        [(lit "unknown-date_T.md", Node.file (lit
          "# T\nDate: Unknown date\nMeeting ID: e\n\n---\n\n## AI-Generated Notes\n\nSome other notes\n")
          true true)] =
      some (⟨2, 0, 0, []⟩,
        [(lit "unknown-date_T.md", Node.file (lit
          "# T\nDate: Unknown date\nMeeting ID: e\n\n---\n\n## AI-Generated Notes\n\nSome other notes\n")
          true true)]) := by
  decide

/-! ### Documents without content (exporter.go, `Export`) -/

/-- Dropping documents without exportable content does not change the list of
candidates. -/
theorem exportable_filter (state : CacheState) (drop : Document → Bool)
    (hdrop : ∀ p ∈ state.Documents, drop p.2 = true →
      HasExportableContent p.2 state.Transcripts = false) :
    exportable { state with Documents := state.Documents.filter (fun p => !drop p.2) } =
      exportable state := by
  unfold exportable
  simp only
  generalize state.Documents = docs at hdrop
  induction docs with
  | nil => rfl
  | cons p docs ih =>
    have ih1 := ih (fun q hq => hdrop q (List.mem_cons_of_mem _ hq))
    have hp := hdrop p (List.mem_cons_self _ _)
    by_cases hd : drop p.2 = true
    · have hc := hp hd
      simp only [List.filter_cons, hd, Bool.not_true, List.map_cons, hc]
      simpa using ih1
    · have hd1 : drop p.2 = false := by simpa using hd
      simp only [List.filter_cons, hd1, Bool.not_false, List.map_cons, if_true]
      rw [ih1]

/-- C11: documents for which `HasExportableContent` is false are ignored by
`Export`.  Dropping any of them from the cache state leaves the whole outcome
of `Export` as it was, the counters, the error list and the final content of
the directory; and a state made of such documents alone counts nothing, records
no error and leaves every file of the directory as it was. -/
theorem C11_documents_without_content_are_ignored (go : GoLib) (os : Os) (state : CacheState)
    (dir : Dir) (drop : Document → Bool)
    (hdrop : ∀ p ∈ state.Documents, drop p.2 = true →
      HasExportableContent p.2 state.Transcripts = false) :
    Export go os { state with Documents := state.Documents.filter (fun p => !drop p.2) } dir =
      Export go os state dir ∧
    Export go os { state with Documents := state.Documents.filter (fun p => drop p.2) } dir =
      if os.mkdirAll then some (⟨0, 0, 0, []⟩, dir) else none := by
  constructor
  · unfold Export
    rw [exportable_filter state drop hdrop]
  · have hnone : exportable
        { state with Documents := state.Documents.filter (fun p => drop p.2) } = [] := by
      unfold exportable
      simp only [List.filter_eq_nil_iff, List.mem_map, List.mem_filter]
      rintro d ⟨p, ⟨hp, hd⟩, rfl⟩
      simp [hdrop p hp hd]
    unfold Export
    rw [hnone]
    rfl

set_option maxRecDepth 100000 in
/-- C11, witness: a state with `exampleDoc` and a document without content; the
second one is dropped. -/
theorem C11_documents_without_content_are_ignored_witness :
    Export exampleLib exampleOs ⟨[(lit "d", exampleDoc)], []⟩ [] =
      Export exampleLib exampleOs ⟨[(lit "d", exampleDoc), (lit "s", exampleDocShortNotes)], []⟩ [] ∧
    Export exampleLib exampleOs ⟨[(lit "s", exampleDocShortNotes)], []⟩ [] =
      some (⟨0, 0, 0, []⟩, []) :=
  C11_documents_without_content_are_ignored exampleLib exampleOs
    ⟨[(lit "d", exampleDoc), (lit "s", exampleDocShortNotes)], []⟩ []
    (fun d => decide (d = exampleDocShortNotes)) (by decide)

/-! ### The candidates counted as empty (exporter.go, `exportDocument`) -/

/-- C12 (as amended): `exportDocument` counts a candidate as empty exactly when
its notes are empty after trimming and the entry list of the cache for it is
empty, whatever the output directory holds: the test comes before the existing
file is looked at.  The candidate then changes nothing but `Empty`, no file is
written, no error is returned, and the loop goes on with the next candidate. -/
theorem C12_empty_iff_blank_notes_and_no_cache_entries (go : GoLib) (os : Os) (doc : Document)
    (T : GoMap (List TranscriptEntry)) (result : ExportResult) (dir : Dir) :
    ((exportDocument go os doc T result dir).1.Empty = result.Empty + 1 ↔
      (TrimSpace (GetNotes doc) = [] ∧ transcriptOf T doc.ID = [])) ∧
    ((TrimSpace (GetNotes doc) = [] ∧ transcriptOf T doc.ID = []) →
      exportDocument go os doc T result dir =
        (⟨result.Written, result.Skipped, result.Empty + 1, result.Errors⟩, dir, none) ∧
      ∀ docs, exportLoop go os T (doc :: docs) result dir =
        exportLoop go os T docs
          ⟨result.Written, result.Skipped, result.Empty + 1, result.Errors⟩ dir) := by
  have hiff : ((GetNotes doc = [] ∨ TrimSpace (GetNotes doc) = []) ∧
      (transcriptOf T doc.ID).length = 0) ↔
      (TrimSpace (GetNotes doc) = [] ∧ transcriptOf T doc.ID = []) := by
    constructor
    · rintro ⟨h1, h2⟩
      refine ⟨?_, List.length_eq_zero.mp h2⟩
      rcases h1 with h1 | h1
      · rw [h1]; exact trimSpace_nil
      · exact h1
    · rintro ⟨h1, h2⟩
      exact ⟨Or.inr h1, by rw [h2]; rfl⟩
  have hstep : (TrimSpace (GetNotes doc) = [] ∧ transcriptOf T doc.ID = []) →
      exportDocument go os doc T result dir =
        (⟨result.Written, result.Skipped, result.Empty + 1, result.Errors⟩, dir, none) := by
    intro h
    unfold exportDocument
    rw [if_pos (hiff.mpr h)]
  refine ⟨⟨?_, fun h => by rw [hstep h]⟩, fun h => ⟨hstep h, fun docs => ?_⟩⟩
  · intro hE
    by_contra hne
    have hne1 := fun h => hne (hiff.mp h)
    unfold exportDocument at hE
    rw [if_neg hne1] at hE
    split at hE
    · simp at hE
    · split at hE <;> simp at hE
  · rw [exportLoop_cons, hstep h]

set_option maxRecDepth 100000 in
/-- C12, the claim as stated fails: a candidate without notes whose entry list
in the cache is empty, and whose output file holds an earlier export with a
transcript section.  The entries recovered from the file are not empty, and
yet the candidate is counted as empty. -/
theorem C12_counterexample_empty_despite_recovered_entries :
    exportDocument exampleLib exampleOs examplePriorDoc [(lit "d", [])] ⟨0, 0, 0, []⟩
        [(outputPath exampleLib examplePriorDoc,
          Node.file (FormatDocumentMarkdown exampleLib examplePriorDoc examplePriorEntries)
            true true)] =
      (⟨0, 0, 1, []⟩,
        [(outputPath exampleLib examplePriorDoc,
          Node.file (FormatDocumentMarkdown exampleLib examplePriorDoc examplePriorEntries)
            true true)], none) ∧
    TrimSpace (GetNotes examplePriorDoc) = [] ∧
    selectedTranscript exampleLib examplePriorDoc [(lit "d", [])]
        [(outputPath exampleLib examplePriorDoc,
          Node.file (FormatDocumentMarkdown exampleLib examplePriorDoc examplePriorEntries)
            true true)] = examplePriorEntries ∧
    examplePriorEntries ≠ [] := by
  decide

/-! ### The errors of an export (exporter.go) -/

/-- One step of the loop, by the outcome of `exportDocument`: a failed write
appends the error of the document, every other outcome counts the document. -/
theorem exportLoop_cons_classify (go : GoLib) (os : Os) (T : GoMap (List TranscriptEntry))
    (doc : Document) (docs : List Document) (result : ExportResult) (dir : Dir) :
    ∃ r1 d1, exportLoop go os T (doc :: docs) result dir = exportLoop go os T docs r1 d1 ∧
      r1.Written + r1.Skipped + r1.Empty + r1.Errors.length =
        result.Written + result.Skipped + result.Empty + result.Errors.length + 1 ∧
      (r1.Errors = result.Errors ∨
        (classify go os doc T dir = Outcome.failed ∧ d1 = dir ∧
          r1 = { result with Errors := result.Errors ++ [writeFailure go os doc] })) := by
  rw [exportLoop_cons]
  rcases hc : classify go os doc T dir with _ | _ | _ | _
  · rw [exportDocument_of_empty go os doc T result dir hc]
    exact ⟨_, _, rfl, by simp only; omega, Or.inl rfl⟩
  · rw [exportDocument_of_skipped go os doc T result dir hc]
    exact ⟨_, _, rfl, by simp only; omega, Or.inl rfl⟩
  · obtain ⟨dir1, _, he⟩ := exportDocument_of_written go os doc T result dir hc
    rw [he]
    exact ⟨_, _, rfl, by simp only; omega, Or.inl rfl⟩
  · rw [exportDocument_of_failed go os doc T result dir hc]
    refine ⟨_, _, rfl, ?_, Or.inr ⟨rfl, rfl, rfl⟩⟩
    simp only [List.length_append, List.length_singleton]
    omega

/-- The loop counts every candidate once, and every error it adds is the write
failure of one of the candidates. -/
theorem exportLoop_accounts (go : GoLib) (os : Os) (T : GoMap (List TranscriptEntry))
    (docs : List Document) (result : ExportResult) (dir : Dir) :
    (exportLoop go os T docs result dir).1.Written + (exportLoop go os T docs result dir).1.Skipped +
        (exportLoop go os T docs result dir).1.Empty +
        (exportLoop go os T docs result dir).1.Errors.length =
      result.Written + result.Skipped + result.Empty + result.Errors.length + docs.length ∧
    ∀ e ∈ (exportLoop go os T docs result dir).1.Errors,
      e ∈ result.Errors ∨ ∃ doc ∈ docs, e = writeFailure go os doc := by
  induction docs generalizing result dir with
  | nil => exact ⟨rfl, fun e he => Or.inl he⟩
  | cons doc docs ih =>
    obtain ⟨r1, d1, hstep, hsum, herr⟩ := exportLoop_cons_classify go os T doc docs result dir
    rw [hstep]
    obtain ⟨ih1, ih2⟩ := ih r1 d1
    refine ⟨by rw [ih1, hsum, List.length_cons]; omega, fun e he => ?_⟩
    rcases ih2 e he with h | ⟨d, hd, rfl⟩
    · rcases herr with h1 | ⟨_, _, h1⟩
      · rw [h1] at h
        exact Or.inl h
      · rw [h1] at h
        simp only [List.mem_append, List.mem_singleton] at h
        rcases h with h | h
        · exact Or.inl h
        · exact Or.inr ⟨doc, List.mem_cons_self _ _, h⟩
    · exact Or.inr ⟨d, List.mem_cons_of_mem _ hd, rfl⟩

/-- C13 (as amended): once the output directory exists, `Export` returns a
result and no fatal error.  Every candidate is counted exactly once, as
written, skipped, empty or as an error, and every recorded error is the failed
write of a candidate, with the id and the title of the document and the
message of the write.  A candidate whose write fails is recorded so and the
loop goes on with the next candidate.  A failure to read the existing file is
not recorded: the candidate is then rendered from the transcript of the cache
and written like a new file. -/
theorem C13_write_failures_are_recorded (go : GoLib) (os : Os) (state : CacheState) (dir : Dir)
    (hmk : os.mkdirAll = true) :
    (∃ r d, Export go os state dir = some (r, d) ∧
      r.Written + r.Skipped + r.Empty + r.Errors.length = (exportable state).length ∧
      ∀ e ∈ r.Errors, ∃ doc ∈ exportable state, e = writeFailure go os doc) ∧
    (∀ doc docs result dir0,
      ¬ (TrimSpace (GetNotes doc) = [] ∧ transcriptOf state.Transcripts doc.ID = []) →
      ReadFile dir0 (outputPath go doc) ≠ some (FormatDocumentMarkdown go doc
        (selectedTranscript go doc state.Transcripts dir0)) →
      WriteFile os dir0 (outputPath go doc) (FormatDocumentMarkdown go doc
        (selectedTranscript go doc state.Transcripts dir0)) = none →
      exportLoop go os state.Transcripts (doc :: docs) result dir0 =
        exportLoop go os state.Transcripts docs
          { result with Errors := result.Errors ++ [writeFailure go os doc] } dir0) ∧
    (∀ doc result dir0,
      ¬ (TrimSpace (GetNotes doc) = [] ∧ transcriptOf state.Transcripts doc.ID = []) →
      ReadFile dir0 (outputPath go doc) = none →
      exportDocument go os doc state.Transcripts result dir0 =
        match WriteFile os dir0 (outputPath go doc)
            (FormatDocumentMarkdown go doc (transcriptOf state.Transcripts doc.ID)) with
        | none => (result, dir0, some (writeFailure go os doc).Error)
        | some dir1 => ({ result with Written := result.Written + 1 }, dir1, none)) := by
  have hempty : ∀ doc : Document,
      ¬ (TrimSpace (GetNotes doc) = [] ∧ transcriptOf state.Transcripts doc.ID = []) →
      ¬ ((GetNotes doc = [] ∨ TrimSpace (GetNotes doc) = []) ∧
        (transcriptOf state.Transcripts doc.ID).length = 0) := by
    rintro doc h ⟨h1, h2⟩
    refine h ⟨?_, List.length_eq_zero.mp h2⟩
    rcases h1 with h1 | h1
    · rw [h1]; exact trimSpace_nil
    · exact h1
  refine ⟨?_, ?_, ?_⟩
  · obtain ⟨h1, h2⟩ := exportLoop_accounts go os state.Transcripts (exportable state)
      ⟨0, 0, 0, []⟩ dir
    refine ⟨(exportLoop go os state.Transcripts (exportable state) ⟨0, 0, 0, []⟩ dir).1,
      (exportLoop go os state.Transcripts (exportable state) ⟨0, 0, 0, []⟩ dir).2,
      by simp only [Export, hmk, if_true], ?_, fun e he => ?_⟩
    · simpa using h1
    · rcases h2 e he with h | h
      · simp at h
      · exact h
  · intro doc docs result dir0 hne hread hwrite
    rw [exportLoop_cons]
    unfold exportDocument
    rw [if_neg (hempty doc hne), if_neg hread, hwrite]
    rfl
  · intro doc result dir0 hne hread
    have hsel : selectedTranscript go doc state.Transcripts dir0 =
        transcriptOf state.Transcripts doc.ID := by
      unfold selectedTranscript
      rw [hread]
      split <;> rfl
    unfold exportDocument
    rw [if_neg (hempty doc hne), hsel, hread, if_neg (by simp)]
    rfl
set_option maxRecDepth 100000 in
/-- C13, witness: the one candidate cannot be written, since no file can be
created; the export returns a result that holds the error of the document. -/
theorem C13_write_failures_are_recorded_witness :
    exampleOsReadOnly.mkdirAll = true ∧
    (∃ r d, Export exampleLib exampleOsReadOnly ⟨[(lit "d", exampleDoc)], []⟩ [] = some (r, d) ∧
      r.Written + r.Skipped + r.Empty + r.Errors.length =
        (exportable ⟨[(lit "d", exampleDoc)], []⟩).length ∧
      ∀ e ∈ r.Errors, ∃ doc ∈ exportable ⟨[(lit "d", exampleDoc)], []⟩,
        e = writeFailure exampleLib exampleOsReadOnly doc) ∧
    Export exampleLib exampleOsReadOnly ⟨[(lit "d", exampleDoc)], []⟩ [] =
      some (⟨0, 0, 0, [⟨lit "d", lit "T",
        lit "failed to write file: permission denied"⟩]⟩, []) :=
  ⟨rfl, (C13_write_failures_are_recorded exampleLib exampleOsReadOnly
    ⟨[(lit "d", exampleDoc)], []⟩ [] rfl).1, by decide⟩

set_option maxRecDepth 100000 in
/-- C13, the claim as stated fails: the output file of the candidate exists and
cannot be read, but can be written.  Both reads fail, the file is overwritten,
the document is counted as written and no error is recorded. -/
theorem C13_counterexample_read_failure_not_recorded :
    (List.lookup (lit "unknown-date_T.md")
      [(lit "unknown-date_T.md", Node.file (lit "old") false true)]).isSome = true ∧
    ReadFile [(lit "unknown-date_T.md", Node.file (lit "old") false true)]
      (outputPath exampleLib exampleDoc) = none ∧
    Export exampleLib exampleOs ⟨[(lit "d", exampleDoc)], []⟩
        [(lit "unknown-date_T.md", Node.file (lit "old") false true)] =
      some (⟨1, 0, 0, []⟩,
        [(lit "unknown-date_T.md", Node.file (lit
          "# T\nDate: Unknown date\nMeeting ID: d\n\n---\n\n## AI-Generated Notes\n\nSome notes here\n")
          false true)]) := by
  decide

/-! ### When the extractor returns nothing (extractor.go) -/

/-- Matches whose captured text is blank give no entry. -/
theorem extractEntries_blank (go : GoLib) (ms : List (List GoString))
    (h : ∀ m ∈ ms, ∀ w sp cap rest, m = w :: sp :: cap :: rest → TrimSpace cap = []) :
    extractEntries go ms = [] := by
  induction ms with
  | nil => rfl
  | cons m ms ih =>
    have ih1 := ih (fun m1 hm1 => h m1 (List.mem_cons_of_mem _ hm1))
    have hm := h m (List.mem_cons_self _ _)
    match m, hm with
    | [], _ => simpa [extractEntries] using ih1
    | [_], _ => simpa [extractEntries] using ih1
    | [_, _], _ => simpa [extractEntries] using ih1
    | w :: sp :: cap :: rest, hm =>
      have hb := hm w sp cap rest rfl
      simpa [extractEntries, hb] using ih1

/-- C14: `ExtractTranscriptFromMarkdown` returns nil for every text without the
heading "## Transcript", and for every text in which each match of the entry
pattern after the first heading has a blank captured text (none at all
included); and it never returns a list that is empty but not nil. -/
theorem C14_extract_returns_nil_or_entries (go : GoLib) (content : GoString) :
    (Contains content (lit "## Transcript") = false →
      ExtractTranscriptFromMarkdown go content = none) ∧
    (∀ transcriptSection, afterFirst (lit "## Transcript") content = some transcriptSection →
      (∀ m ∈ FindAllStringSubmatch transcriptEntryRegex transcriptSection,
        ∀ w sp cap rest, m = w :: sp :: cap :: rest → TrimSpace cap = []) →
      ExtractTranscriptFromMarkdown go content = none) ∧
    ExtractTranscriptFromMarkdown go content ≠ some [] := by
  refine ⟨fun h => ?_, fun transcriptSection hsec hblank => ?_, ?_⟩
  · unfold ExtractTranscriptFromMarkdown
    rw [h]
    rfl
  · have he := extractEntries_blank go _ hblank
    unfold ExtractTranscriptFromMarkdown
    split
    · rfl
    · rw [hsec]
      simp only [he, List.length_nil, if_true]
      split <;> rfl
  · unfold ExtractTranscriptFromMarkdown
    split
    · simp
    · split
      · simp
      · split
        · simp
        · split
          · simp
          · rename_i hlen
            intro h
            simp only [Option.some.injEq] at h
            exact hlen (by rw [h]; rfl)
/-! ### The first transcript heading of a text -/

theorem hasPrefix_iff_take (s p : GoString) : HasPrefix s p = true ↔ s.take p.length = p := by
  induction p generalizing s with
  | nil => simp [HasPrefix]
  | cons x p ih =>
    cases s with
    | nil => simp [HasPrefix]
    | cons c s =>
      rw [hasPrefix_cons_cons]
      simp only [Bool.and_eq_true, decide_eq_true_eq, List.length_cons, List.take_succ_cons,
        List.cons.injEq, ih]

/-- The heading does not overlap itself: no proper, non-empty end of it is a
beginning of it. -/
theorem heading_no_overlap :
    ∀ k, k < 13 → 1 ≤ k → transcriptHeading.drop k ≠ transcriptHeading.take (13 - k) := by
  rw [heading_eq]
  decide

/-- A heading cannot begin inside a text `q` and end inside the heading that
follows `q`, unless `q` itself begins with one. -/
theorem hasPrefix_heading_append (q rest : GoString) (hq : q ≠ [])
    (h : HasPrefix (q ++ (transcriptHeading ++ rest)) transcriptHeading = true) :
    HasPrefix q transcriptHeading = true := by
  have hlen : transcriptHeading.length = 13 := by rw [heading_eq]; rfl
  rw [hasPrefix_iff_take, hlen] at h
  rw [hasPrefix_iff_take, hlen]
  by_cases hk : 13 ≤ q.length
  · rwa [List.take_append_of_le_length hk] at h
  · exfalso
    have hk1 : q.length < 13 := by omega
    have hpos : 1 ≤ q.length := by
      cases q with
      | nil => exact absurd rfl hq
      | cons c q => simp
    rw [List.take_append_eq_append_take, List.take_of_length_le (by omega : q.length ≤ 13),
      List.take_append_of_le_length (by rw [hlen]; omega)] at h
    have hd := congrArg (List.drop q.length) h
    rw [List.drop_left] at hd
    exact heading_no_overlap q.length hk1 hpos hd.symm

/-- The text after the first heading of `p ++ heading ++ rest` is `rest`, when
`p` holds no heading. -/
theorem afterFirst_heading_append (p rest : GoString)
    (hp : Contains p transcriptHeading = false) :
    afterFirst transcriptHeading (p ++ (transcriptHeading ++ rest)) = some rest ∧
    Contains (p ++ (transcriptHeading ++ rest)) transcriptHeading = true := by
  induction p with
  | nil =>
    refine ⟨afterFirst_self_append _ _ heading_ne_nil, ?_⟩
    have hpre := hasPrefix_self_append transcriptHeading rest
    cases hr : transcriptHeading ++ rest with
    | nil =>
      rw [hr] at hpre
      simpa [Contains] using hpre
    | cons c s =>
      rw [hr] at hpre
      simp [contains_cons, hpre]
  | cons c p ih =>
    rw [contains_cons, Bool.or_eq_false_iff] at hp
    obtain ⟨ih1, ih2⟩ := ih hp.2
    have hno : HasPrefix ((c :: p) ++ (transcriptHeading ++ rest)) transcriptHeading = false := by
      by_contra hcon
      have ht := hasPrefix_heading_append (c :: p) rest (by simp) (by simpa using hcon)
      rw [hp.1] at ht
      exact Bool.noConfusion ht
    constructor
    · rw [List.cons_append, afterFirst_cons, ← List.cons_append, hno]
      simpa using ih1
    · rw [List.cons_append, contains_cons, ih2]
      simp

/-! ### A text of entry blocks -/

theorem entryBlock_eq (e : GoString × GoString) (tail : GoString) :
    entryBlock e ++ tail = 42 :: 42 :: (e.1 ++ 58 :: 42 :: 42 :: 32 :: (e.2 ++ 10 :: 10 :: tail)) := by
  have h3 : lit "\n\n" = [10, 10] := by decide
  unfold entryBlock
  rw [lit_stars, lit_colon_stars, h3]
  simp

/-- In a text made of entry blocks the matches of the pattern are the blocks,
one after the other. -/
theorem findAllLoop_blocks (es : List (GoString × GoString)) (fuel : Nat)
    (hgood : ∀ e ∈ es, readable e) (hf : es.length ≤ fuel) :
    (findAllLoop transcriptEntryRegex fuel (es.flatMap entryBlock)).map (List.drop 1) =
      es.map (fun e => [e.1, e.2]) := by
  induction es generalizing fuel with
  | nil =>
    cases fuel with
    | zero => rfl
    | succ f => simp [findAllLoop, findFirst, matchHere_nil]
  | cons e rest ih =>
    cases fuel with
    | zero => simp at hf
    | succ f =>
      obtain ⟨h1, h2, h3, h4⟩ := hgood e (List.mem_cons_self _ _)
      have hm := matchHere_entry e.1 e.2 (10 :: 10 :: rest.flatMap entryBlock)
        (rest.flatMap entryBlock) h1 h2 h3 h4 (Or.inl rfl)
      rw [List.flatMap_cons, entryBlock_eq]
      simp only [findAllLoop, findFirst, hm, List.map_cons]
      rw [ih f (fun x hx => hgood x (List.mem_cons_of_mem _ hx)) (by simpa using hf)]
      simp [List.lookup]

theorem length_le_blocks (es : List (GoString × GoString)) :
    es.length ≤ (es.flatMap entryBlock).length := by
  induction es with
  | nil => simp
  | cons e rest ih =>
    rw [List.flatMap_cons, entryBlock_eq]
    simp only [List.length_cons, List.length_append]
    omega

theorem findAll_blocks (es : List (GoString × GoString)) (hgood : ∀ e ∈ es, readable e) :
    (FindAllStringSubmatch transcriptEntryRegex (10 :: 10 :: es.flatMap entryBlock)).map
        (List.drop 1) = es.map (fun e => [e.1, e.2]) := by
  have hlen := length_le_blocks es
  have h1 : FindAllStringSubmatch transcriptEntryRegex (10 :: 10 :: es.flatMap entryBlock) =
      findAllLoop transcriptEntryRegex ((es.flatMap entryBlock).length + 3)
        (es.flatMap entryBlock) := by
    unfold FindAllStringSubmatch
    simp only [List.length_cons]
    rw [findAllLoop_succ, findAllLoop_succ]
    simp only [List.length_cons]
    rw [findFirst_newline, findFirst_newline]
  rw [h1]
  exact findAllLoop_blocks es _ hgood (by omega)
/-! ### The extractor on a text of entry blocks -/

/-- C15: on a text `p ++ "## Transcript\n\n" ++ e_1 ++ ... ++ e_n` with `n ≥ 1`,
where `p` holds no transcript heading and every `e_i` is
`"**" ++ label_i ++ ":** " ++ text_i ++ "\n\n"` with a label that is a
non-empty word of ASCII letters, digits and underscores and a text that is not
empty, holds no newline and has no white space at either end,
`ExtractTranscriptFromMarkdown` returns the `n` entries in order, the i-th
with `Text = text_i` and `Source = SpeakerToSource(label_i)` and every other
field at its zero value.  The result does not depend on `p`. -/
theorem C15_extract_reads_entry_blocks (go : GoLib) (p : GoString)
    (es : List (GoString × GoString))
    (hp : Contains p (lit "## Transcript") = false) (hne : es ≠ [])
    (hlabel : ∀ e ∈ es, e.1 ≠ [] ∧ ∀ b ∈ e.1, isWordByte b = true)
    (htext : ∀ e ∈ es, e.2 ≠ [] ∧ 10 ∉ e.2 ∧ TrimSpace e.2 = e.2) :
    ExtractTranscriptFromMarkdown go (p ++ lit "## Transcript\n\n" ++ es.flatMap entryBlock) =
      some (es.map (fun e =>
        { ID := [], DocumentID := [], StartTimestamp := [], EndTimestamp := [],
          Text := e.2, Source := SpeakerToSource go e.1, IsFinal := false })) := by
  have hlit : lit "## Transcript" = transcriptHeading := rfl
  have hlit2 : lit "## Transcript\n\n" = transcriptHeading ++ [10, 10] := by decide
  have hgood : ∀ e ∈ es, readable e := fun e he =>
    ⟨(hlabel e he).1, (hlabel e he).2, (htext e he).1, (htext e he).2.1⟩
  have hshape : p ++ lit "## Transcript\n\n" ++ es.flatMap entryBlock =
      p ++ (transcriptHeading ++ 10 :: 10 :: es.flatMap entryBlock) := by
    rw [hlit2]
    simp
  rw [hlit] at hp
  obtain ⟨hafter, hcont⟩ := afterFirst_heading_append p (10 :: 10 :: es.flatMap entryBlock) hp
  have hmap := findAll_blocks es hgood
  have hext := extractEntries_of_pairs go _ _ hmap
  have hfilter : es.filter (fun e => decide (TrimSpace e.2 ≠ [])) = es := by
    rw [List.filter_eq_self]
    intro e he
    have := htext e he
    simp only [decide_eq_true_eq]
    rw [this.2.2]
    exact this.1
  have hmapeq : es.map (fun e => ({ Text := TrimSpace e.2, Source := SpeakerToSource go e.1 } :
      TranscriptEntry)) =
      es.map (fun e => ({ Text := e.2, Source := SpeakerToSource go e.1 } : TranscriptEntry)) := by
    apply List.map_congr_left
    intro e he
    rw [(htext e he).2.2]
  rw [hfilter, hmapeq] at hext
  have hlen1 : (FindAllStringSubmatch transcriptEntryRegex
      (10 :: 10 :: es.flatMap entryBlock)).length ≠ 0 := by
    have hl := congrArg List.length hmap
    simp only [List.length_map] at hl
    rw [hl]
    exact fun h => hne (List.length_eq_zero.mp h)
  have hlen2 : (es.map (fun e => ({ Text := e.2, Source := SpeakerToSource go e.1 } :
      TranscriptEntry))).length ≠ 0 := by
    rw [List.length_map]
    exact fun h => hne (List.length_eq_zero.mp h)
  unfold ExtractTranscriptFromMarkdown
  rw [hshape, hlit, hcont, hafter]
  simp only [Bool.not_true, Bool.false_eq_true, if_false]
  rw [if_neg hlen1, hext, if_neg hlen2]

set_option maxRecDepth 100000 in
/-- C15, witness: a title line, the heading and two entries. -/
theorem C15_extract_reads_entry_blocks_witness :
    ExtractTranscriptFromMarkdown exampleLib
        (lit "# Meeting\n\n" ++ lit "## Transcript\n\n" ++
          [(lit "Me", lit "Hello there."), (lit "Them", lit "Hi, how are you?")].flatMap
            entryBlock) =
      some ([(lit "Me", lit "Hello there."), (lit "Them", lit "Hi, how are you?")].map (fun e =>
        { ID := [], DocumentID := [], StartTimestamp := [], EndTimestamp := [],
          Text := e.2, Source := SpeakerToSource exampleLib e.1, IsFinal := false })) :=
  C15_extract_reads_entry_blocks exampleLib (lit "# Meeting\n\n")
    [(lit "Me", lit "Hello there."), (lit "Them", lit "Hi, how are you?")]
    (by decide) (by decide) (by decide) (by decide)

/-! ### The file name (filename.go) -/

theorem removeUnsafeLoop_eq (fuel : Nat) (s : GoString) :
    removeUnsafeLoop fuel s =
      ((runesLoop fuel s).filter (fun r => decide (r ∉ unsafeChars))).flatMap encodeRune := by
  induction fuel generalizing s with
  | zero => cases s <;> rfl
  | succ fuel ih =>
    cases s with
    | nil => rfl
    | cons b s =>
      simp only [removeUnsafeLoop, runesLoop, List.filter_cons, ih]
      by_cases hr : (decodeRune (b :: s)).1 ∈ unsafeChars
      · simp [hr]
      · simp [hr]

/-- The loop of `removeUnsafeChars` deletes the unsafe characters. -/
theorem removeUnsafeChars_eq (s : GoString) : removeUnsafeChars s = deleteChars unsafeChars s :=
  removeUnsafeLoop_eq s.length s

theorem safeTitleOf_eq (title : GoString) : safeTitleOf title = titleAsSpecified title := by
  have hcond : (title = [] ∨ title = lit "None" ∨ TrimSpace title = []) ↔
      (title = [] ∨ TrimSpace title = [] ∨ title = lit "None") := by tauto
  have htake : ∀ x : GoString, (if x.length > 100 then x.take 100 else x) = x.take 100 := by
    intro x
    split
    · rfl
    · rw [List.take_of_length_le (by omega)]
  unfold safeTitleOf titleAsSpecified
  simp only [removeUnsafeChars_eq]
  rw [htake, if_congr hcond rfl rfl]

set_option maxRecDepth 100000 in
/-- C16: `SafeFilename(title, date)` is `date ++ "_" ++ T ++ ".md"`, where `T`
comes from the title by the steps of the specification: "Untitled" for an
empty, blank or "None" title, the nine unsafe characters deleted, the ends
trimmed, "Untitled" if nothing is left, and at most the first 100 bytes kept.
The two examples of the specification are evaluated. -/
theorem C16_safe_filename_is_as_specified (title dateStr : GoString) :
    SafeFilename title dateStr = dateStr ++ lit "_" ++ titleAsSpecified title ++ lit ".md" ∧
    SafeFilename (lit "Acme Corp <> Globex :: Weekly Sync") (lit "2025-10-23") =
      lit "2025-10-23_Acme Corp  Globex  Weekly Sync.md" ∧
    SafeFilename (lit "<>:?*") (lit "2025-01-24") = lit "2025-01-24_Untitled.md" := by
  refine ⟨?_, by decide, by decide⟩
  unfold SafeFilename
  rw [safeTitleOf_eq]
/-! ### The bytes of a sanitized title -/

/-- A byte of the encoding of a rune is the rune itself, when that is ASCII,
or a byte from `0x80` on. -/
theorem encodeRune_bytes (r : Nat) : ∀ b ∈ encodeRune r, (r < 0x80 ∧ b = r) ∨ 0x80 ≤ b := by
  intro b hb
  unfold encodeRune at hb
  split at hb
  · simp only [List.mem_singleton] at hb
    exact Or.inl ⟨by assumption, hb⟩
  · right
    split at hb
    · simp only [List.mem_cons, List.mem_singleton, List.not_mem_nil, or_false] at hb
      omega
    · split at hb
      · simp only [List.mem_cons, List.mem_singleton, List.not_mem_nil, or_false] at hb
        omega
      · split at hb
        · simp only [List.mem_cons, List.mem_singleton, List.not_mem_nil, or_false] at hb
          omega
        · simp only [List.mem_cons, List.mem_singleton, List.not_mem_nil, or_false] at hb
          omega

theorem unsafeChars_lt (b : Nat) (h : b ∈ unsafeChars) : b < 0x80 := by
  unfold unsafeChars at h
  simp only [List.mem_cons, List.mem_singleton, List.not_mem_nil, or_false] at h
  omega

/-- The loop of `removeUnsafeChars` writes no unsafe byte. -/
theorem removeUnsafeLoop_safe (fuel : Nat) (s : GoString) :
    ∀ b ∈ removeUnsafeLoop fuel s, b ∉ unsafeChars := by
  induction fuel generalizing s with
  | zero => cases s <;> simp [removeUnsafeLoop]
  | succ fuel ih =>
    cases s with
    | nil => simp [removeUnsafeLoop]
    | cons c s =>
      intro b hb
      simp only [removeUnsafeLoop, List.mem_append] at hb
      rcases hb with hb | hb
      · split at hb
        · simp at hb
        · rename_i hr
          rcases encodeRune_bytes _ b hb with ⟨_, h2⟩ | h2
          · rw [h2]; exact hr
          · intro hu
            have := unsafeChars_lt b hu
            omega
      · exact ih _ b hb

/-- The title part is the sanitized title, cut at 100 bytes. -/
theorem safeTitleOf_cut (title : GoString) :
    safeTitleOf title =
      if (sanitizedTitle title).length > 100 then (sanitizedTitle title).take 100
      else sanitizedTitle title := rfl

theorem sanitizedTitle_safe (title : GoString) :
    sanitizedTitle title ≠ [] ∧ ∀ b ∈ sanitizedTitle title, b ∉ unsafeChars := by
  have huntitled : ∀ b ∈ lit "Untitled", b ∉ unsafeChars := by decide
  unfold sanitizedTitle
  simp only
  generalize (if title = [] ∨ title = lit "None" ∨ TrimSpace title = [] then lit "Untitled"
    else title) = title1
  split
  · exact ⟨by decide, huntitled⟩
  · rename_i hne
    exact ⟨hne, fun b hb => removeUnsafeLoop_safe _ _ b (mem_of_mem_trimSpace _ b hb)⟩

/-- The title part of a file name is never empty and holds no unsafe byte. -/
theorem safeTitleOf_safe (title : GoString) :
    safeTitleOf title ≠ [] ∧ ∀ b ∈ safeTitleOf title, b ∉ unsafeChars := by
  obtain ⟨hne, hsafe⟩ := sanitizedTitle_safe title
  rw [safeTitleOf_cut]
  generalize sanitizedTitle title = x at hne hsafe
  split
  · refine ⟨fun h => ?_, fun b hb => hsafe b (List.mem_of_mem_take hb)⟩
    have hl := congrArg List.length h
    simp only [List.length_take, List.length_nil] at hl
    omega
  · exact ⟨hne, hsafe⟩
/-! ### Valid UTF-8 is written back byte for byte -/

theorem encodeRune_two (b0 b1 : Nat) (h0 : 0xC2 ≤ b0) (h0u : b0 < 0xE0) (h1 : 0x80 ≤ b1)
    (h1u : b1 ≤ 0xBF) : encodeRune ((b0 - 0xC0) * 64 + (b1 - 0x80)) = [b0, b1] := by
  unfold encodeRune
  rw [if_neg (by omega), if_pos (by omega)]
  have e1 : 0xC0 + ((b0 - 0xC0) * 64 + (b1 - 0x80)) / 64 = b0 := by omega
  have e2 : 0x80 + ((b0 - 0xC0) * 64 + (b1 - 0x80)) % 64 = b1 := by omega
  rw [e1, e2]

theorem encodeRune_three (b0 b1 b2 : Nat) (h0 : 0xE0 ≤ b0) (h0u : b0 < 0xF0)
    (hlo : (if b0 = 0xE0 then 0xA0 else 0x80) ≤ b1)
    (hhi : b1 ≤ (if b0 = 0xED then 0x9F else 0xBF)) (h2 : 0x80 ≤ b2) (h2u : b2 ≤ 0xBF) :
    encodeRune ((b0 - 0xE0) * 4096 + (b1 - 0x80) * 64 + (b2 - 0x80)) = [b0, b1, b2] := by
  have hb1 : 0x80 ≤ b1 ∧ b1 ≤ 0xBF := by
    split at hlo <;> split at hhi <;> omega
  have hlow : 0x800 ≤ (b0 - 0xE0) * 4096 + (b1 - 0x80) * 64 + (b2 - 0x80) := by
    split at hlo <;> omega
  have hsur : ¬ (0xD800 ≤ (b0 - 0xE0) * 4096 + (b1 - 0x80) * 64 + (b2 - 0x80) ∧
      (b0 - 0xE0) * 4096 + (b1 - 0x80) * 64 + (b2 - 0x80) ≤ 0xDFFF) := by
    split at hhi <;> omega
  unfold encodeRune
  rw [if_neg (by omega), if_neg (by omega), if_neg (by omega), if_pos (by omega)]
  have e1 : 0xE0 + ((b0 - 0xE0) * 4096 + (b1 - 0x80) * 64 + (b2 - 0x80)) / 4096 = b0 := by omega
  have e2 : 0x80 + ((b0 - 0xE0) * 4096 + (b1 - 0x80) * 64 + (b2 - 0x80)) / 64 % 64 = b1 := by
    omega
  have e3 : 0x80 + ((b0 - 0xE0) * 4096 + (b1 - 0x80) * 64 + (b2 - 0x80)) % 64 = b2 := by omega
  rw [e1, e2, e3]

theorem encodeRune_four (b0 b1 b2 b3 : Nat) (h0 : 0xF0 ≤ b0) (h0u : b0 < 0xF5)
    (hlo : (if b0 = 0xF0 then 0x90 else 0x80) ≤ b1)
    (hhi : b1 ≤ (if b0 = 0xF4 then 0x8F else 0xBF)) (h2 : 0x80 ≤ b2) (h2u : b2 ≤ 0xBF)
    (h3 : 0x80 ≤ b3) (h3u : b3 ≤ 0xBF) :
    encodeRune ((b0 - 0xF0) * 262144 + (b1 - 0x80) * 4096 + (b2 - 0x80) * 64 + (b3 - 0x80)) =
      [b0, b1, b2, b3] := by
  have hb1 : 0x80 ≤ b1 ∧ b1 ≤ 0xBF := by
    split at hlo <;> split at hhi <;> omega
  have hlow : 0x10000 ≤
      (b0 - 0xF0) * 262144 + (b1 - 0x80) * 4096 + (b2 - 0x80) * 64 + (b3 - 0x80) := by
    split at hlo <;> omega
  have hup : (b0 - 0xF0) * 262144 + (b1 - 0x80) * 4096 + (b2 - 0x80) * 64 + (b3 - 0x80) ≤
      0x10FFFF := by
    split at hhi <;> omega
  unfold encodeRune
  rw [if_neg (by omega), if_neg (by omega), if_neg (by omega), if_neg (by omega)]
  have e1 : 0xF0 + ((b0 - 0xF0) * 262144 + (b1 - 0x80) * 4096 + (b2 - 0x80) * 64 +
      (b3 - 0x80)) / 262144 = b0 := by omega
  have e2 : 0x80 + ((b0 - 0xF0) * 262144 + (b1 - 0x80) * 4096 + (b2 - 0x80) * 64 +
      (b3 - 0x80)) / 4096 % 64 = b1 := by omega
  have e3 : 0x80 + ((b0 - 0xF0) * 262144 + (b1 - 0x80) * 4096 + (b2 - 0x80) * 64 +
      (b3 - 0x80)) / 64 % 64 = b2 := by omega
  have e4 : 0x80 + ((b0 - 0xF0) * 262144 + (b1 - 0x80) * 4096 + (b2 - 0x80) * 64 +
      (b3 - 0x80)) % 64 = b3 := by omega
  rw [e1, e2, e3, e4]

theorem isCont_iff (b : Nat) : isCont b = true ↔ 0x80 ≤ b ∧ b ≤ 0xBF := by
  simp [isCont]

/-- A rune read from a well-formed encoding is written back as the bytes it was
read from. -/
theorem encodeRune_decodeRune (b0 : Nat) (rest : GoString)
    (h : (decodeRune (b0 :: rest)).2 ≠ 1 ∨ b0 < 0x80) :
    encodeRune (decodeRune (b0 :: rest)).1 = (b0 :: rest).take (decodeRune (b0 :: rest)).2 := by
  unfold decodeRune at h ⊢
  by_cases h1 : b0 < 0x80
  · simp [h1, encodeRune]
  · by_cases h2 : b0 < 0xC2
    · simp [h1, h2] at h
    · by_cases h3 : b0 < 0xE0
      · cases rest with
        | nil => simp [h1, h2, h3] at h
        | cons b1 r1 =>
          by_cases hc : isCont b1 = true
          · simp only [h1, h2, h3, hc, if_false, if_true]
            rw [encodeRune_two b0 b1 (by omega) h3 ((isCont_iff b1).1 hc).1 ((isCont_iff b1).1 hc).2]
            rfl
          · simp [h1, h2, h3, hc] at h
      · by_cases h4 : b0 < 0xF0
        · rcases rest with _ | ⟨b1, _ | ⟨b2, r2⟩⟩
          · simp [h1, h2, h3, h4] at h
          · simp [h1, h2, h3, h4] at h
          · by_cases hc : ((if b0 = 0xE0 then 0xA0 else 0x80) ≤ b1 ∧
                b1 ≤ (if b0 = 0xED then 0x9F else 0xBF) ∧ isCont b2 = true)
            · simp only [h1, h2, h3, h4, if_false, if_true, if_pos hc]
              rw [encodeRune_three b0 b1 b2 (by omega) h4 hc.1 hc.2.1
                ((isCont_iff b2).1 hc.2.2).1 ((isCont_iff b2).1 hc.2.2).2]
              rfl
            · simp only [h1, h2, h3, h4, if_false, if_true, if_neg hc] at h
              simp at h
        · by_cases h5 : b0 < 0xF5
          · rcases rest with _ | ⟨b1, _ | ⟨b2, _ | ⟨b3, r3⟩⟩⟩
            · simp [h1, h2, h3, h4, h5] at h
            · simp [h1, h2, h3, h4, h5] at h
            · simp [h1, h2, h3, h4, h5] at h
            · by_cases hc : ((if b0 = 0xF0 then 0x90 else 0x80) ≤ b1 ∧
                  b1 ≤ (if b0 = 0xF4 then 0x8F else 0xBF) ∧ isCont b2 = true ∧ isCont b3 = true)
              · simp only [h1, h2, h3, h4, h5, if_false, if_true, if_pos hc]
                rw [encodeRune_four b0 b1 b2 b3 (by omega) h5 hc.1 hc.2.1
                  ((isCont_iff b2).1 hc.2.2.1).1 ((isCont_iff b2).1 hc.2.2.1).2
                  ((isCont_iff b3).1 hc.2.2.2).1 ((isCont_iff b3).1 hc.2.2.2).2]
                rfl
              · simp only [h1, h2, h3, h4, h5, if_false, if_true, if_neg hc] at h
                simp at h
          · simp [h1, h2, h3, h4, h5] at h
theorem removeUnsafeLoop_valid (fuel : Nat) (s : GoString) (hf : s.length ≤ fuel)
    (hv : validLoop fuel s = true) :
    removeUnsafeLoop fuel s = s.filter (fun b => decide (b ∉ unsafeChars)) := by
  induction fuel generalizing s with
  | zero =>
    cases s with
    | nil => rfl
    | cons b s => simp at hf
  | succ fuel ih =>
    cases s with
    | nil => rfl
    | cons b rest =>
      simp only [validLoop, Bool.and_eq_true, Bool.or_eq_true, decide_eq_true_eq] at hv
      obtain ⟨hstep, hrest⟩ := hv
      have henc := encodeRune_decodeRune b rest hstep
      have hw := decodeRune_width_pos b rest
      have hlen : ((b :: rest).drop (decodeRune (b :: rest)).2).length ≤ fuel := by
        simp only [List.length_drop, List.length_cons] at hf ⊢
        omega
      have hsplit : (b :: rest).filter (fun b => decide (b ∉ unsafeChars)) =
          ((b :: rest).take (decodeRune (b :: rest)).2).filter (fun b => decide (b ∉ unsafeChars)) ++
          ((b :: rest).drop (decodeRune (b :: rest)).2).filter
            (fun b => decide (b ∉ unsafeChars)) := by
        rw [← List.filter_append, List.take_append_drop]
      rw [hsplit, ← ih _ hlen hrest, ← henc]
      simp only [removeUnsafeLoop]
      congr 1
      by_cases hr : (decodeRune (b :: rest)).1 ∈ unsafeChars
      · have hlt := unsafeChars_lt _ hr
        rw [if_pos hr]
        have he : encodeRune (decodeRune (b :: rest)).1 = [(decodeRune (b :: rest)).1] := by
          unfold encodeRune
          rw [if_pos hlt]
        rw [he]
        simp [hr]
      · rw [if_neg hr]
        symm
        rw [List.filter_eq_self]
        intro c hc
        simp only [decide_eq_true_eq]
        rcases encodeRune_bytes _ c hc with ⟨_, h2⟩ | h2
        · rw [h2]; exact hr
        · intro hu
          have := unsafeChars_lt c hu
          omega

/-- On a valid UTF-8 string `removeUnsafeChars` deletes the unsafe bytes and
keeps every other byte as it is, in order. -/
theorem removeUnsafeChars_valid (s : GoString) (hv : ValidString s = true) :
    removeUnsafeChars s = s.filter (fun b => decide (b ∉ unsafeChars)) :=
  removeUnsafeLoop_valid s.length s (Nat.le_refl _) hv
set_option maxRecDepth 100000 in
/-- C17 (as amended): the title part of the result of `SafeFilename`, between
`date ++ "_"` and ".md", is never empty and holds none of the nine unsafe
characters.  When the title is not "None" and has no white space at either
end, and the title without the unsafe characters is not empty, has no white
space at either end and is at most 100 bytes long, the title part is the title
without the unsafe characters; for a title that is valid UTF-8 every other
byte is kept as it is and in order, as in the example with a non-ASCII
letter. -/
theorem C17_title_part_is_safe (title dateStr : GoString) :
    SafeFilename title dateStr = dateStr ++ lit "_" ++ safeTitleOf title ++ lit ".md" ∧
    safeTitleOf title ≠ [] ∧ (∀ b ∈ safeTitleOf title, b ∉ unsafeChars) ∧
    (TrimSpace title = title → title ≠ lit "None" →
      deleteChars unsafeChars title ≠ [] →
      TrimSpace (deleteChars unsafeChars title) = deleteChars unsafeChars title →
      (deleteChars unsafeChars title).length ≤ 100 →
      safeTitleOf title = deleteChars unsafeChars title ∧
      (ValidString title = true →
        safeTitleOf title = title.filter (fun b => decide (b ∉ unsafeChars)))) ∧
    safeTitleOf (lit "Dennis Schröpfer: Next Steps") = lit "Dennis Schröpfer Next Steps" := by
  refine ⟨rfl, (safeTitleOf_safe title).1, (safeTitleOf_safe title).2, ?_, by decide⟩
  intro htrim hnone hne htrimD hlen
  have htitle : title ≠ [] := by
    intro h
    rw [h] at hne
    exact hne rfl
  have hcond : ¬ (title = [] ∨ title = lit "None" ∨ TrimSpace title = []) := by
    rintro (h | h | h)
    · exact htitle h
    · exact hnone h
    · rw [htrim] at h
      exact htitle h
  have hsan : sanitizedTitle title = deleteChars unsafeChars title := by
    unfold sanitizedTitle
    simp only
    rw [if_neg hcond, removeUnsafeChars_eq, htrimD, if_neg hne]
  have hmain : safeTitleOf title = deleteChars unsafeChars title := by
    rw [safeTitleOf_cut, hsan, if_neg (by omega)]
  refine ⟨hmain, fun hv => ?_⟩
  rw [hmain, ← removeUnsafeChars_eq, removeUnsafeChars_valid title hv]

set_option maxRecDepth 100000 in
/-- C17, the claim as stated fails: the title "Why ?" has no white space at
either end and is not "None", and without the question mark it is "Why ", not
empty and four bytes long; the title part is "Why", since the space that the
deletion leaves at the end is trimmed. -/
theorem C17_counterexample_deletion_leaves_space :
    TrimSpace (lit "Why ?") = lit "Why ?" ∧ lit "Why ?" ≠ lit "None" ∧
    deleteChars unsafeChars (lit "Why ?") = lit "Why " ∧
    (lit "Why " : GoString) ≠ [] ∧ (lit "Why ").length ≤ 100 ∧
    SafeFilename (lit "Why ?") (lit "2025-01-24") = lit "2025-01-24_Why.md" ∧
    safeTitleOf (lit "Why ?") = lit "Why" ∧
    safeTitleOf (lit "Why ?") ≠ deleteChars unsafeChars (lit "Why ?") := by
  decide
/-! ### The truncation of a long title -/

/-- A sanitized title of more than 100 bytes is cut to its first 100 bytes. -/
theorem safeTitleOf_long (title dateStr : GoString) (h : (sanitizedTitle title).length > 100) :
    safeTitleOf title = (sanitizedTitle title).take 100 ∧ (safeTitleOf title).length = 100 ∧
    (SafeFilename title dateStr).length = dateStr.length + 1 + 100 + 3 := by
  have h1 : safeTitleOf title = (sanitizedTitle title).take 100 := by
    rw [safeTitleOf_cut, if_pos h]
  have h2 : (safeTitleOf title).length = 100 := by
    rw [h1, List.length_take]
    omega
  refine ⟨h1, h2, ?_⟩
  have hu : (lit "_").length = 1 := by decide
  have hm : (lit ".md").length = 3 := by decide
  unfold SafeFilename
  simp only [List.length_append, h2, hu, hm]

/-- An ASCII string has as many characters as bytes. -/
theorem runeCountLoop_ascii (fuel : Nat) (s : GoString) (hf : s.length ≤ fuel)
    (h : ∀ b ∈ s, b < 0x80) : runeCountLoop fuel s = s.length := by
  induction fuel generalizing s with
  | zero =>
    cases s with
    | nil => rfl
    | cons b s => simp at hf
  | succ fuel ih =>
    cases s with
    | nil => rfl
    | cons b s =>
      have hb := h b (List.mem_cons_self _ _)
      have hd : decodeRune (b :: s) = (b, 1) := by
        simp [decodeRune, hb]
      simp only [runeCountLoop, hd, List.drop_succ_cons, List.drop_zero, List.length_cons]
      rw [ih s (by simpa using hf) (fun c hc => h c (List.mem_cons_of_mem _ hc))]
      omega

set_option maxRecDepth 1000000 in
/-- C18, the code at a title of 101 characters, "A" followed by a hundred "é":
the title is valid UTF-8 and is its own sanitized form, 201 bytes long.  The
title part is its first 100 bytes, which are 51 characters, the last one the
first byte of a cut "é", so the title part is not valid UTF-8. -/
theorem C18_title_is_cut_at_byte_100 :
    ValidString exampleLongTitle = true ∧ RuneCountInString exampleLongTitle = 101 ∧
    sanitizedTitle exampleLongTitle = exampleLongTitle ∧
    safeTitleOf exampleLongTitle = exampleLongTitle.take 100 ∧
    (safeTitleOf exampleLongTitle).length = 100 ∧
    RuneCountInString (safeTitleOf exampleLongTitle) = 51 ∧
    (safeTitleOf exampleLongTitle).getLast? = some 0xC3 ∧
    ValidString (safeTitleOf exampleLongTitle) = false := by
  decide
/-- For an ASCII sanitized title of more than 100 bytes the title part has
exactly 100 characters. -/
theorem safeTitleOf_long_ascii (title : GoString) (h : (sanitizedTitle title).length > 100)
    (hascii : ∀ b ∈ sanitizedTitle title, b < 0x80) :
    RuneCountInString (safeTitleOf title) = 100 := by
  obtain ⟨h1, h2, _⟩ := safeTitleOf_long title [] h
  unfold RuneCountInString
  rw [runeCountLoop_ascii _ _ (Nat.le_refl _), h2]
  intro b hb
  rw [h1] at hb
  exact hascii b (List.mem_of_mem_take hb)

/-! ### The notes of a document (document.go) -/

/-- C19: `GetNotes` returns `notes_markdown` when that is not empty and
`notes_plain` otherwise (which may be empty); so the rendering of a document
with non-empty `notes_markdown` is the same whatever `notes_plain` holds. -/
theorem C19_notes_markdown_is_preferred (go : GoLib) (doc : Document) (plain : GoString)
    (transcript : List TranscriptEntry) :
    (doc.NotesMarkdown ≠ [] → GetNotes doc = doc.NotesMarkdown) ∧
    (doc.NotesMarkdown = [] → GetNotes doc = doc.NotesPlain) ∧
    (doc.NotesMarkdown ≠ [] →
      FormatDocumentMarkdown go { doc with NotesPlain := plain } transcript =
        FormatDocumentMarkdown go doc transcript) := by
  refine ⟨fun h => ?_, fun h => ?_, fun h => ?_⟩
  · unfold GetNotes
    rw [if_pos h]
  · unfold GetNotes
    rw [if_neg (not_not.mpr h)]
  · have hn : GetNotes { doc with NotesPlain := plain } = GetNotes doc := by
      unfold GetNotes
      simp only
      rw [if_pos h, if_pos h]
    unfold FormatDocumentMarkdown documentLines hasNotes
    rw [hn]

/-! ### The speaker label of a source (formatter.go) -/

/-- A source that begins with an ASCII byte and is neither "microphone" nor
"system" is labelled by itself, the first byte upper-cased when it is a
lower-case letter. -/
theorem sourceToSpeaker_ascii (b : Nat) (rest : GoString) (hb : b < 0x80)
    (h1 : b :: rest ≠ lit "microphone") (h2 : b :: rest ≠ lit "system") :
    SourceToSpeaker (b :: rest) = (if 0x61 ≤ b ∧ b ≤ 0x7A then b - 0x20 else b) :: rest := by
  unfold SourceToSpeaker
  rw [if_neg h1, if_neg h2]
  simp only [toUpperByte, if_pos hb, List.singleton_append]

set_option maxRecDepth 100000 in
/-- C20, the code at the source "élan": "microphone", "system" and the empty
source are labelled "Me", "Them" and "Unknown", and "speaker1" is labelled
"Speaker1";
but of "élan", four characters, the first byte alone is upper-cased, which is
no character and is written as U+FFFD, and the second byte of the "é" follows
it.  The label is not valid UTF-8 and is not a character followed by "lan". -/
theorem C20_first_byte_is_upper_cased :
    SourceToSpeaker (lit "microphone") = lit "Me" ∧ SourceToSpeaker (lit "system") = lit "Them" ∧
    SourceToSpeaker (lit "") = lit "Unknown" ∧ SourceToSpeaker (lit "speaker1") = lit "Speaker1" ∧
    RuneCountInString (lit "élan") = 4 ∧ ValidString (lit "élan") = true ∧
    SourceToSpeaker (lit "élan") = [0xEF, 0xBF, 0xBD, 0xA9, 0x6C, 0x61, 0x6E] ∧
    ValidString (SourceToSpeaker (lit "élan")) = false ∧
    ¬ ∃ r, SourceToSpeaker (lit "élan") = encodeRune r ++ lit "lan" := by
  have hL : SourceToSpeaker (lit "élan") = [0xEF, 0xBF, 0xBD, 0xA9, 0x6C, 0x61, 0x6E] := by decide
  refine ⟨by decide, by decide, by decide, by decide, by decide, by decide, hL, by decide, ?_⟩
  rintro ⟨r, h⟩
  have hlan : lit "lan" = [0x6C, 0x61, 0x6E] := by decide
  rw [hL, hlan] at h
  unfold encodeRune at h
  split at h
  · simp at h
  · split at h
    · simp at h
    · split at h
      · simp at h
      · split at h
        · simp at h
        · simp only [List.cons_append, List.nil_append, List.cons.injEq] at h
          omega

/-! ### The source of a speaker label (extractor.go) -/

/-- C21: `SpeakerToSource` maps "Me" to "microphone", "Them" to "system" and
every other label to `strings.ToLower` of the label, which for an ASCII label
is the label with every upper-case letter replaced by its lower-case letter.
The labels of the test of the repository are evaluated. -/
theorem C21_speaker_to_source (go : GoLib) (speaker : GoString) :
    SpeakerToSource go (lit "Me") = lit "microphone" ∧
    SpeakerToSource go (lit "Them") = lit "system" ∧
    (speaker ≠ lit "Me" → speaker ≠ lit "Them" → SpeakerToSource go speaker = ToLower go speaker) ∧
    ((∀ b ∈ speaker, b < 0x80) → ToLower go speaker = speaker.map asciiLower) ∧
    SpeakerToSource go (lit "Speaker1") = lit "speaker1" ∧
    SpeakerToSource go (lit "Unknown") = lit "unknown" := by
  refine ⟨rfl, rfl, fun h1 h2 => ?_, fun h => ?_, rfl, rfl⟩
  · unfold SpeakerToSource
    rw [if_neg h1, if_neg h2]
  · unfold ToLower
    rw [if_pos]
    rw [List.all_eq_true]
    intro b hb
    exact decide_eq_true (h b hb)

/-! ### Blank entries in a rendering (formatter.go) -/

/-- C22 (as amended): an entry list that is empty or has an entry whose trimmed
text is not empty is rendered like the list without its blank entries; and for
every entry list the lines of the entries are those of the list without its
blank entries. -/
theorem C22_blank_entries_are_dropped (go : GoLib) (doc : Document)
    (entries : List TranscriptEntry) (h : entries = [] ∨ nonBlank entries ≠ []) :
    FormatDocumentMarkdown go doc entries = FormatDocumentMarkdown go doc (nonBlank entries) ∧
    transcriptLines entries = transcriptLines (nonBlank entries) := by
  refine ⟨?_, (transcriptLines_nonBlank entries).symm⟩
  apply format_of_shown go doc entries (nonBlank entries) (shownEntries_nonBlank entries).symm
  constructor
  · intro he
    rw [he]
    rfl
  · intro hn
    rcases h with h | h
    · exact h
    · exact absurd hn h

set_option maxRecDepth 100000 in
/-- C22, witness: the three entries of the test of the repository, one with a
text and two blank ones. -/
theorem C22_blank_entries_are_dropped_witness :
    FormatDocumentMarkdown exampleLib exampleDoc
        [{ Text := lit "Valid entry", Source := lit "microphone" },
         { Text := lit "", Source := lit "system" },
         { Text := lit "   ", Source := lit "microphone" }] =
      FormatDocumentMarkdown exampleLib exampleDoc
        (nonBlank [{ Text := lit "Valid entry", Source := lit "microphone" },
         { Text := lit "", Source := lit "system" },
         { Text := lit "   ", Source := lit "microphone" }]) ∧
    transcriptLines [{ Text := lit "Valid entry", Source := lit "microphone" },
         { Text := lit "", Source := lit "system" },
         { Text := lit "   ", Source := lit "microphone" }] =
      transcriptLines (nonBlank [{ Text := lit "Valid entry", Source := lit "microphone" },
         { Text := lit "", Source := lit "system" },
         { Text := lit "   ", Source := lit "microphone" }]) :=
  C22_blank_entries_are_dropped exampleLib exampleDoc
    [{ Text := lit "Valid entry", Source := lit "microphone" },
     { Text := lit "", Source := lit "system" },
     { Text := lit "   ", Source := lit "microphone" }] (Or.inr (by decide))

set_option maxRecDepth 100000 in
/-- C22, the claim as stated fails: a list with one blank entry.  Without the
entry the list is empty and the rendering ends after the notes; with it the
rendering goes on with a separator and the transcript heading. -/
theorem C22_counterexample_blank_entry_leaves_heading :
    nonBlank [{ Text := lit "   ", Source := lit "microphone" }] = [] ∧
    FormatDocumentMarkdown exampleLib exampleDoc [] = lit
      "# T\nDate: Unknown date\nMeeting ID: d\n\n---\n\n## AI-Generated Notes\n\nSome notes here\n" ∧
    FormatDocumentMarkdown exampleLib exampleDoc
        [{ Text := lit "   ", Source := lit "microphone" }] = lit
      "# T\nDate: Unknown date\nMeeting ID: d\n\n---\n\n## AI-Generated Notes\n\nSome notes here\n\n---\n\n## Transcript\n" ∧
    FormatDocumentMarkdown exampleLib exampleDoc
        [{ Text := lit "   ", Source := lit "microphone" }] ≠
      FormatDocumentMarkdown exampleLib exampleDoc
        (nonBlank [{ Text := lit "   ", Source := lit "microphone" }]) := by
  decide
/-! ### A merged file is a fixed point of extract-then-render -/

/-- C29: for a document whose title, id and notes do not contain
"## Transcript" and every text `F`, with `E` the entries extracted from `F`:
rendering the document with the entries extracted from the rendering of the
document with `E` gives the rendering of the document with `E` again. -/
theorem C29_merged_file_is_fixed_point (go : GoLib) (doc : Document) (F : GoString)
    (htitle : Contains doc.Title (lit "## Transcript") = false)
    (hid : Contains doc.ID (lit "## Transcript") = false)
    (hnotes : Contains (GetNotes doc) (lit "## Transcript") = false) :
    FormatDocumentMarkdown go doc (sliceOf (ExtractTranscriptFromMarkdown go
        (FormatDocumentMarkdown go doc (sliceOf (ExtractTranscriptFromMarkdown go F))))) =
      FormatDocumentMarkdown go doc (sliceOf (ExtractTranscriptFromMarkdown go F)) := by
  have hlit : lit "## Transcript" = transcriptHeading := rfl
  rw [hlit] at htitle hid hnotes
  have hfree : headingFree doc = true := by
    unfold headingFree
    rw [htitle, hid, hnotes]
    rfl
  exact format_extract_fixed go doc F hfree

set_option maxRecDepth 100000 in
/-- C29, witness: `exampleDoc` and the text of an earlier export with one
entry. -/
theorem C29_merged_file_is_fixed_point_witness :
    FormatDocumentMarkdown exampleLib exampleDoc (sliceOf (ExtractTranscriptFromMarkdown exampleLib
        (FormatDocumentMarkdown exampleLib exampleDoc (sliceOf (ExtractTranscriptFromMarkdown
          exampleLib (FormatDocumentMarkdown exampleLib examplePriorDoc examplePriorEntries)))))) =
      FormatDocumentMarkdown exampleLib exampleDoc (sliceOf (ExtractTranscriptFromMarkdown
        exampleLib (FormatDocumentMarkdown exampleLib examplePriorDoc examplePriorEntries))) ∧
    sliceOf (ExtractTranscriptFromMarkdown exampleLib
        (FormatDocumentMarkdown exampleLib examplePriorDoc examplePriorEntries)) =
      examplePriorEntries :=
  ⟨C29_merged_file_is_fixed_point exampleLib exampleDoc
    (FormatDocumentMarkdown exampleLib examplePriorDoc examplePriorEntries)
    (by decide) (by decide) (by decide), by decide⟩

/-! ### Every candidate has one outcome -/

theorem exportable_length (state : CacheState) :
    (exportable state).length =
      (state.Documents.filter (fun p => HasExportableContent p.2 state.Transcripts)).length := by
  unfold exportable
  induction state.Documents with
  | nil => rfl
  | cons p docs ih =>
    by_cases hp : HasExportableContent p.2 state.Transcripts = true
    · simp only [List.map_cons, List.filter_cons, hp, if_true, List.length_cons, ih]
    · have hp1 : HasExportableContent p.2 state.Transcripts = false := by simpa using hp
      simp only [List.map_cons, List.filter_cons, hp1, Bool.false_eq_true, if_false, ih]

/-- C30: when `Export` returns a result, `Written + Skipped + Empty +
len(Errors)` is the number of documents of the cache state for which
`HasExportableContent` holds. -/
theorem C30_every_candidate_has_one_outcome (go : GoLib) (os : Os) (state : CacheState)
    (dir dir1 : Dir) (result : ExportResult)
    (h : Export go os state dir = some (result, dir1)) :
    result.Written + result.Skipped + result.Empty + result.Errors.length =
      (state.Documents.filter (fun p => HasExportableContent p.2 state.Transcripts)).length := by
  have hmk : os.mkdirAll = true := by
    by_contra hno
    simp [Export, hno] at h
  simp only [Export, hmk, if_true, Option.some.injEq] at h
  have hr := congrArg Prod.fst h
  simp only at hr
  obtain ⟨hsum, _⟩ := exportLoop_accounts go os state.Transcripts (exportable state)
    ⟨0, 0, 0, []⟩ dir
  rw [hr] at hsum
  rw [← exportable_length, hsum]
  simp

set_option maxRecDepth 100000 in
/-- C30, witness: four documents, one without content, one already exported
and unchanged, one without notes and with an empty entry list, and one that
is new: three candidates, one skipped, one empty and one written. -/
theorem C30_every_candidate_has_one_outcome_witness :
    Export exampleLib exampleOs exampleMixedState exampleDirWithDoc =
      some (⟨1, 1, 1, []⟩,
        exampleDirWithDoc ++ [(lit "unknown-date_U.md", Node.file (lit
          "# U\nDate: Unknown date\nMeeting ID: f\n\n---\n\n## AI-Generated Notes\n\nSome other notes\n")
          true true)]) ∧
    (ExportResult.mk 1 1 1 []).Written + (ExportResult.mk 1 1 1 []).Skipped +
        (ExportResult.mk 1 1 1 []).Empty + (ExportResult.mk 1 1 1 []).Errors.length =
      (exampleMixedState.Documents.filter
        (fun p => HasExportableContent p.2 exampleMixedState.Transcripts)).length :=
  ⟨by decide, C30_every_candidate_has_one_outcome exampleLib exampleOs exampleMixedState
    exampleDirWithDoc (exampleDirWithDoc ++ [(lit "unknown-date_U.md", Node.file (lit
      "# U\nDate: Unknown date\nMeeting ID: f\n\n---\n\n## AI-Generated Notes\n\nSome other notes\n")
      true true)]) ⟨1, 1, 1, []⟩ (by decide)⟩
/-! ### The order of the documents -/

/-- C27 (as amended): when the candidates have pairwise distinct file names,
two exports of the same documents in any two orders, from the same directory,
leave the same node under every file name, with the same bytes, and return the
same counters and the same number of errors. -/
theorem C27_order_does_not_change_files (go : GoLib) (os : Os) (state state2 : CacheState)
    (dir dir1 dir2 : Dir) (r1 r2 : ExportResult)
    (hT : state2.Transcripts = state.Transcripts)
    (hD : state2.Documents.Perm state.Documents)
    (hdistinct : ((exportable state).map (outputPath go)).Nodup)
    (h1 : Export go os state dir = some (r1, dir1))
    (h2 : Export go os state2 dir = some (r2, dir2)) :
    (∀ q, dir1.lookup q = dir2.lookup q) ∧
    r1.Written = r2.Written ∧ r1.Skipped = r2.Skipped ∧ r1.Empty = r2.Empty ∧
    r1.Errors.length = r2.Errors.length := by
  have hperm : (exportable state2).Perm (exportable state) := by
    unfold exportable
    rw [hT]
    exact (hD.map Prod.snd).filter _
  have hdistinct2 : ((exportable state2).map (outputPath go)).Nodup :=
    ((hperm.map (outputPath go)).nodup_iff).2 hdistinct
  have hmk : os.mkdirAll = true := by
    by_contra hno
    simp [Export, hno] at h1
  simp only [Export, hmk, if_true, Option.some.injEq] at h1 h2
  rw [hT] at h2
  have hr1 : (exportLoop go os state.Transcripts (exportable state) ⟨0, 0, 0, []⟩ dir).1 = r1 :=
    congrArg Prod.fst h1
  have hd1 : (exportLoop go os state.Transcripts (exportable state) ⟨0, 0, 0, []⟩ dir).2 = dir1 :=
    congrArg Prod.snd h1
  have hr2 : (exportLoop go os state.Transcripts (exportable state2) ⟨0, 0, 0, []⟩ dir).1 = r2 :=
    congrArg Prod.fst h2
  have hd2 : (exportLoop go os state.Transcripts (exportable state2) ⟨0, 0, 0, []⟩ dir).2 = dir2 :=
    congrArg Prod.snd h2
  obtain ⟨fa, fb, f1, f2, f3, f4⟩ := exportLoop_first go os state.Transcripts (exportable state)
    ⟨0, 0, 0, []⟩ dir hdistinct
  obtain ⟨ga, gb, g1, g2, g3, g4⟩ := exportLoop_first go os state.Transcripts (exportable state2)
    ⟨0, 0, 0, []⟩ dir hdistinct2
  rw [hd1] at fa fb
  rw [hr1] at f1 f2 f3 f4
  rw [hd2] at ga gb
  rw [hr2] at g1 g2 g3 g4
  refine ⟨fun q => ?_, ?_, ?_, ?_, ?_⟩
  · by_cases hq : ∃ d ∈ exportable state, q = outputPath go d
    · obtain ⟨d, hd, rfl⟩ := hq
      rw [fb d hd ⟨0, 0, 0, []⟩, gb d (hperm.mem_iff.2 hd) ⟨0, 0, 0, []⟩]
    · have hq1 : ∀ d ∈ exportable state, q ≠ outputPath go d := fun d hd he => hq ⟨d, hd, he⟩
      rw [fa q hq1, ga q (fun d hd => hq1 d (hperm.mem_iff.1 hd))]
  · rw [f1, g1, hperm.countP_eq]
  · rw [f2, g2, hperm.countP_eq]
  · rw [f3, g3, hperm.countP_eq]
  · rw [f4, g4, hperm.countP_eq]

set_option maxRecDepth 100000 in
/-- C27, witness: two documents with different titles, exported in both
orders into an empty directory. -/
theorem C27_order_does_not_change_files_witness :
    (∀ q, List.lookup q
        [(lit "unknown-date_T.md", Node.file (lit
          "# T\nDate: Unknown date\nMeeting ID: d\n\n---\n\n## AI-Generated Notes\n\nSome notes here\n")
          true true),
         (lit "unknown-date_U.md", Node.file (lit
          "# U\nDate: Unknown date\nMeeting ID: f\n\n---\n\n## AI-Generated Notes\n\nSome other notes\n")
          true true)] =
      List.lookup q
        [(lit "unknown-date_U.md", Node.file (lit
          "# U\nDate: Unknown date\nMeeting ID: f\n\n---\n\n## AI-Generated Notes\n\nSome other notes\n")
          true true),
         (lit "unknown-date_T.md", Node.file (lit
          "# T\nDate: Unknown date\nMeeting ID: d\n\n---\n\n## AI-Generated Notes\n\nSome notes here\n")
          true true)]) ∧
    (ExportResult.mk 2 0 0 []).Written = (ExportResult.mk 2 0 0 []).Written ∧
    (ExportResult.mk 2 0 0 []).Skipped = (ExportResult.mk 2 0 0 []).Skipped ∧
    (ExportResult.mk 2 0 0 []).Empty = (ExportResult.mk 2 0 0 []).Empty ∧
    (ExportResult.mk 2 0 0 []).Errors.length = (ExportResult.mk 2 0 0 []).Errors.length :=
  C27_order_does_not_change_files exampleLib exampleOs
    ⟨[(lit "d", exampleDoc), (lit "f", exampleDocOtherName)], []⟩
    ⟨[(lit "f", exampleDocOtherName), (lit "d", exampleDoc)], []⟩ [] _ _ _ _
    rfl (List.Perm.swap _ _ _) (by decide) (by decide) (by decide)

set_option maxRecDepth 100000 in
/-- C27, the claim as stated fails: two documents with the same title and
date, exported in both orders into an empty directory.  The one file holds the
document that came last. -/
theorem C27_counterexample_same_name_last_wins :
    Export exampleLib exampleOs ⟨[(lit "d", exampleDoc), (lit "e", exampleDocSameName)], []⟩ [] =
      some (⟨2, 0, 0, []⟩,
        [(lit "unknown-date_T.md", Node.file (lit
          "# T\nDate: Unknown date\nMeeting ID: e\n\n---\n\n## AI-Generated Notes\n\nSome other notes\n")
          true true)]) ∧
    Export exampleLib exampleOs ⟨[(lit "e", exampleDocSameName), (lit "d", exampleDoc)], []⟩ [] =
      some (⟨2, 0, 0, []⟩,
        [(lit "unknown-date_T.md", Node.file (lit
          "# T\nDate: Unknown date\nMeeting ID: d\n\n---\n\n## AI-Generated Notes\n\nSome notes here\n")
          true true)]) := by
  decide

/-! ### The two date functions (formatter.go) -/

theorem decimalLoop_length (k : Nat) : ∀ (fuel n : Nat) (acc : GoString),
    n < 10 ^ (k + 1) → n < fuel →
      acc.length + 1 ≤ (decimalLoop fuel n acc).length ∧
      (decimalLoop fuel n acc).length ≤ acc.length + k + 1 := by
  induction k with
  | zero =>
    intro fuel n acc hn hf
    cases fuel with
    | zero => omega
    | succ f =>
      have h10 : n < 10 := by simpa using hn
      simp [decimalLoop, h10]
  | succ k ih =>
    intro fuel n acc hn hf
    cases fuel with
    | zero => omega
    | succ f =>
      by_cases h10 : n < 10
      · simp only [decimalLoop, h10, if_true, List.length_cons]
        omega
      · have hdiv : n / 10 < 10 ^ (k + 1) := by
          apply Nat.div_lt_of_lt_mul
          rw [pow_succ] at hn
          omega
        have := ih f (n / 10) ((48 + n % 10) :: acc) hdiv (by omega)
        simp only [decimalLoop, h10, if_false, List.length_cons] at this ⊢
        omega

/-- A number below `10 ^ width` is written with exactly `width` digits. -/
theorem appendInt_length (x k : Nat) (hx : x < 10 ^ (k + 1)) :
    (appendInt x (k + 1)).length = k + 1 := by
  have h := decimalLoop_length k (x + 1) x [] hx (by omega)
  unfold appendInt
  simp only [List.length_append, List.length_replicate, List.length_nil] at h ⊢
  omega

theorem appendInt_ne_nil (x width : Nat) : appendInt x width ≠ [] := by
  have hpow : x < 10 ^ (x + 1) :=
    lt_trans (Nat.lt_succ_self x) (Nat.lt_pow_self (by norm_num : 1 < 10) (x + 1))
  have h := (decimalLoop_length x (x + 1) x [] hpow (Nat.lt_succ_self x)).1
  simp only [List.length_nil] at h
  intro hnil
  have hl := congrArg List.length hnil
  unfold appendInt at hl
  simp only [List.length_append, List.length_replicate, List.length_nil] at hl
  omega

/-- The text of a date begins with a digit. -/
theorem appendInt_head (x width : Nat) (rest : GoString) :
    ∃ b t, appendInt x width ++ rest = b :: t ∧ 48 ≤ b ∧ b ≤ 57 := by
  cases h : appendInt x width with
  | nil => exact absurd h (appendInt_ne_nil x width)
  | cons b t =>
    have hb := appendInt_digits x width b (by rw [h]; exact List.mem_cons_self _ _)
    exact ⟨b, t ++ rest, rfl, hb.1, hb.2⟩

/-- C26: both date functions run the same loop over the same four layouts.
`FormatDateForFilename` returns "unknown-date" exactly when `FormatDate` returns
"Unknown date"; otherwise, `time.Parse` reading a year of four digits and a
month and a day of two, its result is the first 10 bytes of the result of
`FormatDate`. -/
theorem C26_filename_date_is_date_prefix (go : GoLib) (timestamp : GoString)
    (hrange : ∀ layout year month day hour minute,
      go.timeParse layout timestamp = some (year, month, day, hour, minute) →
        year < 10000 ∧ month < 100 ∧ day < 100) :
    (FormatDateForFilename go timestamp = lit "unknown-date" ↔
      FormatDate go timestamp = lit "Unknown date") ∧
    (FormatDate go timestamp ≠ lit "Unknown date" →
      FormatDateForFilename go timestamp = (FormatDate go timestamp).take 10) := by
  have hrange2 : ∀ (layouts : List GoString) year month day hour minute,
      parseLoop go timestamp layouts = some (year, month, day, hour, minute) →
        year < 10000 ∧ month < 100 ∧ day < 100 := by
    intro layouts
    induction layouts with
    | nil => intro _ _ _ _ _ h; simp [parseLoop] at h
    | cons l ls ih =>
      intro year month day hour minute h
      rw [parseLoop] at h
      cases hp : go.timeParse l timestamp with
      | none =>
        rw [hp] at h
        exact ih _ _ _ _ _ h
      | some t =>
        rw [hp] at h
        simp only [Option.some.injEq] at h
        rw [h] at hp
        exact hrange _ _ _ _ _ _ hp
  have hu1 : ∀ b t, (b :: t : GoString) = lit "unknown-date" → b = 117 := by
    intro b t h
    have h2 : lit "unknown-date" = 117 :: lit "nknown-date" := by decide
    rw [h2] at h
    exact (List.cons.inj h).1
  have hu2 : ∀ b t, (b :: t : GoString) = lit "Unknown date" → b = 85 := by
    intro b t h
    have h2 : lit "Unknown date" = 85 :: lit "nknown date" := by decide
    rw [h2] at h
    exact (List.cons.inj h).1
  unfold FormatDateForFilename FormatDate
  by_cases he : timestamp = []
  · simp [he]
  · rw [if_neg he, if_neg he]
    cases hp : parseLoop go timestamp dateLayouts with
    | none => simp
    | some t =>
      obtain ⟨year, month, day, hour, minute⟩ := t
      obtain ⟨hy, hm, hd⟩ := hrange2 _ _ _ _ _ _ hp
      simp only
      have hly := appendInt_length year 3 (by simpa using hy)
      have hlm := appendInt_length month 1 (by simpa using hm)
      have hld := appendInt_length day 1 (by simpa using hd)
      have hdash : (lit "-").length = 1 := by decide
      constructor
      · constructor
        · intro h
          obtain ⟨b, t, hbt, hb1, hb2⟩ := appendInt_head year 4
            (lit "-" ++ appendInt month 2 ++ lit "-" ++ appendInt day 2)
          simp only [List.append_assoc] at h hbt
          rw [hbt] at h
          have := hu1 b t h
          omega
        · intro h
          obtain ⟨b, t, hbt, hb1, hb2⟩ := appendInt_head year 4
            (lit "-" ++ appendInt month 2 ++ lit "-" ++ appendInt day 2 ++ lit " " ++
              appendInt hour 2 ++ lit ":" ++ appendInt minute 2)
          simp only [List.append_assoc] at h hbt
          rw [hbt] at h
          have := hu2 b t h
          omega
      · intro _
        have hlen : (appendInt year 4 ++ lit "-" ++ appendInt month 2 ++ lit "-" ++
            appendInt day 2).length = 10 := by
          simp only [List.length_append, hly, hlm, hld, hdash]
        have hsplit : appendInt year 4 ++ lit "-" ++ appendInt month 2 ++ lit "-" ++
            appendInt day 2 ++ lit " " ++ appendInt hour 2 ++ lit ":" ++ appendInt minute 2 =
            (appendInt year 4 ++ lit "-" ++ appendInt month 2 ++ lit "-" ++ appendInt day 2) ++
              (lit " " ++ appendInt hour 2 ++ lit ":" ++ appendInt minute 2) := by
          simp only [List.append_assoc]
        rw [hsplit, List.take_left' hlen]

set_option maxRecDepth 100000 in
/-- C26, witness: the timestamp of the test of the repository. -/
theorem C26_filename_date_is_date_prefix_witness :
    FormatDate exampleLibClock (lit "2026-01-21T20:30:01.410Z") = lit "2026-01-21 20:30" ∧
    FormatDateForFilename exampleLibClock (lit "2026-01-21T20:30:01.410Z") = lit "2026-01-21" ∧
    ((FormatDateForFilename exampleLibClock (lit "2026-01-21T20:30:01.410Z") =
        lit "unknown-date" ↔
      FormatDate exampleLibClock (lit "2026-01-21T20:30:01.410Z") = lit "Unknown date") ∧
    (FormatDate exampleLibClock (lit "2026-01-21T20:30:01.410Z") ≠ lit "Unknown date" →
      FormatDateForFilename exampleLibClock (lit "2026-01-21T20:30:01.410Z") =
        (FormatDate exampleLibClock (lit "2026-01-21T20:30:01.410Z")).take 10)) :=
  ⟨by decide, by decide,
    C26_filename_date_is_date_prefix exampleLibClock (lit "2026-01-21T20:30:01.410Z")
      (by
        intro layout year month day hour minute h
        simp only [exampleLibClock] at h
        split at h
        · simp only [Option.some.injEq, Prod.mk.injEq] at h
          omega
        · exact absurd h (by simp))⟩

theorem parseLoop_none (go : GoLib) (timestamp : GoString) (layouts : List GoString)
    (h : ∀ layout ∈ layouts, go.timeParse layout timestamp = none) :
    parseLoop go timestamp layouts = none := by
  induction layouts with
  | nil => rfl
  | cons l ls ih =>
    rw [parseLoop, h l (List.mem_cons_self _ _)]
    exact ih (fun layout hl => h layout (List.mem_cons_of_mem _ hl))

theorem parseLoop_some (go : GoLib) (timestamp : GoString) (layouts : List GoString)
    (fields : Nat × Nat × Nat × Nat × Nat)
    (hvalid : ∃ layout ∈ layouts, go.timeParse layout timestamp ≠ none)
    (hread : ∀ layout ∈ layouts, ∀ r, go.timeParse layout timestamp = some r → r = fields) :
    parseLoop go timestamp layouts = some fields := by
  induction layouts with
  | nil =>
    obtain ⟨layout, hl, _⟩ := hvalid
    simp at hl
  | cons l ls ih =>
    rw [parseLoop]
    cases hp : go.timeParse l timestamp with
    | some r =>
      rw [hread l (List.mem_cons_self _ _) r hp]
    | none =>
      apply ih
      · obtain ⟨layout, hl, hne⟩ := hvalid
        rcases List.mem_cons.1 hl with rfl | hl2
        · exact absurd hp hne
        · exact ⟨layout, hl2, hne⟩
      · exact fun layout hl => hread layout (List.mem_cons_of_mem _ hl)

set_option maxRecDepth 100000 in
/-- C25: `FormatDate` returns "Unknown date" for the empty string and for every
string that `time.Parse` accepts under none of the four layouts.  For a
timestamp "YYYY-MM-DDTHH:MM:SSZ" or "YYYY-MM-DDTHH:MM:SS.mmmZ" that is valid,
which is to say that `time.Parse` accepts it under one of the layouts, reading
the fields as they are written, `FormatDate` returns the 16 bytes
"YYYY-MM-DD HH:MM" with the same zero-padded fields: the first ten bytes of
the timestamp, a space, and its bytes 11 to 15.  The timestamps of the test of
the repository are evaluated. -/
theorem C25_format_date (go : GoLib) (timestamp : GoString)
    (year month day hour minute second : Nat) (frac : GoString) :
    FormatDate go (lit "") = lit "Unknown date" ∧
    ((∀ layout ∈ dateLayouts, go.timeParse layout timestamp = none) →
      FormatDate go timestamp = lit "Unknown date") ∧
    (year < 10000 → month < 100 → day < 100 → hour < 100 → minute < 100 →
      (∃ layout ∈ dateLayouts,
        go.timeParse layout (timestampOf year month day hour minute second frac) ≠ none) →
      (∀ layout ∈ dateLayouts, ∀ r,
        go.timeParse layout (timestampOf year month day hour minute second frac) = some r →
          r = (year, month, day, hour, minute)) →
      FormatDate go (timestampOf year month day hour minute second frac) =
          appendInt year 4 ++ lit "-" ++ appendInt month 2 ++ lit "-" ++ appendInt day 2 ++
            lit " " ++ appendInt hour 2 ++ lit ":" ++ appendInt minute 2 ∧
        (FormatDate go (timestampOf year month day hour minute second frac)).length = 16 ∧
        FormatDate go (timestampOf year month day hour minute second frac) =
          (timestampOf year month day hour minute second frac).take 10 ++ lit " " ++
            ((timestampOf year month day hour minute second frac).drop 11).take 5) ∧
    FormatDate exampleLibClock (lit "2026-01-21T20:30:01.410Z") = lit "2026-01-21 20:30" ∧
    FormatDate exampleLibClock (lit "not-a-date") = lit "Unknown date" := by
  refine ⟨rfl, fun h => ?_, ?_, by decide, by decide⟩
  · unfold FormatDate
    rw [parseLoop_none go timestamp dateLayouts h]
    split <;> rfl
  · intro hy hmo hd hh hmi hvalid hread
    have hly := appendInt_length year 3 (by simpa using hy)
    have hlm := appendInt_length month 1 (by simpa using hmo)
    have hld := appendInt_length day 1 (by simpa using hd)
    have hlh := appendInt_length hour 1 (by simpa using hh)
    have hli := appendInt_length minute 1 (by simpa using hmi)
    have h1 : (lit "-").length = 1 := by decide
    have h2 : (lit " ").length = 1 := by decide
    have h3 : (lit ":").length = 1 := by decide
    have h4 : (lit "T").length = 1 := by decide
    have hne : timestampOf year month day hour minute second frac ≠ [] := by
      intro h
      have hl := congrArg List.length h
      unfold timestampOf at hl
      simp only [List.length_append, hly, List.length_nil] at hl
      omega
    have hp := parseLoop_some go _ dateLayouts _ hvalid hread
    have hF : FormatDate go (timestampOf year month day hour minute second frac) =
        appendInt year 4 ++ lit "-" ++ appendInt month 2 ++ lit "-" ++ appendInt day 2 ++
          lit " " ++ appendInt hour 2 ++ lit ":" ++ appendInt minute 2 := by
      unfold FormatDate
      rw [if_neg hne, hp]
    have hdate : (appendInt year 4 ++ lit "-" ++ appendInt month 2 ++ lit "-" ++
        appendInt day 2).length = 10 := by
      simp only [List.length_append, hly, hlm, hld, h1]
    have htime : (appendInt hour 2 ++ lit ":" ++ appendInt minute 2).length = 5 := by
      simp only [List.length_append, hlh, hli, h3]
    have hshape : timestampOf year month day hour minute second frac =
        (appendInt year 4 ++ lit "-" ++ appendInt month 2 ++ lit "-" ++ appendInt day 2) ++
          (lit "T" ++ ((appendInt hour 2 ++ lit ":" ++ appendInt minute 2) ++
            (lit ":" ++ appendInt second 2 ++ frac ++ lit "Z"))) := by
      unfold timestampOf
      simp only [List.append_assoc]
    have htake : (timestampOf year month day hour minute second frac).take 10 =
        appendInt year 4 ++ lit "-" ++ appendInt month 2 ++ lit "-" ++ appendInt day 2 := by
      rw [hshape, List.take_left' hdate]
    have hdrop : ((timestampOf year month day hour minute second frac).drop 11).take 5 =
        appendInt hour 2 ++ lit ":" ++ appendInt minute 2 := by
      have h11 : (appendInt year 4 ++ lit "-" ++ appendInt month 2 ++ lit "-" ++
          appendInt day 2 ++ lit "T").length = 11 := by
        simp only [List.length_append, hly, hlm, hld, h1, h4]
      have hshape2 : timestampOf year month day hour minute second frac =
          (appendInt year 4 ++ lit "-" ++ appendInt month 2 ++ lit "-" ++ appendInt day 2 ++
            lit "T") ++ ((appendInt hour 2 ++ lit ":" ++ appendInt minute 2) ++
              (lit ":" ++ appendInt second 2 ++ frac ++ lit "Z")) := by
        unfold timestampOf
        simp only [List.append_assoc]
      rw [hshape2, List.drop_left' h11, List.take_left' htime]
    refine ⟨hF, ?_, ?_⟩
    · rw [hF]
      simp only [List.length_append, hly, hlm, hld, hlh, hli, h1, h2, h3]
    · rw [htake, hdrop, hF]
      simp only [List.append_assoc]

/-! ### The decoder (cache.go) -/

/-- C23: `ParseCache` returns an error, and no state, for every input that is
not valid JSON, for every input whose decoded "cache" member is the empty
string (it is absent, or empty), and for every input whose "cache" string is
not valid JSON.  `json.Unmarshal` fails on a text that is not valid JSON. -/
theorem C23_parse_cache_errors (js : JsonLib) (data : GoString)
    (hlaw : ∀ text, js.valid text = false →
      (∃ err, js.unmarshalOuter text = .error err) ∧
      (∃ err, js.unmarshalInner text = .error err)) :
    (js.valid data = false → ∃ err, ParseCache js data = .error err) ∧
    (js.unmarshalOuter data = .ok [] → ParseCache js data = .error (lit "cache field is empty")) ∧
    (∀ cache, js.unmarshalOuter data = .ok cache → js.valid cache = false →
      ∃ err, ParseCache js data = .error err) ∧
    (∀ err, js.unmarshalOuter data = .error err →
      ParseCache js data = .error (lit "failed to parse outer cache JSON: " ++ err)) ∧
    (∀ cache err, js.unmarshalOuter data = .ok cache → cache ≠ [] →
      js.unmarshalInner cache = .error err →
      ParseCache js data = .error (lit "failed to parse inner cache JSON: " ++ err)) := by
  have houter : ∀ err, js.unmarshalOuter data = .error err →
      ParseCache js data = .error (lit "failed to parse outer cache JSON: " ++ err) := by
    intro err h
    unfold ParseCache
    rw [h]
  have hempty : js.unmarshalOuter data = .ok [] →
      ParseCache js data = .error (lit "cache field is empty") := by
    intro h
    unfold ParseCache
    rw [h]
    rfl
  have hinner : ∀ cache err, js.unmarshalOuter data = .ok cache → cache ≠ [] →
      js.unmarshalInner cache = .error err →
      ParseCache js data = .error (lit "failed to parse inner cache JSON: " ++ err) := by
    intro cache err h hne hi
    unfold ParseCache
    rw [h]
    simp only [if_neg hne, hi]
  refine ⟨fun hv => ?_, hempty, fun cache h hv => ?_, houter, hinner⟩
  · obtain ⟨err, he⟩ := (hlaw data hv).1
    exact ⟨_, houter err he⟩
  · by_cases hne : cache = []
    · rw [hne] at h
      exact ⟨_, hempty h⟩
    · obtain ⟨err, he⟩ := (hlaw cache hv).2
      exact ⟨_, hinner cache err h hne he⟩

/-- C23, witness: three inputs like those of the test of the repository, a text
that is no JSON, an empty "cache" member and a "cache" string that is no JSON. -/
theorem C23_parse_cache_errors_witness :
    ParseCache exampleJson (lit "not valid json") =
      .error (lit "failed to parse outer cache JSON: invalid character") ∧
    ParseCache exampleJson (lit "\x7b\"cache\":\"\"\x7d") = .error (lit "cache field is empty") ∧
    ParseCache exampleJson (lit "\x7b\"cache\":\"not valid json\"\x7d") =
      .error (lit "failed to parse inner cache JSON: invalid character") ∧
    (exampleJson.valid (lit "not valid json") = false →
      ∃ err, ParseCache exampleJson (lit "not valid json") = .error err) :=
  ⟨rfl, rfl, rfl, (C23_parse_cache_errors exampleJson (lit "not valid json") (by
    intro text hv
    simp only [exampleJson, decide_eq_false_iff_not, not_or] at hv ⊢
    obtain ⟨h1, h2, h3, h4⟩ := hv
    constructor
    · rw [if_neg h1, if_neg (by rintro (h | h); exact h3 h; exact h2 h), if_neg h4]
      exact ⟨_, rfl⟩
    · rw [if_neg h2, if_neg (by rintro (h | h | h); exact h1 h; exact h3 h; exact h4 h)]
      exact ⟨_, rfl⟩)).1⟩

/-- C24: when `ParseCache` succeeds, both maps of the state are not nil; and
whenever the outer text decodes to a non-empty "cache" string and that string
decodes, `ParseCache` succeeds, with an empty map in place of each map that
the decoding left nil, as for the inner text with an empty state. -/
theorem C24_parse_cache_initializes_maps (js : JsonLib) (data : GoString) :
    (∀ state, ParseCache js data = .ok state →
      state.Documents ≠ none ∧ state.Transcripts ≠ none) ∧
    (∀ cache raw, js.unmarshalOuter data = .ok cache → cache ≠ [] →
      js.unmarshalInner cache = .ok raw →
      ParseCache js data = .ok ⟨some (raw.Documents.getD []), some (raw.Transcripts.getD [])⟩ ∧
      (raw.Documents = none → ∃ state, ParseCache js data = .ok state ∧
        state.Documents = some []) ∧
      (raw.Transcripts = none → ∃ state, ParseCache js data = .ok state ∧
        state.Transcripts = some [])) ∧
    ParseCache exampleJson (lit "\x7b\"cache\":\"\x7b\\\"state\\\":\x7b\x7d\x7d\"\x7d") =
      .ok ⟨some [], some []⟩ := by
  have hok : ∀ cache raw, js.unmarshalOuter data = .ok cache → cache ≠ [] →
      js.unmarshalInner cache = .ok raw →
      ParseCache js data =
        .ok ⟨some (raw.Documents.getD []), some (raw.Transcripts.getD [])⟩ := by
    intro cache raw h hne hi
    unfold ParseCache
    rw [h]
    simp only [if_neg hne, hi]
    cases raw.Documents <;> cases raw.Transcripts <;> rfl
  refine ⟨fun state h => ?_, fun cache raw h hne hi => ⟨hok cache raw h hne hi, ?_, ?_⟩, rfl⟩
  · unfold ParseCache at h
    split at h
    · exact Except.noConfusion h
    · split at h
      · exact Except.noConfusion h
      · split at h
        · exact Except.noConfusion h
        · simp only [Except.ok.injEq] at h
          rw [← h]
          exact ⟨by simp, by simp⟩
  · intro hd
    refine ⟨_, hok cache raw h hne hi, ?_⟩
    rw [hd]
    rfl
  · intro ht
    refine ⟨_, hok cache raw h hne hi, ?_⟩
    rw [ht]
    rfl

/-! ### Thousand separators (formatter.go) -/

theorem joinCommas_cons_cons (g g2 : GoString) (gs : List GoString) :
    joinCommas (g :: g2 :: gs) = g ++ 44 :: joinCommas (g2 :: gs) := rfl

theorem chunksLoop_nil (fuel : Nat) : chunksLoop fuel [] = [] := by
  cases fuel <;> rfl

theorem chunksLoop_succ (fuel : Nat) (s : GoString) (hs : s ≠ []) :
    chunksLoop (fuel + 1) s = s.take 3 :: chunksLoop fuel (s.drop 3) := by
  simp [chunksLoop, hs]

theorem commaLoop_of_le (fuel i : Nat) (str : GoString) (h : str.length ≤ i) :
    commaLoop fuel i str = [] := by
  cases fuel with
  | zero => rfl
  | succ f => simp [commaLoop, Nat.not_lt.2 h]

/-- The second loop writes the groups of three of the rest of the text, joined
by commas. -/
theorem commaLoop_eq (fuel : Nat) : ∀ (i : Nat) (str : GoString),
    str.length - i ≤ 3 * fuel →
      commaLoop fuel i str = joinCommas (chunksLoop fuel (str.drop i)) := by
  induction fuel with
  | zero =>
    intro i str h
    rfl
  | succ f ih =>
    intro i str h
    by_cases hi : i < str.length
    · have hne : str.drop i ≠ [] := by
        intro hd
        have := congrArg List.length hd
        simp only [List.length_drop, List.length_nil] at this
        omega
      have hdrop : (str.drop i).drop 3 = str.drop (i + 3) := by
        rw [List.drop_drop]
      rw [chunksLoop_succ f _ hne, hdrop]
      simp only [commaLoop, if_pos hi]
      by_cases h3 : i + 3 < str.length
      · have hne2 : str.drop (i + 3) ≠ [] := by
          intro hd
          have := congrArg List.length hd
          simp only [List.length_drop, List.length_nil] at this
          omega
        have hcomma : lit "," = [44] := by decide
        rw [if_pos h3, ih (i + 3) str (by omega), hcomma]
        cases f with
        | zero => omega
        | succ f2 =>
          rw [chunksLoop_succ f2 _ hne2, joinCommas_cons_cons]
          simp
      · have hnil : str.drop (i + 3) = [] := List.drop_eq_nil_of_le (by omega)
        rw [if_neg h3, commaLoop_of_le f (i + 3) str (by omega), hnil, chunksLoop_nil]
        simp [joinCommas]
    · have hnil : str.drop i = [] := List.drop_eq_nil_of_le (by omega)
      rw [commaLoop_of_le _ i str (by omega), hnil, chunksLoop_nil]
      rfl

/-- The groups of three put together are the text; none of them is empty or
longer than three bytes, and all have three bytes when the length of the text
is a multiple of three. -/
theorem chunksLoop_spec (fuel : Nat) : ∀ (s : GoString), s.length ≤ 3 * fuel →
    (chunksLoop fuel s).flatten = s ∧
    (∀ g ∈ chunksLoop fuel s, g ≠ [] ∧ g.length ≤ 3) ∧
    (s.length % 3 = 0 → ∀ g ∈ chunksLoop fuel s, g.length = 3) := by
  induction fuel with
  | zero =>
    intro s h
    have hs : s = [] := List.length_eq_zero.1 (by omega)
    subst hs
    simp [chunksLoop]
  | succ f ih =>
    intro s h
    by_cases hs : s = []
    · subst hs
      simp [chunksLoop]
    · have hpos : 0 < s.length := List.length_pos.2 hs
      obtain ⟨i1, i2, i3⟩ := ih (s.drop 3) (by simp only [List.length_drop]; omega)
      rw [chunksLoop_succ f s hs]
      refine ⟨?_, ?_, ?_⟩
      · rw [List.flatten_cons, i1, List.take_append_drop]
      · intro g hg
        rcases List.mem_cons.1 hg with rfl | hg
        · constructor
          · intro ht
            have := congrArg List.length ht
            simp only [List.length_take, List.length_nil] at this
            omega
          · simp only [List.length_take]
            omega
        · exact i2 g hg
      · intro hmod g hg
        rcases List.mem_cons.1 hg with rfl | hg
        · simp only [List.length_take]
          omega
        · apply i3 _ g hg
          simp only [List.length_drop]
          omega

/-- The result of `NumberWithCommas` is made of groups joined by commas: a
first group of at most three bytes and groups of exactly three bytes, which
put together are the text of `fmt.Sprintf("%d", n)`. -/
theorem numberWithCommas_groups (n : Int) :
    ∃ first groups, NumberWithCommas n = joinCommas (first :: groups) ∧
      first ++ groups.flatten = formatInt n ∧ first.length ≤ 3 ∧
      (formatInt n ≠ [] → first ≠ []) ∧ ∀ g ∈ groups, g.length = 3 := by
  unfold NumberWithCommas
  simp only
  generalize formatInt n = str
  by_cases hlen : str.length ≤ 3
  · rw [if_pos hlen]
    exact ⟨str, [], rfl, by simp, hlen, fun h => h, by simp⟩
  · rw [if_neg hlen]
    have hne : str ≠ [] := by
      intro h
      rw [h] at hlen
      simp at hlen
    by_cases hr : str.length % 3 > 0
    · have hlt : str.length % 3 < 3 := Nat.mod_lt _ (by omega)
      have hgt : str.length > str.length % 3 := by omega
      have hcomma : lit "," = [44] := by decide
      rw [if_pos hr, if_pos hgt, commaLoop_eq _ _ _ (by omega), hcomma]
      have hdne : str.drop (str.length % 3) ≠ [] := by
        intro hd
        have := congrArg List.length hd
        simp only [List.length_drop, List.length_nil] at this
        omega
      obtain ⟨c1, c2, c3⟩ := chunksLoop_spec str.length (str.drop (str.length % 3))
        (by simp only [List.length_drop]; omega)
      refine ⟨str.take (str.length % 3), chunksLoop str.length (str.drop (str.length % 3)),
        ?_, ?_, ?_, ?_, ?_⟩
      · cases hc : chunksLoop str.length (str.drop (str.length % 3)) with
        | nil =>
          rw [hc] at c1
          exact absurd c1.symm hdne
        | cons g gs =>
          rw [joinCommas_cons_cons]
          simp
      · rw [c1, List.take_append_drop]
      · simp only [List.length_take]
        omega
      · intro _ ht
        have := congrArg List.length ht
        simp only [List.length_take, List.length_nil] at this
        omega
      · apply c3
        simp only [List.length_drop]
        omega
    · have hr0 : str.length % 3 = 0 := by omega
      rw [if_neg hr, hr0, commaLoop_eq _ _ _ (by omega), List.drop_zero, List.nil_append]
      obtain ⟨k, hk⟩ : ∃ k, str.length = k + 1 := ⟨str.length - 1, by omega⟩
      rw [hk, chunksLoop_succ k str hne]
      obtain ⟨c1, c2, c3⟩ := chunksLoop_spec k (str.drop 3)
        (by simp only [List.length_drop]; omega)
      refine ⟨str.take 3, chunksLoop k (str.drop 3), rfl, ?_, ?_, ?_, ?_⟩
      · rw [c1, List.take_append_drop]
      · simp only [List.length_take]
        omega
      · intro _ ht
        have := congrArg List.length ht
        simp only [List.length_take, List.length_nil] at this
        omega
      · apply c3
        simp only [List.length_drop]
        omega

/-- For a number that is not negative the text of `fmt.Sprintf("%d", n)` is not
empty and made of digits only; so are the groups of `numberWithCommas_groups`,
and every comma stands between two digits. -/
theorem formatInt_nat_digits (n : Nat) :
    formatInt (n : Int) ≠ [] ∧ ∀ b ∈ formatInt (n : Int), 48 ≤ b ∧ b ≤ 57 := by
  have hnn : ¬ ((n : Int) < 0) := by omega
  unfold formatInt
  rw [if_neg hnn]
  constructor
  · intro h
    have hpow : (n : Int).natAbs < 10 ^ ((n : Int).natAbs + 1) :=
      lt_trans (Nat.lt_succ_self _) (Nat.lt_pow_self (by norm_num : 1 < 10) _)
    have := (decimalLoop_length _ _ _ [] hpow (Nat.lt_succ_self _)).1
    rw [h] at this
    simp at this
  · exact decimalLoop_digits _ _ [] (by simp)

set_option maxRecDepth 100000 in
/-- C28, the code at the number -123: the examples of the specification are
formatted as it says, "1,234,567" and "100", and -1234 gives "-1,234"; but for
-123 the text "-123" has four bytes and the first group is the sign alone, so
the result is "-,123", with a comma that does not stand between two digits. -/
theorem C28_comma_after_the_sign :
    NumberWithCommas 1234567 = lit "1,234,567" ∧ NumberWithCommas 100 = lit "100" ∧
    NumberWithCommas 0 = lit "0" ∧ NumberWithCommas 1000 = lit "1,000" ∧
    NumberWithCommas (-1234) = lit "-1,234" ∧
    formatInt (-123) = lit "-123" ∧ NumberWithCommas (-123) = lit "-,123" := by
  decide

/-! ### The file name of a document holds no separator -/

theorem digit_not_unsafe (b : Nat) (h : 48 ≤ b ∧ b ≤ 57) : b ∉ unsafeChars := by
  intro hu
  unfold unsafeChars at hu
  simp only [List.mem_cons, List.mem_singleton, List.not_mem_nil, or_false] at hu
  omega

/-- The date of a file name holds no unsafe byte. -/
theorem formatDateForFilename_safe (go : GoLib) (timestamp : GoString) :
    ∀ b ∈ FormatDateForFilename go timestamp, b ∉ unsafeChars := by
  have hu : ∀ b ∈ lit "unknown-date", b ∉ unsafeChars := by decide
  have hdash : ∀ b ∈ lit "-", b ∉ unsafeChars := by decide
  unfold FormatDateForFilename
  split
  · exact hu
  · split
    · exact hu
    · intro b hb
      simp only [List.mem_append] at hb
      rcases hb with (((hb | hb) | hb) | hb) | hb
      · exact digit_not_unsafe b (appendInt_digits _ _ b hb)
      · exact hdash b hb
      · exact digit_not_unsafe b (appendInt_digits _ _ b hb)
      · exact hdash b hb
      · exact digit_not_unsafe b (appendInt_digits _ _ b hb)

/-- The file name `SafeFilename` builds from a date without unsafe bytes holds
none. -/
theorem safeFilename_safe (title dateStr : GoString) (hdate : ∀ b ∈ dateStr, b ∉ unsafeChars) :
    ∀ b ∈ SafeFilename title dateStr, b ∉ unsafeChars := by
  have hu : ∀ b ∈ lit "_", b ∉ unsafeChars := by decide
  have hm : ∀ b ∈ lit ".md", b ∉ unsafeChars := by decide
  intro b hb
  unfold SafeFilename at hb
  simp only [List.mem_append] at hb
  rcases hb with ((hb | hb) | hb) | hb
  · exact hdate b hb
  · exact hu b hb
  · exact (safeTitleOf_safe title).2 b hb
  · exact hm b hb

/-- The loop changes nothing under a name that is not the file name of one of
its documents. -/
theorem exportLoop_lookup_other (go : GoLib) (os : Os) (T : GoMap (List TranscriptEntry))
    (docs : List Document) (result : ExportResult) (dir : Dir) (q : GoString)
    (hq : ∀ d ∈ docs, q ≠ outputPath go d) :
    (exportLoop go os T docs result dir).2.lookup q = dir.lookup q := by
  induction docs generalizing result dir with
  | nil => rfl
  | cons doc docs ih =>
    obtain ⟨r1, hstep, _⟩ := exportLoop_step go os T doc docs result dir
    rw [hstep, ih r1 _ (fun d hd => hq d (List.mem_cons_of_mem _ hd))]
    exact exportDocument_lookup_other go os doc T result dir q (hq doc (List.mem_cons_self _ _))

set_option maxRecDepth 100000 in
/-- C31: the file name `exportDocument` computes for a document, whatever its
title and creation date, holds none of the unsafe characters, so neither "/"
nor "\", and ends in ".md".  The name therefore stands for a direct child of
the output directory; `exportDocument` changes nothing under any other name,
and `Export` nothing under a name that is not the file name of a candidate.
A title made to leave the directory is evaluated. -/
theorem C31_file_name_is_safe (go : GoLib) (os : Os) (doc : Document)
    (T : GoMap (List TranscriptEntry)) (result : ExportResult) (dir : Dir) (state : CacheState) :
    outputPath go doc = SafeFilename (if doc.Title = [] then lit "Untitled" else doc.Title)
      (FormatDateForFilename go doc.CreatedAt) ∧
    (∀ b ∈ outputPath go doc, b ∉ unsafeChars) ∧
    0x2F ∉ outputPath go doc ∧ 0x5C ∉ outputPath go doc ∧
    (∃ stem, outputPath go doc = stem ++ lit ".md") ∧
    (∀ q, q ≠ outputPath go doc →
      (exportDocument go os doc T result dir).2.1.lookup q = dir.lookup q) ∧
    (∀ q r dir1, (∀ d ∈ exportable state, q ≠ outputPath go d) →
      Export go os state dir = some (r, dir1) → dir1.lookup q = dir.lookup q) ∧
    outputPath exampleLib ⟨lit "d", lit "../../etc/passwd", [], [], []⟩ =
      lit "unknown-date_....etcpasswd.md" := by
  have hsafe : ∀ b ∈ outputPath go doc, b ∉ unsafeChars :=
    safeFilename_safe _ _ (formatDateForFilename_safe go doc.CreatedAt)
  have hslash : 0x2F ∈ unsafeChars := by decide
  have hback : 0x5C ∈ unsafeChars := by decide
  refine ⟨rfl, hsafe, fun h => hsafe _ h hslash, fun h => hsafe _ h hback, ⟨_, rfl⟩,
    fun q hq => exportDocument_lookup_other go os doc T result dir q hq, ?_, by decide⟩
  intro q r dir1 hq h
  have hmk : os.mkdirAll = true := by
    by_contra hno
    simp [Export, hno] at h
  simp only [Export, hmk, if_true, Option.some.injEq] at h
  have hd := congrArg Prod.snd h
  simp only at hd
  rw [← hd]
  exact exportLoop_lookup_other go os state.Transcripts (exportable state) _ dir q hq
/-! ### The speaker mapping read back -/

/-- C32: for a non-empty source made of lower-case ASCII letters, digits and
underscores only, other than "me" and "them", `SpeakerToSource` gives the
source back from the label of `SourceToSpeaker`; so it does for "microphone"
and "system". -/
theorem C32_speaker_mapping_is_invertible (go : GoLib) (source : GoString)
    (hne : source ≠ []) (hlow : ∀ b ∈ source, isLowerWordByte b = true)
    (hme : source ≠ lit "me") (hthem : source ≠ lit "them") :
    SpeakerToSource go (SourceToSpeaker source) = source ∧
    SpeakerToSource go (SourceToSpeaker (lit "microphone")) = lit "microphone" ∧
    SpeakerToSource go (SourceToSpeaker (lit "system")) = lit "system" := by
  have hmic : SpeakerToSource go (SourceToSpeaker (lit "microphone")) = lit "microphone" := rfl
  have hsys : SpeakerToSource go (SourceToSpeaker (lit "system")) = lit "system" := rfl
  refine ⟨?_, hmic, hsys⟩
  by_cases h1 : source = lit "microphone"
  · rw [h1]
    exact hmic
  · by_cases h2 : source = lit "system"
    · rw [h2]
      exact hsys
    · cases source with
      | nil => exact absurd rfl hne
      | cons b rest =>
        obtain ⟨u, hu, huw, hul⟩ := toUpperByte_of_lower b (hlow b (List.mem_cons_self _ _))
        have e : SourceToSpeaker (b :: rest) = u :: rest := by
          simp [SourceToSpeaker, h1, h2, hu]
        have hword : ∀ x ∈ u :: rest, isWordByte x = true := by
          intro x hx
          rcases List.mem_cons.1 hx with rfl | hx
          · exact huw
          · exact isWordByte_of_lower x (hlow x (List.mem_cons_of_mem _ hx))
        have hMe : lit "Me" = [77, 101] := by decide
        have hThem : lit "Them" = [84, 104, 101, 109] := by decide
        have hme2 : lit "me" = [109, 101] := by decide
        have hthem2 : lit "them" = [116, 104, 101, 109] := by decide
        have g1 : u :: rest ≠ lit "Me" := by
          intro h
          rw [hMe] at h
          obtain ⟨hu1, hr1⟩ := List.cons.inj h
          apply hme
          rw [hme2, hr1, ← hul, hu1]
          rfl
        have g2 : u :: rest ≠ lit "Them" := by
          intro h
          rw [hThem] at h
          obtain ⟨hu1, hr1⟩ := List.cons.inj h
          apply hthem
          rw [hthem2, hr1, ← hul, hu1]
          rfl
        rw [e]
        unfold SpeakerToSource
        rw [if_neg g1, if_neg g2, toLower_word go _ hword, List.map_cons, hul,
          map_asciiLower_of_lower rest (fun x hx => hlow x (List.mem_cons_of_mem _ hx))]

set_option maxRecDepth 100000 in
/-- C32, witness: the source "speaker1" of the test of the repository. -/
theorem C32_speaker_mapping_is_invertible_witness :
    SourceToSpeaker (lit "speaker1") = lit "Speaker1" ∧
    (SpeakerToSource exampleLib (SourceToSpeaker (lit "speaker1")) = lit "speaker1" ∧
      SpeakerToSource exampleLib (SourceToSpeaker (lit "microphone")) = lit "microphone" ∧
      SpeakerToSource exampleLib (SourceToSpeaker (lit "system")) = lit "system") :=
  ⟨by decide, C32_speaker_mapping_is_invertible exampleLib (lit "speaker1")
    (by decide) (by decide) (by decide) (by decide)⟩
/-! ### Notes in markdown that are blank -/

/-- C33 (as amended): for a document whose `notes_markdown` is not empty and
blank, whatever `notes_plain` holds, `GetNotes` returns `notes_markdown`, and
`FormatDocumentMarkdown` renders the document like one without any notes: no
line "## AI-Generated Notes", nothing of `notes_plain`.  When the cache has no
transcript entry for the document, `exportDocument` counts it as empty and
writes nothing; `Export` does so when the document is a candidate, that is
when `HasExportableContent` holds for it, and ignores it otherwise. -/
theorem C33_blank_markdown_notes (go : GoLib) (os : Os) (doc : Document)
    (T : GoMap (List TranscriptEntry)) (result : ExportResult) (dir : Dir) (key : GoString)
    (entries : List TranscriptEntry)
    (hne : doc.NotesMarkdown ≠ []) (hblank : TrimSpace doc.NotesMarkdown = []) :
    GetNotes doc = doc.NotesMarkdown ∧ hasNotes doc = false ∧
    FormatDocumentMarkdown go doc entries =
      FormatDocumentMarkdown go ⟨doc.ID, doc.Title, doc.CreatedAt, [], []⟩ entries ∧
    (transcriptOf T doc.ID = [] →
      exportDocument go os doc T result dir =
        (⟨result.Written, result.Skipped, result.Empty + 1, result.Errors⟩, dir, none)) ∧
    (transcriptOf T doc.ID = [] → os.mkdirAll = true →
      Export go os ⟨[(key, doc)], T⟩ dir =
        some (if HasExportableContent doc T then ⟨0, 0, 1, []⟩ else ⟨0, 0, 0, []⟩, dir)) := by
  have hget : GetNotes doc = doc.NotesMarkdown := by
    unfold GetNotes
    rw [if_pos hne]
  have hhas : hasNotes doc = false := by
    unfold hasNotes
    rw [hget, hblank]
    simp
  have hhas0 : hasNotes ⟨doc.ID, doc.Title, doc.CreatedAt, [], []⟩ = false := by
    simp [hasNotes, GetNotes]
  have hstep : transcriptOf T doc.ID = [] →
      exportDocument go os doc T result dir =
        (⟨result.Written, result.Skipped, result.Empty + 1, result.Errors⟩, dir, none) := by
    intro hT
    unfold exportDocument
    rw [if_pos ⟨Or.inr (by rw [hget]; exact hblank), by rw [hT]; rfl⟩]
  refine ⟨hget, hhas, ?_, hstep, ?_⟩
  · unfold FormatDocumentMarkdown documentLines
    rw [hhas, hhas0]
    simp only [Bool.false_eq_true, if_false]
  · intro hT hmk
    have hstep0 : exportDocument go os doc T ⟨0, 0, 0, []⟩ dir =
        (⟨0, 0, 0 + 1, []⟩, dir, none) := by
      unfold exportDocument
      rw [if_pos ⟨Or.inr (by rw [hget]; exact hblank), by rw [hT]; rfl⟩]
    unfold Export
    rw [if_pos hmk]
    by_cases hc : HasExportableContent doc T = true
    · have he : exportable ⟨[(key, doc)], T⟩ = [doc] := by
        simp [exportable, hc]
      rw [he, if_pos hc, exportLoop_cons, hstep0]
      rfl
    · have he : exportable ⟨[(key, doc)], T⟩ = [] := by
        simp [exportable, hc]
      rw [he, if_neg hc]
      rfl

set_option maxRecDepth 100000 in
/-- C33, witness: a document with three spaces of `notes_markdown` and sixteen
bytes of `notes_plain`, which make it a candidate. -/
theorem C33_blank_markdown_notes_witness :
    GetNotes exampleDocBlankMarkdownPlain = exampleDocBlankMarkdownPlain.NotesMarkdown ∧
    hasNotes exampleDocBlankMarkdownPlain = false ∧
    FormatDocumentMarkdown exampleLib exampleDocBlankMarkdownPlain [] =
      FormatDocumentMarkdown exampleLib
        ⟨exampleDocBlankMarkdownPlain.ID, exampleDocBlankMarkdownPlain.Title,
          exampleDocBlankMarkdownPlain.CreatedAt, [], []⟩ [] ∧
    (transcriptOf [] exampleDocBlankMarkdownPlain.ID = [] →
      exportDocument exampleLib exampleOs exampleDocBlankMarkdownPlain [] ⟨0, 0, 0, []⟩ [] =
        (⟨0, 0, 0 + 1, []⟩, [], none)) ∧
    (transcriptOf [] exampleDocBlankMarkdownPlain.ID = [] → exampleOs.mkdirAll = true →
      Export exampleLib exampleOs ⟨[(lit "b", exampleDocBlankMarkdownPlain)], []⟩ [] =
        some (if HasExportableContent exampleDocBlankMarkdownPlain [] then ⟨0, 0, 1, []⟩
          else ⟨0, 0, 0, []⟩, [])) :=
  C33_blank_markdown_notes exampleLib exampleOs exampleDocBlankMarkdownPlain [] ⟨0, 0, 0, []⟩ []
    (lit "b") [] (by decide) (by decide)

set_option maxRecDepth 100000 in
/-- C33, the claim as stated fails: a document with three spaces of
`notes_markdown`, empty `notes_plain` and no transcript is no candidate, and
`Export` does not count it as empty; with sixteen bytes of `notes_plain` the
same document is a candidate and is counted.  So `notes_plain` matters
although `notes_markdown` is not the empty string. -/
theorem C33_counterexample_not_a_candidate :
    exampleDocBlankMarkdown.NotesMarkdown ≠ [] ∧
    TrimSpace exampleDocBlankMarkdown.NotesMarkdown = [] ∧
    transcriptOf [] exampleDocBlankMarkdown.ID = [] ∧
    HasExportableContent exampleDocBlankMarkdown [] = false ∧
    Export exampleLib exampleOs ⟨[(lit "b", exampleDocBlankMarkdown)], []⟩ [] =
      some (⟨0, 0, 0, []⟩, []) ∧
    Export exampleLib exampleOs ⟨[(lit "b", exampleDocBlankMarkdownPlain)], []⟩ [] =
      some (⟨0, 0, 1, []⟩, []) := by
  decide

/-! ### Preservation of the transcript by a whole export -/

/-- C3 (as amended): let the output path of a document hold a readable and
writable file that the exporter wrote earlier, the rendering of a document
that does not mention "## Transcript" with a non-empty entry list whose speaker
labels (of the entries with non-blank text) are single words the speaker
mappings reproduce, as "Me" and "Them" are, and whose trimmed texts contain no
newline.  Let the cache state hold the document with non-blank notes and no
transcript entry, let the document be a candidate of the export
(`HasExportableContent` holds for it), and let the candidates have pairwise
distinct file names.  Then `Export` leaves at the same path the rendering of
the current document with the prior entries of non-blank text: it holds the
current notes, and its entry lines are exactly those of the prior file, in the
same order. -/
theorem C3_prior_transcript_is_preserved (go : GoLib) (os : Os) (state : CacheState)
    (doc0 doc : Document) (es0 : List TranscriptEntry) (result : ExportResult) (dir dir1 : Dir)
    (hfree0 : headingFree doc0 = true) (hes0 : es0 ≠ [])
    (hread : ∀ e ∈ shownEntries es0,
      readable e ∧ SourceToSpeaker (SpeakerToSource go e.1) = e.1)
    (hdoc : doc ∈ state.Documents.map Prod.snd)
    (hcontent : HasExportableContent doc state.Transcripts = true)
    (hdistinct : ((exportable state).map (outputPath go)).Nodup)
    (hnotes : TrimSpace (GetNotes doc) ≠ [])
    (hT : transcriptOf state.Transcripts doc.ID = [])
    (hfile : dir.lookup (outputPath go doc) =
      some (Node.file (FormatDocumentMarkdown go doc0 es0) true true))
    (hexport : Export go os state dir = some (result, dir1)) :
    dir1.lookup (outputPath go doc) =
      some (Node.file (FormatDocumentMarkdown go doc (nonBlank es0)) true true) ∧
    GetNotes doc ∈ documentLines go doc (nonBlank es0) ∧
    transcriptLines (nonBlank es0) = transcriptLines es0 := by
  have hcand : doc ∈ exportable state := by
    unfold exportable
    exact List.mem_filter.2 ⟨hdoc, hcontent⟩
  have hmk : os.mkdirAll = true := by
    by_contra hno
    simp [Export, hno] at hexport
  simp only [Export, hmk, if_true, Option.some.injEq] at hexport
  have hd1 : (exportLoop go os state.Transcripts (exportable state) ⟨0, 0, 0, []⟩ dir).2 = dir1 :=
    congrArg Prod.snd hexport
  obtain ⟨_, fb, _⟩ := exportLoop_first go os state.Transcripts (exportable state)
    ⟨0, 0, 0, []⟩ dir hdistinct
  rw [hd1] at fb
  obtain ⟨h1, h2, h3⟩ := exportDocument_preserves_prior go os doc0 doc es0 state.Transcripts
    ⟨0, 0, 0, []⟩ dir hfree0 hes0 hread hnotes hT hfile
  exact ⟨by rw [fb doc hcand ⟨0, 0, 0, []⟩]; exact h1, h2, h3⟩

set_option maxRecDepth 100000 in
/-- C3, witness: the file of an earlier export with one entry of the source
"microphone", and a cache state with the document, new notes and no
transcript. -/
theorem C3_prior_transcript_is_preserved_witness :
    Export exampleLib exampleOs ⟨[(lit "d", exampleDoc)], []⟩
        [(outputPath exampleLib exampleDoc,
          Node.file (FormatDocumentMarkdown exampleLib examplePriorDoc examplePriorEntries)
            true true)] =
      some (⟨1, 0, 0, []⟩,
        [(lit "unknown-date_T.md", Node.file (lit
          "# T\nDate: Unknown date\nMeeting ID: d\n\n---\n\n## AI-Generated Notes\n\nSome notes here\n\n---\n\n## Transcript\n\n**Me:** Preserved transcript entry.\n")
          true true)]) ∧
    (List.lookup (outputPath exampleLib exampleDoc)
        [(lit "unknown-date_T.md", Node.file (lit
          "# T\nDate: Unknown date\nMeeting ID: d\n\n---\n\n## AI-Generated Notes\n\nSome notes here\n\n---\n\n## Transcript\n\n**Me:** Preserved transcript entry.\n")
          true true)] =
      some (Node.file (FormatDocumentMarkdown exampleLib exampleDoc (nonBlank examplePriorEntries))
        true true) ∧
    GetNotes exampleDoc ∈ documentLines exampleLib exampleDoc (nonBlank examplePriorEntries) ∧
    transcriptLines (nonBlank examplePriorEntries) = transcriptLines examplePriorEntries) :=
  ⟨by decide,
    C3_prior_transcript_is_preserved exampleLib exampleOs ⟨[(lit "d", exampleDoc)], []⟩
      examplePriorDoc exampleDoc examplePriorEntries ⟨1, 0, 0, []⟩
      [(outputPath exampleLib exampleDoc,
        Node.file (FormatDocumentMarkdown exampleLib examplePriorDoc examplePriorEntries)
          true true)]
      [(lit "unknown-date_T.md", Node.file (lit
        "# T\nDate: Unknown date\nMeeting ID: d\n\n---\n\n## AI-Generated Notes\n\nSome notes here\n\n---\n\n## Transcript\n\n**Me:** Preserved transcript entry.\n")
        true true)]
      (by decide) (by decide) (by decide) (by decide) (by decide) (by decide) (by decide)
      (by decide) (by decide) (by decide)⟩

/-- A document that is no candidate is not exported: when no candidate has the
file name `q`, `Export` leaves what stands under `q` as it was. -/
theorem export_lookup_other (go : GoLib) (os : Os) (state : CacheState) (dir dir1 : Dir)
    (result : ExportResult) (q : GoString)
    (hq : ∀ d ∈ exportable state, q ≠ outputPath go d)
    (hexport : Export go os state dir = some (result, dir1)) :
    dir1.lookup q = dir.lookup q := by
  have hmk : os.mkdirAll = true := by
    by_contra hno
    simp [Export, hno] at hexport
  simp only [Export, hmk, if_true, Option.some.injEq] at hexport
  have hd := congrArg Prod.snd hexport
  simp only at hd
  rw [← hd]
  exact exportLoop_lookup_other go os state.Transcripts (exportable state) _ dir q hq

set_option maxRecDepth 100000 in
/-- A document with the eight bytes "New note" as its notes and no key in the
transcript mapping is no candidate: the export counts nothing and the file of
the earlier export stays as it was, without the notes. -/
theorem export_skips_short_notes :
    HasExportableContent ⟨lit "d", lit "T", [], lit "New note", []⟩ [] = false ∧
    Export exampleLib exampleOs ⟨[(lit "d", ⟨lit "d", lit "T", [], lit "New note", []⟩)], []⟩
        [(lit "unknown-date_T.md",
          Node.file (FormatDocumentMarkdown exampleLib examplePriorDoc examplePriorEntries)
            true true)] =
      some (⟨0, 0, 0, []⟩,
        [(lit "unknown-date_T.md",
          Node.file (FormatDocumentMarkdown exampleLib examplePriorDoc examplePriorEntries)
            true true)]) := by
  decide

end GranolaExporter
